import Mathlib

/-!
# logcore: a shallow embedding of the logging engine

The Go sources embedded here are `logger/logger.go`, `logger/options.go` and
`internal/utils/formatter.go`.

* Go strings are Lean strings (sequences of code points); ordering of keys is the
  lexicographic order of the code points, which coincides with Go's bytewise order
  on UTF-8 text.
* A field value (`any`) is a closed universe `Value`: nil, booleans, integers,
  strings, `[]any`, `map[string]any`, and channels (the representative of the
  values `encoding/json` refuses to serialize).
* A Go map is an association list with pairwise distinct keys; the order in which a
  `range` loop visits it is chosen by an oracle of the environment.
* Slices are headers (pointer, length, capacity) into a memory of backing arrays;
  logger objects live in a heap and are addressed by pointers, so that copying and
  aliasing are visible in the model.
* A writer is a byte buffer that accepts every write or rejects every write; the state
  also records every `Write` call in order.
* The mutex is not modelled: every operation runs to completion on its own.
-/

set_option linter.unusedVariables false

namespace Logcore

/-! ## Values and fields -/

/-- The values a field may carry. -/
inductive Value where
  | null
  | bool (b : Bool)
  | int (n : Int)
  | str (s : String)
  | list (xs : List Value)
  | map (kvs : List (String × Value))
  | chan (addr : Nat)

instance : Inhabited Value := ⟨Value.null⟩

/-- The struct `Field` of logger.go. -/
structure Field where
  Key : String
  Value : Value

/-- The zero value of `Field`, held by the unused cells of a backing array. -/
def Field.zero : Field := ⟨"", Value.null⟩

instance : Inhabited Field := ⟨Field.zero⟩

/-- A Go `map[string]any`: an association list whose keys are pairwise distinct. -/
abbrev GoMap := List (String × Value)

/-- The lookup `m[k]` together with its `ok` flag. -/
def GoMap.get : GoMap → String → Option Value
  | [], _ => none
  | (k', v) :: rest, k => if k' = k then some v else GoMap.get rest k

/-- The assignment `m[k] = v`: an existing key keeps its place and takes the new value. -/
def GoMap.set : GoMap → String → Value → GoMap
  | [], k, v => [(k, v)]
  | (k', v') :: rest, k, v => if k' = k then (k, v) :: rest else (k', v') :: GoMap.set rest k v

/-- Keys are compared as sequences of code points. -/
def keyLE {β : Type} (a b : String × β) : Prop := a.1.data ≤ b.1.data

instance keyLE.decidable {β : Type} : DecidableRel (keyLE (β := β)) :=
  fun a b => inferInstanceAs (Decidable (a.1.data ≤ b.1.data))

instance keyLE.isTotal {β : Type} : IsTotal (String × β) keyLE :=
  ⟨fun a b => le_total a.1.data b.1.data⟩

instance keyLE.isTrans {β : Type} : IsTrans (String × β) keyLE :=
  ⟨fun _ _ _ hab hbc => le_trans hab hbc⟩

/-- The strict order of keys. -/
def keyLT {β : Type} (a b : String × β) : Prop := a.1.data < b.1.data

instance keyLT.isAntisymm {β : Type} : IsAntisymm (String × β) keyLT :=
  ⟨fun _ _ hab hba => absurd hab (lt_asymm hba)⟩

/-- Sorting of keyed items by key, as `encoding/json` and `fmt` do for maps. -/
def sortByKey {β : Type} (l : List (String × β)) : List (String × β) :=
  List.insertionSort keyLE l

/-! ## Library functions: strings, filepath, fmt -/

/-- Upper-casing of the letters `a` to `z`, every other character kept: the result of
`strings.ToUpper` on ASCII text. The function itself, which also maps the letters outside
ASCII, is the member `ToUpper` of the environment; the example environment takes this one and
is used with ASCII layers only. -/
def asciiUpper (s : String) : String := ⟨s.data.map Char.toUpper⟩

/-- The function `filepath.Base` with separator `/`. -/
def Base (path : String) : String :=
  if path = "" then "."
  else
    let stripped := (path.data.reverse.dropWhile (fun c => c = '/')).reverse
    let last := (stripped.reverse.takeWhile (fun c => c ≠ '/')).reverse
    if last = [] then "/" else ⟨last⟩

/-- Lowercase hexadecimal digits of a number. -/
def hexString (n : Nat) : String := ⟨Nat.toDigits 16 n⟩

mutual
/-- The verb `%v` of package fmt. -/
def formatV : Value → String
  | .null => "<nil>"
  | .bool b => if b then "true" else "false"
  | .int n => toString n
  | .str s => s
  | .list xs => "[" ++ " ".intercalate (formatVs xs) ++ "]"
  | .map kvs => "map[" ++ " ".intercalate ((sortByKey (formatKVs kvs)).map (fun p => p.1 ++ ":" ++ p.2)) ++ "]"
  | .chan addr => "0x" ++ hexString addr
/-- The elements of a slice under `%v`. -/
def formatVs : List Value → List String
  | [] => []
  | v :: vs => formatV v :: formatVs vs
/-- The entries of a map under `%v`, before sorting. -/
def formatKVs : List (String × Value) → List (String × String)
  | [] => []
  | (k, v) :: kvs => (k, formatV v) :: formatKVs kvs
end

/-! ## Library functions: encoding/json -/

/-- How `encoding/json` writes one character of a string (HTML escaping on; backspace and
form feed in the short form of current Go releases). -/
def escapeChar (c : Char) : String :=
  if c = '"' then "\\\""
  else if c = '\\' then "\\\\"
  else if c = '\n' then "\\n"
  else if c = '\r' then "\\r"
  else if c = '\t' then "\\t"
  else if c = '\x08' then "\\b"
  else if c = '\x0c' then "\\f"
  else if c.toNat < 32 then "\\u00" ++ ⟨[Nat.digitChar (c.toNat / 16), Nat.digitChar (c.toNat % 16)]⟩
  else if c = '<' then "\\u003c"
  else if c = '>' then "\\u003e"
  else if c = '&' then "\\u0026"
  else if c = Char.ofNat 0x2028 then "\\u2028"
  else if c = Char.ofNat 0x2029 then "\\u2029"
  else String.singleton c

/-- A JSON string literal. -/
def quote (s : String) : String := "\"" ++ String.join (s.data.map escapeChar) ++ "\""

/-- A compact JSON object from members that are already encoded and ordered. -/
def emitObject (ms : List (String × String)) : String :=
  "\x7b" ++ ",".intercalate (ms.map (fun p => quote p.1 ++ ":" ++ p.2)) ++ "\x7d"

/-- A compact JSON array from encoded elements. -/
def emitArray (es : List String) : String :=
  "[" ++ ",".intercalate es ++ "]"

mutual
/-- The compact encoding of `json.Marshal`; `none` is the error result. -/
def encodeValue : Value → Option String
  | .null => some "null"
  | .bool b => some (if b then "true" else "false")
  | .int n => some (toString n)
  | .str s => some (quote s)
  | .list xs => (encodeList xs).map emitArray
  | .map kvs => (encodeMembers kvs).map (fun ms => emitObject (sortByKey ms))
  | .chan _ => none
/-- The encoded elements of an array. -/
def encodeList : List Value → Option (List String)
  | [] => some []
  | v :: vs =>
    match encodeValue v, encodeList vs with
    | some e, some es => some (e :: es)
    | _, _ => none
/-- The encoded members of an object, before sorting. -/
def encodeMembers : List (String × Value) → Option (List (String × String))
  | [] => some []
  | (k, v) :: kvs =>
    match encodeValue v, encodeMembers kvs with
    | some e, some es => some ((k, e) :: es)
    | _, _ => none
end

/-- A line break followed by the indentation of depth `d` (two spaces per level). -/
def newlineIndent (d : Nat) : String := "\n" ++ String.join (List.replicate d "  ")

/-- An indented JSON object at depth `d` from encoded, ordered members. -/
def emitObjectIndent (d : Nat) (ms : List (String × String)) : String :=
  match ms with
  | [] => "\x7b\x7d"
  | _ => "\x7b" ++ newlineIndent (d + 1)
      ++ ("," ++ newlineIndent (d + 1)).intercalate (ms.map (fun p => quote p.1 ++ ": " ++ p.2))
      ++ newlineIndent d ++ "\x7d"

/-- An indented JSON array at depth `d` from encoded elements. -/
def emitArrayIndent (d : Nat) (es : List String) : String :=
  match es with
  | [] => "[]"
  | _ => "[" ++ newlineIndent (d + 1)
      ++ ("," ++ newlineIndent (d + 1)).intercalate es
      ++ newlineIndent d ++ "]"

mutual
/-- The encoding of `json.MarshalIndent v "" "  "` for a value placed at depth `d`. -/
def indentValue (d : Nat) : Value → Option String
  | .null => some "null"
  | .bool b => some (if b then "true" else "false")
  | .int n => some (toString n)
  | .str s => some (quote s)
  | .list xs => (indentList (d + 1) xs).map (emitArrayIndent d)
  | .map kvs => (indentMembers (d + 1) kvs).map (fun ms => emitObjectIndent d (sortByKey ms))
  | .chan _ => none
/-- The indented elements of an array whose elements stand at depth `d`. -/
def indentList (d : Nat) : List Value → Option (List String)
  | [] => some []
  | v :: vs =>
    match indentValue d v, indentList d vs with
    | some e, some es => some (e :: es)
    | _, _ => none
/-- The indented members of an object whose members stand at depth `d`. -/
def indentMembers (d : Nat) : List (String × Value) → Option (List (String × String))
  | [] => some []
  | (k, v) :: kvs =>
    match indentValue d v, indentMembers d kvs with
    | some e, some es => some ((k, e) :: es)
    | _, _ => none
end

/-- The function `json.Marshal`. -/
def Marshal (v : Value) : Option String := encodeValue v

/-- The function `json.MarshalIndent` with empty prefix and two-space indent. -/
def MarshalIndent (v : Value) : Option String := indentValue 0 v

/-! ## The environment of a call -/

/-- What `runtime.Caller(2)` and `runtime.FuncForPC` resolve for a call site. -/
structure Frame where
  file : String
  line : Int
  fn : Option String

/-- Everything a call reads from outside the logger: the clock, the terminal test, the
call-site resolution, the visiting order of `range` over a map, the growth policy of
`append` and the library function `strings.ToUpper` (its Unicode case tables are not
reproduced: the properties hold for whatever function it is). -/
structure Env where
  now : String
  now2 : String
  isTerminal : Bool
  caller : Option Frame
  rangeOrder : GoMap → GoMap
  growCap : Nat → Nat → Nat
  ToUpper : String → String

/-- A `range` loop visits every entry of the map exactly once. -/
def Env.RangeVisitsAll (env : Env) : Prop := ∀ m : GoMap, (env.rangeOrder m).Perm m

/-! ## internal/utils/formatter.go -/

/-- The function `FormatJSON`; `none` is the error result (with nil bytes). -/
def FormatJSON (entry : GoMap) (pretty : Bool) : Option String :=
  if pretty then MarshalIndent (Value.map entry) else Marshal (Value.map entry)

/-- The function `applyColor`. -/
def applyColor (level text : String) : String :=
  if level = "DEBUG" then "\x1b[36m" ++ text ++ "\x1b[0m"
  else if level = "INFO" then "\x1b[32m" ++ text ++ "\x1b[0m"
  else if level = "WARN" then "\x1b[33m" ++ text ++ "\x1b[0m"
  else if level = "ERROR" then "\x1b[31m" ++ text ++ "\x1b[0m"
  else if level = "FATAL" then "\x1b[41m\x1b[37m" ++ text ++ "\x1b[0m"
  else text

/-- The type assertion `entry[k].(string)`: the string and the `ok` flag. -/
def GoMap.getString (m : GoMap) (k : String) : String × Bool :=
  match m.get k with
  | some (Value.str s) => (s, true)
  | _ => ("", false)

/-- The keys `FormatText` skips in its loop over the entry. -/
def isReserved (k : String) : Bool :=
  k = "ts" || k = "lvl" || k = "msg" || k = "layer" || k = "caller"

/-- The function `FormatText`; the builder `sb` is threaded through the statements. -/
def FormatText (env : Env) (entry : GoMap) (level : String) (pretty : Bool) : String :=
  let ts := (entry.getString "ts").1
  let ts := if ts = "" then env.now2 else ts
  let sb := ts
  let sb := sb ++ " "
  let sb :=
    if env.isTerminal then sb ++ applyColor level (" [" ++ level ++ "]")
    else sb ++ ("[" ++ level ++ "]")
  let layer := entry.getString "layer"
  let sb :=
    if layer.2 && layer.1 ≠ "" then sb ++ (" [" ++ env.ToUpper layer.1 ++ "]")
    else sb ++ " [UNKNOWN]"
  let msg := entry.getString "msg"
  let sb := if msg.2 && msg.1 ≠ "" then sb ++ (" " ++ msg.1) else sb
  let caller := entry.getString "caller"
  let sb := if caller.2 && caller.1 ≠ "" then sb ++ (" (" ++ Base caller.1 ++ ")") else sb
  (env.rangeOrder entry).foldl
    (fun sb kv => if isReserved kv.1 then sb else sb ++ (" " ++ kv.1 ++ ": " ++ formatV kv.2)) sb

/-- The function `FormatField`: the compact JSON of the value, passed through `json.Indent`
when `pretty` is set (which gives the indented encoding), or its `%v` form when `json.Marshal`
fails. No function of the repository calls it. -/
def FormatField (field : Value) (pretty : Bool) : String :=
  match Marshal field with
  | none => formatV field
  | some j => if pretty then (MarshalIndent field).getD "" else j

/-! ## Memory: slices and backing arrays -/

/-- A slice header. The nil slice has length and capacity zero. -/
structure Slice where
  ptr : Nat
  len : Nat
  cap : Nat
deriving DecidableEq

/-- The nil slice. -/
def Slice.nil : Slice := ⟨0, 0, 0⟩

/-- The backing arrays of one element type, addressed by position. -/
abbrev Arrays (α : Type) := List (List α)

/-- The backing array at an address. -/
def Arrays.at {α : Type} (mem : Arrays α) (p : Nat) : List α := mem[p]?.getD []

/-- The elements a slice shows: the first `len` cells of its backing array. -/
def Slice.read {α : Type} (mem : Arrays α) (s : Slice) : List α := (Arrays.at mem s.ptr).take s.len

/-- The built-in `append(s, xs...)`: when the capacity suffices the new elements are written
into the backing array of `s` behind its length; otherwise a new array is allocated, of the
capacity the growth policy chooses (at least the length needed), and receives the old
elements followed by the new ones. -/
def goAppend {α : Type} (growCap : Nat → Nat → Nat) (zero : α)
    (mem : Arrays α) (s : Slice) (xs : List α) : Arrays α × Slice :=
  if s.len + xs.length ≤ s.cap then
    let arr := Arrays.at mem s.ptr
    (mem.set s.ptr (arr.take s.len ++ xs ++ arr.drop (s.len + xs.length)),
      { s with len := s.len + xs.length })
  else
    let need := s.len + xs.length
    let newcap := max need (growCap s.cap need)
    (mem ++ [Slice.read mem s ++ xs ++ List.replicate (newcap - need) zero],
      ⟨mem.length, need, newcap⟩)

/-! ## logger/logger.go: data -/

/-- The type `Level`. -/
abbrev Level := Int

/-- The constant `DebugLevel`. -/
def DebugLevel : Level := 0
/-- The constant `InfoLevel`. -/
def InfoLevel : Level := 1
/-- The constant `WarnLevel`. -/
def WarnLevel : Level := 2
/-- The constant `ErrorLevel`. -/
def ErrorLevel : Level := 3
/-- The constant `FatalLevel`. -/
def FatalLevel : Level := 4

/-- The map `levelNames`; a level without an entry reads as the empty string. -/
def levelNames (level : Level) : String :=
  if level = DebugLevel then "DEBUG"
  else if level = InfoLevel then "INFO"
  else if level = WarnLevel then "WARN"
  else if level = ErrorLevel then "ERROR"
  else if level = FatalLevel then "FATAL"
  else ""

/-- An address in the heap. -/
abbrev Ptr := Nat

/-- The struct `loggerImpl` (without its mutex). The slice `out` holds addresses of writers;
`ctx` is nil or an uninterpreted context handle. -/
structure loggerImpl where
  level : Level
  layer : String
  fields : Slice
  jsonOutput : Bool
  prettyJSON : Bool
  out : Slice
  ctx : Option Nat
  showCaller : Bool
deriving DecidableEq

/-- An `io.Writer`: the bytes it has accepted, and whether its `Write` reports an error (a
failing writer accepts nothing). -/
structure Writer where
  data : String
  failing : Bool
deriving DecidableEq

/-- The method `Write` of a writer; the error result is dropped by every caller. -/
def Writer.Write (w : Writer) (p : String) : Writer :=
  if w.failing then w else { w with data := w.data ++ p }

/-- The program state: logger objects, backing arrays of `[]Field` and of `[]io.Writer`,
the writers, and the record of every `Write` call made so far (writer address and bytes). -/
structure Heap where
  loggers : List loggerImpl
  fieldArrays : Arrays Field
  outArrays : Arrays Ptr
  writers : List Writer
  writes : List (Ptr × String)

/-- The address of the writer `os.Stdout`. -/
def Stdout : Ptr := 0

/-- The bound fields a logger object shows. -/
def Heap.fieldsOf (h : Heap) (obj : loggerImpl) : List Field := obj.fields.read h.fieldArrays

/-- The sinks a logger object shows, in registration order. -/
def Heap.sinksOf (h : Heap) (obj : loggerImpl) : List Ptr := obj.out.read h.outArrays

/-- The bytes a writer holds. -/
def Heap.dataOf (h : Heap) (w : Ptr) : String :=
  match h.writers[w]? with
  | some wr => wr.data
  | none => ""

/-- One call `w.Write(p)` on the writer at address `w`. -/
def Heap.Write (h : Heap) (w : Ptr) (p : String) : Heap :=
  { h with
    writers :=
      match h.writers[w]? with
      | some wr => h.writers.set w (wr.Write p)
      | none => h.writers
    writes := h.writes ++ [(w, p)] }

/-- The loop `for _, w := range out { w.Write(p) }`. -/
def Heap.WriteAll (h : Heap) (out : List Ptr) (p : String) : Heap :=
  out.foldl (fun h w => h.Write w p) h

/-- Allocation of a new logger object; its address is returned. -/
def Heap.alloc (h : Heap) (obj : loggerImpl) : Heap × Ptr :=
  ({ h with loggers := h.loggers ++ [obj] }, h.loggers.length)

/-! ## logger/options.go -/

/-- The options of the constructor: the six functions that return an `Option`. -/
inductive LoggerOption where
  | WithJSON (enabled : Bool)
  | WithPrettyJSON (enabled : Bool)
  | WithLevel (level : Level)
  | WithLayer (layer : String)
  | WithField (field : Field)
  | WithCaller (enable : Bool)

/-- The effect of applying an option to the logger at address `l`. -/
def LoggerOption.apply (env : Env) (h : Heap) (l : Ptr) (o : LoggerOption) : Heap :=
  match h.loggers[l]? with
  | none => h
  | some obj =>
    match o with
    | .WithJSON enabled => { h with loggers := h.loggers.set l { obj with jsonOutput := enabled } }
    | .WithPrettyJSON enabled => { h with loggers := h.loggers.set l { obj with prettyJSON := enabled } }
    | .WithLevel level => { h with loggers := h.loggers.set l { obj with level := level } }
    | .WithLayer layer => { h with loggers := h.loggers.set l { obj with layer := layer } }
    | .WithField field =>
      let r := goAppend env.growCap Field.zero h.fieldArrays obj.fields [field]
      { h with fieldArrays := r.1, loggers := h.loggers.set l { obj with fields := r.2 } }
    | .WithCaller enable => { h with loggers := h.loggers.set l { obj with showCaller := enable } }

/-! ## logger/logger.go: operations -/

/-- The function `NewLogger`. -/
def NewLogger (env : Env) (h : Heap) (options : List LoggerOption) : Heap × Ptr :=
  let out : Slice := ⟨h.outArrays.length, 1, 1⟩
  let h := { h with outArrays := h.outArrays ++ [[Stdout]] }
  let r := h.alloc
    { level := InfoLevel, layer := "", fields := Slice.nil, jsonOutput := false,
      prettyJSON := false, out := out, ctx := none, showCaller := false }
  (options.foldl (fun h o => o.apply env h r.2) r.1, r.2)

/-- The function `NewDebugLogger`. -/
def NewDebugLogger (h : Heap) (layer : String) : Heap × Ptr :=
  let out : Slice := ⟨h.outArrays.length, 1, 1⟩
  let h := { h with outArrays := h.outArrays ++ [[Stdout]] }
  h.alloc
    { level := DebugLevel, layer := layer, fields := Slice.nil, jsonOutput := false,
      prettyJSON := false, out := out, ctx := none, showCaller := false }

namespace loggerImpl

/-- The method `SetLevel`. -/
def SetLevel (h : Heap) (l : Ptr) (level : Level) : Heap :=
  match h.loggers[l]? with
  | none => h
  | some obj => { h with loggers := h.loggers.set l { obj with level := level } }

/-- The method `AddOutput`. -/
def AddOutput (env : Env) (h : Heap) (l : Ptr) (w : Ptr) : Heap :=
  match h.loggers[l]? with
  | none => h
  | some obj =>
    let r := goAppend env.growCap Stdout h.outArrays obj.out [w]
    { h with outArrays := r.1, loggers := h.loggers.set l { obj with out := r.2 } }

/-- The method `WithFields`; the clone is a struct literal, so the members it does not name
(here `showCaller`) take their zero value. -/
def WithFields (env : Env) (h : Heap) (l : Ptr) (fields : List Field) : Heap × Ptr :=
  match h.loggers[l]? with
  | none => (h, l)
  | some obj =>
    let f1 := goAppend env.growCap Field.zero h.fieldArrays Slice.nil (h.fieldsOf obj)
    let f2 := goAppend env.growCap Field.zero f1.1 f1.2 fields
    let o := goAppend env.growCap Stdout h.outArrays Slice.nil (h.sinksOf obj)
    Heap.alloc { h with fieldArrays := f2.1, outArrays := o.1 }
      { level := obj.level, layer := obj.layer, fields := f2.2, jsonOutput := obj.jsonOutput,
        prettyJSON := obj.prettyJSON, out := o.2, ctx := obj.ctx, showCaller := false }

/-- The method `WithContext`. -/
def WithContext (env : Env) (h : Heap) (l : Ptr) (ctx : Option Nat) : Heap × Ptr :=
  match h.loggers[l]? with
  | none => (h, l)
  | some obj =>
    let f := goAppend env.growCap Field.zero h.fieldArrays Slice.nil (h.fieldsOf obj)
    let o := goAppend env.growCap Stdout h.outArrays Slice.nil (h.sinksOf obj)
    Heap.alloc { h with fieldArrays := f.1, outArrays := o.1 }
      { level := obj.level, layer := obj.layer, fields := f.2, jsonOutput := obj.jsonOutput,
        prettyJSON := obj.prettyJSON, out := o.2, ctx := ctx, showCaller := false }

/-- The method `WithLayer`. -/
def WithLayer (env : Env) (h : Heap) (l : Ptr) (layer : String) : Heap × Ptr :=
  match h.loggers[l]? with
  | none => (h, l)
  | some obj =>
    let f := goAppend env.growCap Field.zero h.fieldArrays Slice.nil (h.fieldsOf obj)
    let o := goAppend env.growCap Stdout h.outArrays Slice.nil (h.sinksOf obj)
    Heap.alloc { h with fieldArrays := f.1, outArrays := o.1 }
      { level := obj.level, layer := layer, fields := f.2, jsonOutput := obj.jsonOutput,
        prettyJSON := obj.prettyJSON, out := o.2, ctx := obj.ctx, showCaller := false }

/-- The helper `toStringKeyAny`: a fresh map filled by a `range` loop over the argument. -/
def toStringKeyAny (env : Env) (m : GoMap) : GoMap :=
  (env.rangeOrder m).foldl (fun (out : GoMap) kv => GoMap.set out kv.1 kv.2) []

/-- The text `fmt.Sprintf` builds for the key `caller`. -/
def callerText (fr : Frame) : String :=
  match fr.fn with
  | some name => Base fr.file ++ ":" ++ toString fr.line ++ " " ++ name
  | none => Base fr.file ++ ":" ++ toString fr.line

/-- The method `log`. -/
def log (env : Env) (h : Heap) (l : Ptr) (level : Level) (msg : String) (fields : List Field) :
    Heap :=
  match h.loggers[l]? with
  | none => h
  | some obj =>
    let entry : GoMap :=
      [("ts", Value.str env.now), ("lvl", Value.str (levelNames level)),
       ("msg", Value.str msg), ("layer", Value.str obj.layer)]
    let entry :=
      if obj.showCaller then
        match env.caller with
        | some fr => GoMap.set entry "caller" (Value.str (callerText fr))
        | none => entry
      else entry
    let all := goAppend env.growCap Field.zero h.fieldArrays obj.fields fields
    let entry := (all.2.read all.1).foldl (fun (e : GoMap) f => GoMap.set e f.Key f.Value) entry
    let logOutput :=
      if obj.jsonOutput then
        let safe := (env.rangeOrder entry).foldl (fun (m : GoMap) kv => GoMap.set m kv.1 kv.2) []
        (FormatJSON safe obj.prettyJSON).getD ""
      else
        FormatText env (toStringKeyAny env entry) (levelNames level) obj.prettyJSON
    Heap.WriteAll { h with fieldArrays := all.1 } (h.sinksOf obj) (logOutput ++ "\n")

/-- The method `Debug`. -/
def Debug (env : Env) (h : Heap) (l : Ptr) (msg : String) (fields : List Field) : Heap :=
  match h.loggers[l]? with
  | none => h
  | some obj => if obj.level > DebugLevel then h else log env h l DebugLevel msg fields

/-- The method `Info`. -/
def Info (env : Env) (h : Heap) (l : Ptr) (msg : String) (fields : List Field) : Heap :=
  match h.loggers[l]? with
  | none => h
  | some obj => if obj.level > InfoLevel then h else log env h l InfoLevel msg fields

/-- The method `Warn`. -/
def Warn (env : Env) (h : Heap) (l : Ptr) (msg : String) (fields : List Field) : Heap :=
  match h.loggers[l]? with
  | none => h
  | some obj => if obj.level > WarnLevel then h else log env h l WarnLevel msg fields

/-- The method `Error`. -/
def Error (env : Env) (h : Heap) (l : Ptr) (msg : String) (fields : List Field) : Heap :=
  match h.loggers[l]? with
  | none => h
  | some obj => if obj.level > ErrorLevel then h else log env h l ErrorLevel msg fields

/-- The method `Fatal`. -/
def Fatal (env : Env) (h : Heap) (l : Ptr) (msg : String) (fields : List Field) : Heap :=
  match h.loggers[l]? with
  | none => h
  | some obj => if obj.level > FatalLevel then h else log env h l FatalLevel msg fields

/-- The method `FormatStructAsJSON`. -/
def FormatStructAsJSON (h : Heap) (l : Ptr) (v : Value) : Heap :=
  match MarshalIndent v with
  | none => h
  | some b =>
    match h.loggers[l]? with
    | none => h
    | some obj => h.WriteAll (h.sinksOf obj) (b ++ "\n")

end loggerImpl

/-- The five level methods of the interface `Logger`. -/
inductive Method where
  | Debug | Info | Warn | Error | Fatal
deriving DecidableEq

/-- The level a method logs at. -/
def Method.level : Method → Level
  | .Debug => DebugLevel
  | .Info => InfoLevel
  | .Warn => WarnLevel
  | .Error => ErrorLevel
  | .Fatal => FatalLevel

/-- A call of a level method on the logger at address `l`. -/
def Method.call (m : Method) (env : Env) (h : Heap) (l : Ptr) (msg : String)
    (fields : List Field) : Heap :=
  match m with
  | .Debug => loggerImpl.Debug env h l msg fields
  | .Info => loggerImpl.Info env h l msg fields
  | .Warn => loggerImpl.Warn env h l msg fields
  | .Error => loggerImpl.Error env h l msg fields
  | .Fatal => loggerImpl.Fatal env h l msg fields

/-! ## Notions used to state the properties -/

/-- A slice header fits its backing array: length within capacity, capacity within the array. -/
def Slice.Valid {α : Type} (mem : Arrays α) (s : Slice) : Prop :=
  s.len ≤ s.cap ∧ s.cap ≤ (Arrays.at mem s.ptr).length

instance Slice.Valid.decidable {α : Type} (mem : Arrays α) (s : Slice) : Decidable (s.Valid mem) :=
  inferInstanceAs (Decidable (_ ∧ _))

/-- The slices of a logger object fit their backing arrays. -/
def Heap.WF (h : Heap) (obj : loggerImpl) : Prop :=
  obj.fields.Valid h.fieldArrays ∧ obj.out.Valid h.outArrays

instance Heap.WF.decidable (h : Heap) (obj : loggerImpl) : Decidable (h.WF obj) :=
  inferInstanceAs (Decidable (_ ∧ _))

/-- Every logger object of the state fits the memory. -/
def Heap.AllWF (h : Heap) : Prop :=
  ∀ (q : Ptr) (oq : loggerImpl), h.loggers[q]? = some oq → h.WF oq

/-- The text needs no escaping in a JSON string: `encoding/json` writes each of its
characters as it stands. -/
def NeedsNoEscape (s : String) : Prop := ∀ c ∈ s.data, escapeChar c = String.singleton c

instance NeedsNoEscape.decidable (s : String) : Decidable (NeedsNoEscape s) :=
  inferInstanceAs (Decidable (∀ c ∈ s.data, _))

/-- The text `a` occurs in the text `b`. -/
def Occurs (a b : String) : Prop := a.data <:+: b.data

instance Occurs.decidable (a b : String) : Decidable (Occurs a b) :=
  inferInstanceAs (Decidable (a.data <:+: b.data))

/-- The option sets the layer of the logger. -/
def LoggerOption.setsLayer : LoggerOption → Bool
  | .WithLayer _ => true
  | _ => false

/-- The timestamp at the head of a text line. -/
def textTs (env : Env) (entry : GoMap) : String :=
  if (entry.getString "ts").1 = "" then env.now2 else (entry.getString "ts").1

/-- The level tag of a text line. -/
def textLevel (env : Env) (level : String) : String :=
  if env.isTerminal then applyColor level (" [" ++ level ++ "]") else "[" ++ level ++ "]"

/-- The layer tag of a text line. -/
def textLayer (env : Env) (entry : GoMap) : String :=
  if (entry.getString "layer").2 && (entry.getString "layer").1 ≠ "" then
    " [" ++ env.ToUpper (entry.getString "layer").1 ++ "]"
  else " [UNKNOWN]"

/-- The message part of a text line. -/
def textMsg (entry : GoMap) : String :=
  if (entry.getString "msg").2 && (entry.getString "msg").1 ≠ "" then
    " " ++ (entry.getString "msg").1
  else ""

/-- The caller part of a text line. -/
def textCaller (entry : GoMap) : String :=
  if (entry.getString "caller").2 && (entry.getString "caller").1 ≠ "" then
    " (" ++ Base (entry.getString "caller").1 ++ ")"
  else ""

/-- Removal of the escape sequences `ESC [ ... m`; the flag tells whether a sequence is open. -/
def stripANSIFrom : Bool → List Char → List Char
  | _, [] => []
  | true, c :: cs => if c = 'm' then stripANSIFrom false cs else stripANSIFrom true cs
  | false, c :: cs =>
    if c = Char.ofNat 27 then stripANSIFrom true cs else c :: stripANSIFrom false cs

/-- The text without its ANSI colour codes. -/
def stripANSI (s : String) : String := ⟨stripANSIFrom false s.data⟩

/-- The text `p` repeated `n` times. -/
def repeatStr (n : Nat) (p : String) : String := String.join (List.replicate n p)

/-- The number of line terminators in a text. -/
def newlines (s : String) : Nat := s.data.count '\n'

/-- The text holds no line terminator. -/
def NoNL (s : String) : Prop := '\n' ∉ s.data

instance NoNL.decidable (s : String) : Decidable (NoNL s) :=
  inferInstanceAs (Decidable (¬ _))

/-- The text is one line: a single line terminator, standing last. -/
def OneLine (s : String) : Prop := newlines s = 1 ∧ s.data.getLast? = some '\n'

instance OneLine.decidable (s : String) : Decidable (OneLine s) :=
  inferInstanceAs (Decidable (_ ∧ _))

/-- The value of the last field with key `k` in a sequence of fields. -/
def lastValue : List Field → String → Option Value
  | [], _ => none
  | f :: fs, k =>
    match lastValue fs k with
    | some v => some v
    | none => if f.Key = k then some f.Value else none

/-- The entry of `log` before the fields are merged (lines 210 to 228 of logger.go). -/
def baseEntry (env : Env) (obj : loggerImpl) (level : Level) (msg : String) : GoMap :=
  let entry : GoMap :=
    [("ts", Value.str env.now), ("lvl", Value.str (levelNames level)),
     ("msg", Value.str msg), ("layer", Value.str obj.layer)]
  if obj.showCaller then
    match env.caller with
    | some fr => GoMap.set entry "caller" (Value.str (loggerImpl.callerText fr))
    | none => entry
  else entry

/-- The entry of `log` once the fields `fs` are merged (lines 230 to 232). -/
def record (env : Env) (obj : loggerImpl) (level : Level) (msg : String) (fs : List Field) :
    GoMap :=
  fs.foldl (fun (e : GoMap) f => GoMap.set e f.Key f.Value) (baseEntry env obj level msg)

/-- The text `log` renders from an entry (lines 234 to 245). -/
def render (env : Env) (obj : loggerImpl) (level : Level) (entry : GoMap) : String :=
  if obj.jsonOutput then
    (FormatJSON ((env.rangeOrder entry).foldl (fun (m : GoMap) kv => GoMap.set m kv.1 kv.2) [])
      obj.prettyJSON).getD ""
  else
    FormatText env (loggerImpl.toStringKeyAny env entry) (levelNames level) obj.prettyJSON

/-- The bytes one passing call hands to every sink. -/
def lineOf (env : Env) (obj : loggerImpl) (level : Level) (msg : String) (fs : List Field) :
    String :=
  render env obj level (record env obj level msg fs) ++ "\n"

/-- The part of a text line that `FormatText` writes before its loop over the entry. -/
def textHead (env : Env) (entry : GoMap) (level : String) : String :=
  let ts := (entry.getString "ts").1
  let ts := if ts = "" then env.now2 else ts
  let sb := ts
  let sb := sb ++ " "
  let sb :=
    if env.isTerminal then sb ++ applyColor level (" [" ++ level ++ "]")
    else sb ++ ("[" ++ level ++ "]")
  let layer := entry.getString "layer"
  let sb :=
    if layer.2 && layer.1 ≠ "" then sb ++ (" [" ++ env.ToUpper layer.1 ++ "]")
    else sb ++ " [UNKNOWN]"
  let msg := entry.getString "msg"
  let sb := if msg.2 && msg.1 ≠ "" then sb ++ (" " ++ msg.1) else sb
  let caller := entry.getString "caller"
  if caller.2 && caller.1 ≠ "" then sb ++ (" (" ++ Base caller.1 ++ ")") else sb

/-- The trailing text `FormatText` writes for one entry of its loop. -/
def textPair (kv : String × Value) : String := " " ++ kv.1 ++ ": " ++ formatV kv.2

/-- The keys of a keyed list are pairwise distinct. -/
def NodupKeys {β : Type} (m : List (String × β)) : Prop := (m.map Prod.fst).Nodup

/-- The JSON object `FormatJSON` emits for members listed in the order of emission. -/
def objectOf (pretty : Bool) (members : GoMap) : Option String :=
  if pretty then (indentMembers 1 members).map (emitObjectIndent 0)
  else (encodeMembers members).map emitObject

/-- The entries for which `FormatText` writes a trailing pair, in the order of its loop. -/
def textPairs (env : Env) (entry : GoMap) : List (String × Value) :=
  (env.rangeOrder (loggerImpl.toStringKeyAny env entry)).filter (fun kv => !isReserved kv.1)

/-- Two slices cannot disturb one another: one of them has no capacity, or they live in
different backing arrays. -/
def Slice.Disjoint (s t : Slice) : Prop := s.cap = 0 ∨ t.cap = 0 ∨ s.ptr ≠ t.ptr

/-- A slice is fresh for a memory: it has no capacity, or lives behind every array of it. -/
def Slice.Fresh {α : Type} (mem : Arrays α) (s : Slice) : Prop := s.cap = 0 ∨ mem.length ≤ s.ptr

/-- What a logger shows of its configuration: the members of its object, with the slices
replaced by the elements they show. -/
structure Snapshot where
  level : Level
  layer : String
  fields : List Field
  jsonOutput : Bool
  prettyJSON : Bool
  sinks : List Ptr
  ctx : Option Nat
  showCaller : Bool

/-- The configuration a logger object shows in a state. -/
def Heap.snapshotOf (h : Heap) (obj : loggerImpl) : Snapshot :=
  ⟨obj.level, obj.layer, h.fieldsOf obj, obj.jsonOutput, obj.prettyJSON, h.sinksOf obj,
    obj.ctx, obj.showCaller⟩

/-- The configuration the logger at an address shows. -/
def Heap.snapshot (h : Heap) (p : Ptr) : Option Snapshot := (h.loggers[p]?).map h.snapshotOf

/-- The operations of the interface `Logger` that change or extend the state. -/
inductive Op where
  | SetLevel (level : Level)
  | AddOutput (w : Ptr)
  | WithFields (fields : List Field)
  | WithLayer (layer : String)
  | WithContext (ctx : Option Nat)
  | Call (m : Method) (msg : String) (fields : List Field)

/-- The state after an operation on the logger at address `p` (a derived logger is left in
the state, its address is dropped). -/
def Op.apply (env : Env) (h : Heap) (p : Ptr) : Op → Heap
  | .SetLevel level => loggerImpl.SetLevel h p level
  | .AddOutput w => loggerImpl.AddOutput env h p w
  | .WithFields fields => (loggerImpl.WithFields env h p fields).1
  | .WithLayer layer => (loggerImpl.WithLayer env h p layer).1
  | .WithContext ctx => (loggerImpl.WithContext env h p ctx).1
  | .Call m msg fields => m.call env h p msg fields

/-- The three derivations. -/
inductive Derivation where
  | WithFields (fields : List Field)
  | WithLayer (layer : String)
  | WithContext (ctx : Option Nat)

/-- The state after a derivation from the logger at address `p`, and the address of the child. -/
def Derivation.apply (env : Env) (h : Heap) (p : Ptr) : Derivation → Heap × Ptr
  | .WithFields fields => loggerImpl.WithFields env h p fields
  | .WithLayer layer => loggerImpl.WithLayer env h p layer
  | .WithContext ctx => loggerImpl.WithContext env h p ctx

/-- The configuration of the child a derivation builds from a parent object. -/
def Derivation.child (h : Heap) (obj : loggerImpl) : Derivation → Snapshot
  | .WithFields fields =>
    ⟨obj.level, obj.layer, h.fieldsOf obj ++ fields, obj.jsonOutput, obj.prettyJSON,
      h.sinksOf obj, obj.ctx, false⟩
  | .WithLayer layer =>
    ⟨obj.level, layer, h.fieldsOf obj, obj.jsonOutput, obj.prettyJSON,
      h.sinksOf obj, obj.ctx, false⟩
  | .WithContext ctx =>
    ⟨obj.level, obj.layer, h.fieldsOf obj, obj.jsonOutput, obj.prettyJSON,
      h.sinksOf obj, ctx, false⟩

/-- A run of operations, each applied to the parent (`true`) or to the child (`false`). -/
def runOps (env : Env) (parent child : Ptr) (h : Heap) (steps : List (Bool × Op)) : Heap :=
  steps.foldl (fun h s => s.2.apply env h (if s.1 then parent else child)) h

/-- Two loggers of a state are separate: different objects whose slices fit the memory and
share no backing array. -/
structure Separate (h : Heap) (p q : Ptr) (op oq : loggerImpl) : Prop where
  ne : p ≠ q
  hp : h.loggers[p]? = some op
  hq : h.loggers[q]? = some oq
  wfp : h.WF op
  wfq : h.WF oq
  dfields : op.fields.Disjoint oq.fields
  dout : op.out.Disjoint oq.out

/-- The encoding of a value that stands as a member of the object `FormatJSON` emits: the
compact one, or the indented one at depth 1. -/
def memberValue (pretty : Bool) (v : Value) : Option String :=
  if pretty then indentValue 1 v else encodeValue v

/-- The text of one member of that object: the quoted key, a colon, a space when the object is
indented, and the encoded value. -/
def memberText (pretty : Bool) (k e : String) : String :=
  if pretty then quote k ++ ": " ++ e else quote k ++ ":" ++ e

/-- The object `FormatJSON` emits for encoded members in the order of emission. -/
def objectText (pretty : Bool) (ms : List (String × String)) : String :=
  if pretty then emitObjectIndent 0 ms else emitObject ms

/-! ## Example states -/

/-- An environment: a fixed clock, no terminal, no call-site resolution, `range` in storage
order, capacity doubling, upper-casing of ASCII text. -/
def exEnv : Env :=
  ⟨"2024-01-02T03:04:05Z", "2024-01-02T03:04:06Z", false, none, id, fun old _ => 2 * old,
    asciiUpper⟩

/-- A state with two writers and no logger: standard output at address 0 and an empty buffer
at address 1. -/
def exWriters : Heap := ⟨[], [], [], [⟨"", false⟩, ⟨"", false⟩], []⟩

/-- The state after `NewLogger(opts...)` and `AddOutput(&buf)`, as the tests of the repository
set it up; the logger is at address 0 and the buffer at address 1. -/
def exLogger (opts : List LoggerOption) : Heap :=
  let r := NewLogger exEnv exWriters opts
  loggerImpl.AddOutput exEnv r.1 r.2 1

/-- A state with three writers and no logger: standard output, a writer whose `Write` fails,
and an empty buffer. -/
def exWritersFailing : Heap := ⟨[], [], [], [⟨"", false⟩, ⟨"", true⟩, ⟨"", false⟩], []⟩

/-- The state after `NewLogger()`, `AddOutput(failing)` and `AddOutput(&buf)`; the logger is
at address 0, its sinks are the writers 0, 1 and 2 in this order. -/
def exLoggerFailing : Heap :=
  let r := NewLogger exEnv exWritersFailing []
  loggerImpl.AddOutput exEnv (loggerImpl.AddOutput exEnv r.1 r.2 1) r.2 2

/-! ## Lemmas on writers and sinks -/

theorem WriteAll_loggers (h : Heap) (out : List Ptr) (p : String) :
    (h.WriteAll out p).loggers = h.loggers := by
  induction out generalizing h with
  | nil => rfl
  | cons w ws ih => simp only [Heap.WriteAll, List.foldl_cons] at ih ⊢; rw [ih]; rfl

theorem WriteAll_fieldArrays (h : Heap) (out : List Ptr) (p : String) :
    (h.WriteAll out p).fieldArrays = h.fieldArrays := by
  induction out generalizing h with
  | nil => rfl
  | cons w ws ih => simp only [Heap.WriteAll, List.foldl_cons] at ih ⊢; rw [ih]; rfl

theorem WriteAll_outArrays (h : Heap) (out : List Ptr) (p : String) :
    (h.WriteAll out p).outArrays = h.outArrays := by
  induction out generalizing h with
  | nil => rfl
  | cons w ws ih => simp only [Heap.WriteAll, List.foldl_cons] at ih ⊢; rw [ih]; rfl

theorem WriteAll_writes (h : Heap) (out : List Ptr) (p : String) :
    (h.WriteAll out p).writes = h.writes ++ out.map (fun w => (w, p)) := by
  induction out generalizing h with
  | nil => simp [Heap.WriteAll]
  | cons w ws ih =>
    simp only [Heap.WriteAll, List.foldl_cons] at ih ⊢
    rw [ih]; simp [Heap.Write]

theorem repeatStr_succ (n : Nat) (p : String) : repeatStr (n + 1) p = p ++ repeatStr n p := by
  apply String.ext
  simp [repeatStr, List.replicate_succ]

theorem repeatStr_zero (p : String) : repeatStr 0 p = "" := by
  simp [repeatStr, String.join]

theorem Write_writer_at (h : Heap) (w v : Ptr) (p : String) :
    (h.Write w p).writers[v]? =
      if v = w then (h.writers[v]?).map (fun wr => wr.Write p) else h.writers[v]? := by
  unfold Heap.Write
  by_cases hv : v = w
  · subst hv
    cases hw : h.writers[v]? with
    | none => simp [hw]
    | some wr =>
      have hlt : v < h.writers.length := by
        rcases List.getElem?_eq_some_iff.mp hw with ⟨hlt, _⟩; exact hlt
      simp [hw, List.getElem?_set_self hlt]
  · cases hw : h.writers[w]? with
    | none => simp [hv]
    | some wr => simp [hv, List.getElem?_set_ne (Ne.symm hv)]

/-- What a writer holds after the loop over the sinks: a failing writer is unchanged, any
other one has received the bytes once for each time it is registered. -/
theorem WriteAll_writer_at (h : Heap) (out : List Ptr) (p : String) (v : Ptr) :
    (h.WriteAll out p).writers[v]? =
      (h.writers[v]?).map (fun wr =>
        if wr.failing then wr else { wr with data := wr.data ++ repeatStr (out.count v) p }) := by
  induction out generalizing h with
  | nil =>
    cases hv : h.writers[v]? with
    | none => simp [Heap.WriteAll, hv]
    | some wr =>
      cases wr with
      | mk d f => simp [Heap.WriteAll, hv, repeatStr_zero]
  | cons w ws ih =>
    have step : Heap.WriteAll h (w :: ws) p = Heap.WriteAll (h.Write w p) ws p := rfl
    rw [step, ih, Write_writer_at]
    by_cases hv : v = w
    · subst hv
      cases hw : h.writers[v]? with
      | none => simp
      | some wr =>
        cases wr with
        | mk d f =>
          cases f with
          | true => simp [Writer.Write]
          | false =>
            simp [Writer.Write, repeatStr_succ, String.append_assoc]
    · have hc : (w :: ws).count v = ws.count v := by
        simp [List.count_cons, Ne.symm hv]
      simp [hv, hc]

theorem WriteAll_dataOf (h : Heap) (out : List Ptr) (p : String) (v : Ptr) (wr : Writer)
    (hv : h.writers[v]? = some wr) :
    (h.WriteAll out p).dataOf v =
      if wr.failing then wr.data else wr.data ++ repeatStr (out.count v) p := by
  unfold Heap.dataOf
  rw [WriteAll_writer_at, hv]
  by_cases hf : wr.failing <;> simp [hf]

/-! ## Lemmas on slices -/

theorem Arrays.at_set_self {α : Type} (mem : Arrays α) (p : Nat) (a : List α)
    (hp : p < mem.length) : Arrays.at (mem.set p a) p = a := by
  simp [Arrays.at, List.getElem?_set_self hp]

theorem Arrays.at_set_ne {α : Type} (mem : Arrays α) (p q : Nat) (a : List α)
    (hpq : p ≠ q) : Arrays.at (mem.set p a) q = Arrays.at mem q := by
  simp [Arrays.at, List.getElem?_set_ne hpq]

theorem Arrays.at_of_le {α : Type} (mem : Arrays α) (p : Nat)
    (hp : mem.length ≤ p) : Arrays.at mem p = [] := by
  simp [Arrays.at, List.getElem?_eq_none hp]

theorem Arrays.at_append_left {α : Type} (mem : Arrays α) (a : List α) (p : Nat)
    (hp : p < mem.length) : Arrays.at (mem ++ [a]) p = Arrays.at mem p := by
  simp [Arrays.at, List.getElem?_append_left hp]

theorem Arrays.at_append_length {α : Type} (mem : Arrays α) (a : List α) :
    Arrays.at (mem ++ [a]) mem.length = a := by
  simp [Arrays.at]

/-- A valid slice with room for an element points into the memory. -/
theorem Slice.Valid.ptr_lt {α : Type} {mem : Arrays α} {s : Slice} (hv : s.Valid mem)
    (hc : 0 < s.cap) : s.ptr < mem.length := by
  by_contra hlt
  have := Arrays.at_of_le mem s.ptr (Nat.le_of_not_lt hlt)
  have h2 := hv.2
  rw [this] at h2
  simp at h2
  omega

theorem Slice.Valid.len_le {α : Type} {mem : Arrays α} {s : Slice} (hv : s.Valid mem) :
    s.len ≤ (Arrays.at mem s.ptr).length := le_trans hv.1 hv.2

theorem Slice.read_length {α : Type} {mem : Arrays α} {s : Slice} (hv : s.Valid mem) :
    (s.read mem).length = s.len := by
  simp [Slice.read, List.length_take, hv.len_le]

/-- After `append(s, xs...)` the result shows the elements of `s` followed by `xs`. -/
theorem goAppend_read {α : Type} (g : Nat → Nat → Nat) (z : α) (mem : Arrays α) (s : Slice)
    (xs : List α) (hv : s.Valid mem) :
    (goAppend g z mem s xs).2.read (goAppend g z mem s xs).1 = s.read mem ++ xs := by
  unfold goAppend
  by_cases hc : s.len + xs.length ≤ s.cap
  · simp only [hc, if_true]
    by_cases hp : s.ptr < mem.length
    · simp only [Slice.read, Arrays.at_set_self mem s.ptr _ hp]
      rw [List.append_assoc]
      have hl : (List.take s.len (Arrays.at mem s.ptr) ++ xs).length = s.len + xs.length := by
        simp [List.length_take, hv.len_le]
      rw [← List.append_assoc]
      exact List.take_left' hl
    · have hcap : s.cap = 0 := by
        by_contra h0
        exact hp (hv.ptr_lt (Nat.pos_of_ne_zero h0))
      have hxs : xs = [] := by
        apply List.eq_nil_of_length_eq_zero; omega
      have hlen : s.len = 0 := by omega
      subst hxs
      simp [Slice.read, hlen]
  · simp only [hc, if_false]
    simp only [Slice.read, Arrays.at_append_length]
    have hl : (List.take s.len (Arrays.at mem s.ptr) ++ xs).length = s.len + xs.length := by
      simp [List.length_take, hv.len_le]
    exact List.take_left' hl

/-- The result of `append` is a valid slice of the new memory. -/
theorem goAppend_valid {α : Type} (g : Nat → Nat → Nat) (z : α) (mem : Arrays α) (s : Slice)
    (xs : List α) (hv : s.Valid mem) :
    (goAppend g z mem s xs).2.Valid (goAppend g z mem s xs).1 := by
  unfold goAppend
  by_cases hc : s.len + xs.length ≤ s.cap
  · simp only [hc, if_true]
    refine ⟨hc, ?_⟩
    by_cases hp : s.ptr < mem.length
    · simp only [Arrays.at_set_self mem s.ptr _ hp]
      have := hv.2
      have h1 := hv.len_le
      simp [List.length_take, List.length_drop]
      omega
    · have hcap : s.cap = 0 := by
        by_contra h0
        exact hp (hv.ptr_lt (Nat.pos_of_ne_zero h0))
      simp [hcap]
  · simp only [hc, if_false]
    refine ⟨le_max_left _ _, ?_⟩
    simp only [Arrays.at_append_length]
    have h1 := hv.len_le
    simp [Slice.read, List.length_take]
    omega

/-- Memory only grows under `append`. -/
theorem goAppend_length_le {α : Type} (g : Nat → Nat → Nat) (z : α) (mem : Arrays α) (s : Slice)
    (xs : List α) : mem.length ≤ (goAppend g z mem s xs).1.length := by
  unfold goAppend
  by_cases hc : s.len + xs.length ≤ s.cap <;> simp [hc]

/-- A slice is not disturbed by `append(s, xs...)` when it lives in another array than `s`, or
shows no cell behind the length of `s`. -/
theorem goAppend_read_other {α : Type} (g : Nat → Nat → Nat) (z : α) (mem : Arrays α)
    (s t : Slice) (xs : List α) (ht : t.Valid mem)
    (hsep : t.ptr ≠ s.ptr ∨ t.len ≤ s.len) :
    t.read (goAppend g z mem s xs).1 = t.read mem := by
  unfold goAppend
  by_cases hc : s.len + xs.length ≤ s.cap
  · simp only [hc, if_true]
    by_cases hpq : s.ptr = t.ptr
    · have hle : t.len ≤ s.len := by
        rcases hsep with h | h
        · exact absurd hpq.symm h
        · exact h
      by_cases hp : s.ptr < mem.length
      · simp only [Slice.read, ← hpq, Arrays.at_set_self mem s.ptr _ hp]
        rw [List.append_assoc]
        have ht2 : t.len ≤ (Arrays.at mem s.ptr).length := by
          have := ht.len_le
          rw [← hpq] at this
          exact this
        have hl : t.len ≤ (List.take s.len (Arrays.at mem s.ptr)).length := by
          simp [List.length_take]
          omega
        rw [List.take_append_of_le_length hl, List.take_take, Nat.min_eq_left hle]
      · rw [List.set_eq_of_length_le (Nat.le_of_not_lt hp)]
    · simp only [Slice.read, Arrays.at_set_ne mem s.ptr t.ptr _ hpq]
  · simp only [hc, if_false]
    by_cases hp : t.ptr < mem.length
    · simp only [Slice.read, Arrays.at_append_left mem _ t.ptr hp]
    · have hcap : t.cap = 0 := by
        by_contra h0
        exact hp (ht.ptr_lt (Nat.pos_of_ne_zero h0))
      have hlen : t.len = 0 := by have := ht.1; omega
      simp [Slice.read, hlen]

/-! ## Lemmas on `log` -/

/-- The method `log` hands the line of the merged entry to every sink of the logger. -/
theorem log_eq (env : Env) (h : Heap) (l : Ptr) (obj : loggerImpl) (level : Level)
    (msg : String) (fields : List Field)
    (hl : h.loggers[l]? = some obj) (hv : obj.fields.Valid h.fieldArrays) :
    loggerImpl.log env h l level msg fields =
      Heap.WriteAll
        { h with fieldArrays := (goAppend env.growCap Field.zero h.fieldArrays obj.fields fields).1 }
        (h.sinksOf obj) (lineOf env obj level msg (h.fieldsOf obj ++ fields)) := by
  unfold loggerImpl.log
  simp only [hl]
  rw [goAppend_read env.growCap Field.zero h.fieldArrays obj.fields fields hv]
  rfl

/-- A level method at or above the threshold runs `log` at its level. -/
theorem call_pass (m : Method) (env : Env) (h : Heap) (l : Ptr) (obj : loggerImpl)
    (msg : String) (fields : List Field)
    (hl : h.loggers[l]? = some obj) (hpass : obj.level ≤ m.level) :
    m.call env h l msg fields = loggerImpl.log env h l m.level msg fields := by
  have hn : ¬ (obj.level > m.level) := not_lt.mpr hpass
  cases m <;>
    simp only [Method.call, Method.level, loggerImpl.Debug, loggerImpl.Info, loggerImpl.Warn,
      loggerImpl.Error, loggerImpl.Fatal, hl] at hn ⊢ <;>
    rw [if_neg hn]

/-- A level method below the threshold returns at once. -/
theorem call_filtered (m : Method) (env : Env) (h : Heap) (l : Ptr) (obj : loggerImpl)
    (msg : String) (fields : List Field)
    (hl : h.loggers[l]? = some obj) (hlt : m.level < obj.level) :
    m.call env h l msg fields = h := by
  have hn : obj.level > m.level := hlt
  cases m <;>
    simp only [Method.call, Method.level, loggerImpl.Debug, loggerImpl.Info, loggerImpl.Warn,
      loggerImpl.Error, loggerImpl.Fatal, hl] at hn ⊢ <;>
    rw [if_pos hn]

theorem call_writes (m : Method) (env : Env) (h : Heap) (l : Ptr) (obj : loggerImpl)
    (msg : String) (fields : List Field)
    (hl : h.loggers[l]? = some obj) (hv : obj.fields.Valid h.fieldArrays)
    (hpass : obj.level ≤ m.level) :
    (m.call env h l msg fields).writes =
      h.writes ++ (h.sinksOf obj).map
        (fun w => (w, lineOf env obj m.level msg (h.fieldsOf obj ++ fields))) := by
  rw [call_pass m env h l obj msg fields hl hpass, log_eq env h l obj m.level msg fields hl hv,
    WriteAll_writes]

theorem call_dataOf (m : Method) (env : Env) (h : Heap) (l : Ptr) (obj : loggerImpl)
    (msg : String) (fields : List Field)
    (hl : h.loggers[l]? = some obj) (hv : obj.fields.Valid h.fieldArrays)
    (hpass : obj.level ≤ m.level) (w : Ptr) (wr : Writer) (hw : h.writers[w]? = some wr) :
    (m.call env h l msg fields).dataOf w =
      if wr.failing then wr.data
      else wr.data ++ repeatStr ((h.sinksOf obj).count w)
        (lineOf env obj m.level msg (h.fieldsOf obj ++ fields)) := by
  rw [call_pass m env h l obj msg fields hl hpass, log_eq env h l obj m.level msg fields hl hv]
  exact WriteAll_dataOf _ _ _ w wr hw

/-! ## Lemmas on line terminators -/

theorem NoNL_append {a b : String} (ha : NoNL a) (hb : NoNL b) : NoNL (a ++ b) := by
  simp only [NoNL, String.data_append, List.mem_append, not_or] at *
  exact ⟨ha, hb⟩

theorem NoNL_join {l : List String} (hl : ∀ s ∈ l, NoNL s) : NoNL (String.join l) := by
  simp only [NoNL, String.data_join, List.mem_flatten, List.mem_map, not_exists, not_and]
  rintro cs ⟨s, hs, rfl⟩
  exact hl s hs

theorem NoNL_intercalate_go {sep : String} (hsep : NoNL sep) :
    ∀ (l : List String) (acc : String), NoNL acc → (∀ s ∈ l, NoNL s) →
      NoNL (String.intercalate.go acc sep l) := by
  intro l
  induction l with
  | nil => intro acc hacc _; simpa [String.intercalate.go] using hacc
  | cons a as ih =>
    intro acc hacc hl
    simp only [String.intercalate.go]
    apply ih
    · exact NoNL_append (NoNL_append hacc hsep) (hl a (List.mem_cons_self _ _))
    · intro s hs; exact hl s (List.mem_cons_of_mem _ hs)

theorem NoNL_intercalate {sep : String} (hsep : NoNL sep) {l : List String}
    (hl : ∀ s ∈ l, NoNL s) : NoNL (sep.intercalate l) := by
  cases l with
  | nil => simp [String.intercalate, NoNL]
  | cons a as =>
    simp only [String.intercalate]
    exact NoNL_intercalate_go hsep as a (hl a (List.mem_cons_self _ _))
      (fun s hs => hl s (List.mem_cons_of_mem _ hs))

theorem digitChar_ne_nl (n : Nat) : Nat.digitChar n ≠ '\n' := by
  rcases Nat.lt_or_ge n 16 with h | h
  · interval_cases n <;> decide
  · have hstar : Nat.digitChar n = '*' := by
      unfold Nat.digitChar
      iterate 16 rw [if_neg (by omega)]
    rw [hstar]
    decide

theorem toDigitsCore_no_nl (b : Nat) : ∀ (fuel n : Nat) (ds : List Char),
    '\n' ∉ ds → '\n' ∉ Nat.toDigitsCore b fuel n ds := by
  intro fuel
  induction fuel with
  | zero => intro n ds hds; simpa [Nat.toDigitsCore] using hds
  | succ f ih =>
    intro n ds hds
    simp only [Nat.toDigitsCore]
    have hcons : '\n' ∉ Nat.digitChar (n % b) :: ds := by
      simp only [List.mem_cons, not_or]
      exact ⟨fun h => digitChar_ne_nl _ h.symm, hds⟩
    split
    · exact hcons
    · exact ih _ _ hcons

theorem NoNL_natRepr (n : Nat) : NoNL (Nat.repr n) := by
  simp only [NoNL, Nat.repr, List.asString, Nat.toDigits]
  exact toDigitsCore_no_nl 10 _ _ _ (by simp)

theorem NoNL_intToString (n : Int) : NoNL (toString n) := by
  cases n with
  | ofNat k => exact NoNL_natRepr k
  | negSucc k =>
    show NoNL ("-" ++ Nat.repr (Nat.succ k))
    exact NoNL_append (by decide) (NoNL_natRepr _)

theorem NoNL_escapeChar (c : Char) : NoNL (escapeChar c) := by
  unfold escapeChar
  by_cases h1 : c = '"'
  · rw [if_pos h1]; decide
  rw [if_neg h1]
  by_cases h2 : c = '\\'
  · rw [if_pos h2]; decide
  rw [if_neg h2]
  by_cases h3 : c = '\n'
  · rw [if_pos h3]; decide
  rw [if_neg h3]
  by_cases h4 : c = '\r'
  · rw [if_pos h4]; decide
  rw [if_neg h4]
  by_cases h5 : c = '\t'
  · rw [if_pos h5]; decide
  rw [if_neg h5]
  by_cases h6 : c = '\x08'
  · rw [if_pos h6]; decide
  rw [if_neg h6]
  by_cases h7 : c = '\x0c'
  · rw [if_pos h7]; decide
  rw [if_neg h7]
  by_cases h8 : c.toNat < 32
  · rw [if_pos h8]
    simp only [NoNL, String.data_append, List.mem_append, not_or]
    refine ⟨by decide, ?_⟩
    simp only [List.mem_cons, not_or, List.not_mem_nil, not_false_eq_true, and_true]
    exact ⟨fun h => digitChar_ne_nl _ h.symm, fun h => digitChar_ne_nl _ h.symm⟩
  rw [if_neg h8]
  by_cases h9 : c = '<'
  · rw [if_pos h9]; decide
  rw [if_neg h9]
  by_cases h10 : c = '>'
  · rw [if_pos h10]; decide
  rw [if_neg h10]
  by_cases h11 : c = '&'
  · rw [if_pos h11]; decide
  rw [if_neg h11]
  by_cases h12 : c = Char.ofNat 0x2028
  · rw [if_pos h12]; decide
  rw [if_neg h12]
  by_cases h13 : c = Char.ofNat 0x2029
  · rw [if_pos h13]; decide
  rw [if_neg h13]
  simp only [NoNL, String.singleton, String.push]
  intro h
  simp at h
  exact h3 h.symm

theorem NoNL_quote (s : String) : NoNL (quote s) := by
  unfold quote
  refine NoNL_append (NoNL_append (by decide) (NoNL_join ?_)) (by decide)
  intro e he
  rcases List.mem_map.mp he with ⟨c, _, rfl⟩
  exact NoNL_escapeChar c

theorem NoNL_emitArray {es : List String} (hes : ∀ e ∈ es, NoNL e) : NoNL (emitArray es) := by
  unfold emitArray
  exact NoNL_append (NoNL_append (by decide) (NoNL_intercalate (by decide) hes)) (by decide)

theorem NoNL_emitObject {ms : List (String × String)} (hms : ∀ p ∈ ms, NoNL p.2) :
    NoNL (emitObject ms) := by
  unfold emitObject
  refine NoNL_append (NoNL_append (by decide) (NoNL_intercalate (by decide) ?_)) (by decide)
  intro e he
  rcases List.mem_map.mp he with ⟨p, hp, rfl⟩
  exact NoNL_append (NoNL_append (NoNL_quote _) (by decide)) (hms p hp)

theorem mem_sortByKey {β : Type} {l : List (String × β)} {p : String × β} :
    p ∈ sortByKey l ↔ p ∈ l :=
  (List.perm_insertionSort keyLE l).mem_iff

mutual
/-- The compact encoding of a value holds no line terminator. -/
theorem NoNL_encodeValue : ∀ (v : Value) (s : String), encodeValue v = some s → NoNL s
  | .null, s, h => by
    simp only [encodeValue, Option.some.injEq] at h; subst h; decide
  | .bool b, s, h => by
    simp only [encodeValue, Option.some.injEq] at h; subst h; cases b <;> decide
  | .int n, s, h => by
    simp only [encodeValue, Option.some.injEq] at h; subst h; exact NoNL_intToString n
  | .str t, s, h => by
    simp only [encodeValue, Option.some.injEq] at h; subst h; exact NoNL_quote t
  | .list xs, s, h => by
    simp only [encodeValue, Option.map_eq_some'] at h
    rcases h with ⟨es, hes, rfl⟩
    exact NoNL_emitArray (NoNL_encodeList xs es hes)
  | .map kvs, s, h => by
    simp only [encodeValue, Option.map_eq_some'] at h
    rcases h with ⟨ms, hms, rfl⟩
    exact NoNL_emitObject (fun p hp => NoNL_encodeMembers kvs ms hms p (mem_sortByKey.mp hp))
  | .chan _, s, h => by
    simp [encodeValue] at h
/-- The compact encodings of the elements of an array hold no line terminator. -/
theorem NoNL_encodeList : ∀ (xs : List Value) (es : List String),
    encodeList xs = some es → ∀ e ∈ es, NoNL e
  | [], es, h => by
    simp only [encodeList, Option.some.injEq] at h; subst h; simp
  | v :: vs, es, h => by
    simp only [encodeList] at h
    cases hv : encodeValue v with
    | none => simp [hv] at h
    | some e =>
      cases hvs : encodeList vs with
      | none => simp [hv, hvs] at h
      | some es' =>
        simp only [hv, hvs, Option.some.injEq] at h
        subst h
        intro x hx
        rcases List.mem_cons.mp hx with rfl | hx
        · exact NoNL_encodeValue v _ hv
        · exact NoNL_encodeList vs es' hvs x hx
/-- The compact encodings of the members of an object hold no line terminator. -/
theorem NoNL_encodeMembers : ∀ (kvs : List (String × Value)) (ms : List (String × String)),
    encodeMembers kvs = some ms → ∀ p ∈ ms, NoNL p.2
  | [], ms, h => by
    simp only [encodeMembers, Option.some.injEq] at h; subst h; simp
  | (k, v) :: rest, ms, h => by
    simp only [encodeMembers] at h
    cases hv : encodeValue v with
    | none => simp [hv] at h
    | some e =>
      cases hvs : encodeMembers rest with
      | none => simp [hv, hvs] at h
      | some ms' =>
        simp only [hv, hvs, Option.some.injEq] at h
        subst h
        intro x hx
        rcases List.mem_cons.mp hx with rfl | hx
        · exact NoNL_encodeValue v _ hv
        · exact NoNL_encodeMembers rest ms' hvs x hx
end

/-- C1: a level method whose level lies below the threshold of the logger (any integer
threshold) leaves the whole state as it was; in particular every attached sink holds the
bytes it held before the call, and no `Write` was made. -/
theorem C1_below_threshold_writes_nothing (env : Env) (h : Heap) (l : Ptr) (obj : loggerImpl)
    (m : Method) (msg : String) (fields : List Field)
    (hl : h.loggers[l]? = some obj) (hlt : m.level < obj.level) :
    m.call env h l msg fields = h
      ∧ (∀ w ∈ h.sinksOf obj, (m.call env h l msg fields).dataOf w = h.dataOf w)
      ∧ (m.call env h l msg fields).writes = h.writes := by
  rw [call_filtered m env h l obj msg fields hl hlt]
  exact ⟨rfl, fun _ _ => rfl, rfl⟩

/-- Witness of C1: with threshold 7, above `FatalLevel`, a call of `Fatal` changes nothing. -/
theorem C1_below_threshold_writes_nothing_witness :
    (exLogger [.WithLevel 7]).loggers[0]? = some ⟨7, "", Slice.nil, false, false, ⟨1, 2, 2⟩, none, false⟩
      ∧ Method.Fatal.level < (7 : Level)
      ∧ Method.Fatal.call exEnv (exLogger [.WithLevel 7]) 0 "boom" [⟨"k", Value.int 1⟩]
          = exLogger [.WithLevel 7] :=
  ⟨by decide, by decide,
    (C1_below_threshold_writes_nothing exEnv (exLogger [.WithLevel 7]) 0
      ⟨7, "", Slice.nil, false, false, ⟨1, 2, 2⟩, none, false⟩ Method.Fatal "boom"
      [⟨"k", Value.int 1⟩] (by decide) (by decide)).1⟩

/-! ## Lemmas on maps -/

theorem GoMap.get_set (m : GoMap) (k k' : String) (v : Value) :
    (GoMap.set m k v).get k' = if k = k' then some v else m.get k' := by
  induction m with
  | nil => simp [GoMap.set, GoMap.get]
  | cons p rest ih =>
    obtain ⟨k0, v0⟩ := p
    by_cases h0 : k0 = k
    · subst h0
      by_cases h1 : k0 = k' <;> simp [GoMap.set, GoMap.get, h1]
    · by_cases h1 : k0 = k'
      · subst h1
        simp [GoMap.set, GoMap.get, h0, Ne.symm h0]
      · simp [GoMap.set, GoMap.get, h0, h1, ih]

theorem GoMap.mem_keys_set (m : GoMap) (k k' : String) (v : Value) :
    k' ∈ (GoMap.set m k v).map Prod.fst ↔ k' = k ∨ k' ∈ m.map Prod.fst := by
  induction m with
  | nil => simp [GoMap.set]
  | cons p rest ih =>
    obtain ⟨k0, v0⟩ := p
    by_cases h0 : k0 = k
    · subst h0
      simp [GoMap.set]
    · simp only [GoMap.set, h0, if_false, List.map_cons, List.mem_cons, ih]
      tauto

theorem GoMap.nodupKeys_set (m : GoMap) (k : String) (v : Value) (hm : NodupKeys m) :
    NodupKeys (GoMap.set m k v) := by
  induction m with
  | nil => simp [GoMap.set, NodupKeys]
  | cons p rest ih =>
    obtain ⟨k0, v0⟩ := p
    simp only [NodupKeys, List.map_cons, List.nodup_cons] at hm
    by_cases h0 : k0 = k
    · subst h0
      simpa [GoMap.set, NodupKeys] using hm
    · simp only [GoMap.set, h0, if_false, NodupKeys, List.map_cons, List.nodup_cons]
      refine ⟨?_, ih hm.2⟩
      rw [GoMap.mem_keys_set]
      rintro (h | h)
      · exact h0 h
      · exact hm.1 h

theorem GoMap.set_of_not_mem (m : GoMap) (k : String) (v : Value)
    (hk : k ∉ m.map Prod.fst) : GoMap.set m k v = m ++ [(k, v)] := by
  induction m with
  | nil => simp [GoMap.set]
  | cons p rest ih =>
    obtain ⟨k0, v0⟩ := p
    simp only [List.map_cons, List.mem_cons, not_or] at hk
    simp [GoMap.set, Ne.symm hk.1, ih hk.2]

/-- Filling a map by a loop over distinct keys lists the entries in the order of the loop. -/
theorem foldl_set_append (l : GoMap) : ∀ (acc : GoMap), NodupKeys (acc ++ l) →
    l.foldl (fun (m : GoMap) kv => GoMap.set m kv.1 kv.2) acc = acc ++ l := by
  induction l with
  | nil => intro acc _; simp
  | cons p rest ih =>
    intro acc hnd
    obtain ⟨k, v⟩ := p
    have hk : k ∉ acc.map Prod.fst := by
      simp only [NodupKeys, List.map_append, List.map_cons] at hnd
      have := (List.nodup_append.mp hnd).2.2
      intro hmem
      exact this hmem (List.mem_cons_self _ _) 
    simp only [List.foldl_cons]
    rw [GoMap.set_of_not_mem acc k v hk, ih]
    · simp
    · simpa using hnd

theorem foldl_set_nil (l : GoMap) (hl : NodupKeys l) :
    l.foldl (fun (m : GoMap) kv => GoMap.set m kv.1 kv.2) [] = l := by
  simpa using foldl_set_append l [] (by simpa using hl)

theorem NodupKeys.perm {β : Type} {m₁ m₂ : List (String × β)} (hp : m₁.Perm m₂)
    (h₁ : NodupKeys m₁) : NodupKeys m₂ :=
  ((hp.map Prod.fst).nodup_iff).mp h₁

theorem GoMap.mem_iff_get (m : GoMap) (hm : NodupKeys m) (k : String) (v : Value) :
    (k, v) ∈ m ↔ m.get k = some v := by
  induction m with
  | nil => simp [GoMap.get]
  | cons p rest ih =>
    obtain ⟨k0, v0⟩ := p
    simp only [NodupKeys, List.map_cons, List.nodup_cons] at hm
    by_cases h0 : k0 = k
    · subst h0
      simp only [List.mem_cons, Prod.mk.injEq, true_and, GoMap.get, if_true, Option.some.injEq]
      constructor
      · rintro (h | h)
        · exact h.symm
        · exact absurd (List.mem_map_of_mem Prod.fst h) hm.1
      · intro h; exact Or.inl h.symm
    · simp only [List.mem_cons, Prod.mk.injEq, GoMap.get, h0, if_false, ← ih hm.2]
      constructor
      · rintro (h | h)
        · exact absurd h.1.symm h0
        · exact h
      · intro h; exact Or.inr h

theorem GoMap.get_perm {m₁ m₂ : GoMap} (hp : m₁.Perm m₂) (h₁ : NodupKeys m₁) (k : String) :
    m₁.get k = m₂.get k := by
  have h₂ := h₁.perm hp
  apply Option.ext
  intro v
  rw [Option.mem_def, Option.mem_def, ← GoMap.mem_iff_get m₁ h₁, ← GoMap.mem_iff_get m₂ h₂]
  exact hp.mem_iff

theorem GoMap.perm_of_get_eq {m₁ m₂ : GoMap} (h₁ : NodupKeys m₁) (h₂ : NodupKeys m₂)
    (hg : ∀ k, m₁.get k = m₂.get k) : m₁.Perm m₂ := by
  rw [List.perm_ext_iff_of_nodup (List.Nodup.of_map _ h₁) (List.Nodup.of_map _ h₂)]
  rintro ⟨k, v⟩
  rw [GoMap.mem_iff_get m₁ h₁, GoMap.mem_iff_get m₂ h₂, hg]

/-- In a map the entries with key `k` are the single entry that `get` returns. -/
theorem GoMap.filter_key (m : GoMap) (hm : NodupKeys m) (k : String) (v : Value)
    (hg : m.get k = some v) : m.filter (fun kv => kv.1 = k) = [(k, v)] := by
  induction m with
  | nil => simp [GoMap.get] at hg
  | cons p rest ih =>
    obtain ⟨k0, v0⟩ := p
    simp only [NodupKeys, List.map_cons, List.nodup_cons] at hm
    by_cases h0 : k0 = k
    · subst h0
      simp only [GoMap.get, if_true, Option.some.injEq] at hg
      subst hg
      have hnone : rest.filter (fun kv => decide (kv.1 = k0)) = [] := by
        rw [List.filter_eq_nil_iff]
        intro a ha hk
        simp only [decide_eq_true_eq] at hk
        exact hm.1 (hk ▸ List.mem_map_of_mem Prod.fst ha)
      simp [List.filter_cons, hnone]
    · simp only [GoMap.get, h0, if_false] at hg
      simp [List.filter_cons, h0, ih hm.2 hg]

/-! ## Lemmas on sorting by key -/

theorem sortByKey_perm {β : Type} (m : List (String × β)) : (sortByKey m).Perm m :=
  List.perm_insertionSort keyLE m

theorem sortByKey_nodupKeys {β : Type} {m : List (String × β)} (hm : NodupKeys m) :
    NodupKeys (sortByKey m) :=
  hm.perm (sortByKey_perm m).symm

/-- Sorting a list with distinct keys puts the keys in strictly ascending order. -/
theorem sortByKey_strict {β : Type} {m : List (String × β)} (hm : NodupKeys m) :
    (sortByKey m).Pairwise keyLT := by
  have hs : (sortByKey m).Pairwise keyLE := List.sorted_insertionSort keyLE m
  have hn : (sortByKey m).Pairwise (fun a b => a.1 ≠ b.1) :=
    List.pairwise_map.mp (sortByKey_nodupKeys hm)
  refine (hs.and hn).imp ?_
  rintro a b ⟨hle, hne⟩
  refine lt_of_le_of_ne hle ?_
  intro h
  exact hne (String.ext h)

/-- Two lists with the same entries and distinct keys sort to the same list. -/
theorem sortByKey_eq_of_perm {β : Type} {m₁ m₂ : List (String × β)} (hp : m₁.Perm m₂)
    (h₁ : NodupKeys m₁) : sortByKey m₁ = sortByKey m₂ :=
  List.eq_of_perm_of_sorted (r := keyLT)
    (((sortByKey_perm m₁).trans hp).trans (sortByKey_perm m₂).symm)
    (sortByKey_strict h₁) (sortByKey_strict (h₁.perm hp))

theorem sortByKey_get {m : GoMap} (hm : NodupKeys m) (k : String) :
    GoMap.get (sortByKey m) k = m.get k :=
  GoMap.get_perm (sortByKey_perm m) (sortByKey_nodupKeys hm) k

/-! ## Lemmas on the JSON object of a map -/

/-- The members of an object are encoded one by one; a single failure fails the whole. -/
theorem encodeMembers_eq (m : List (String × Value)) :
    encodeMembers m =
      if m.all (fun kv => (encodeValue kv.2).isSome) then
        some (m.map (fun kv => (kv.1, (encodeValue kv.2).getD "")))
      else none := by
  induction m with
  | nil => simp [encodeMembers]
  | cons p rest ih =>
    obtain ⟨k, v⟩ := p
    simp only [encodeMembers, ih]
    cases hv : encodeValue v with
    | none => simp [hv]
    | some e =>
      by_cases hall : rest.all (fun kv => (encodeValue kv.2).isSome) = true
      · simp [hall, hv]
      · simp [hall, hv]

theorem indentMembers_eq (d : Nat) (m : List (String × Value)) :
    indentMembers d m =
      if m.all (fun kv => (indentValue d kv.2).isSome) then
        some (m.map (fun kv => (kv.1, (indentValue d kv.2).getD "")))
      else none := by
  induction m with
  | nil => simp [indentMembers]
  | cons p rest ih =>
    obtain ⟨k, v⟩ := p
    simp only [indentMembers, ih]
    cases hv : indentValue d v with
    | none => simp [hv]
    | some e =>
      by_cases hall : rest.all (fun kv => (indentValue d kv.2).isSome) = true
      · simp [hall, hv]
      · simp [hall, hv]

theorem all_sortByKey {β : Type} (p : String × β → Bool) (m : List (String × β)) :
    (sortByKey m).all p = m.all p := by
  rw [Bool.eq_iff_iff, List.all_eq_true, List.all_eq_true]
  constructor
  · intro h x hx; exact h x (mem_sortByKey.mpr hx)
  · intro h x hx; exact h x (mem_sortByKey.mp hx)

theorem sortByKey_map {β γ : Type} (f : β → γ) (m : List (String × β)) :
    sortByKey (m.map (fun kv => (kv.1, f kv.2))) = (sortByKey m).map (fun kv => (kv.1, f kv.2)) := by
  unfold sortByKey
  rw [List.map_insertionSort keyLE keyLE]
  intro a _ b _
  rfl

/-- Sorting the encoded members is encoding the sorted members. -/
theorem encodeMembers_sort (m : List (String × Value)) :
    (encodeMembers m).map sortByKey = encodeMembers (sortByKey m) := by
  rw [encodeMembers_eq, encodeMembers_eq, all_sortByKey]
  by_cases hall : m.all (fun kv => (encodeValue kv.2).isSome) = true
  · simp only [hall, if_true, Option.map_some']
    rw [sortByKey_map (fun v => (encodeValue v).getD "")]
  · simp [hall]

theorem indentMembers_sort (d : Nat) (m : List (String × Value)) :
    (indentMembers d m).map sortByKey = indentMembers d (sortByKey m) := by
  rw [indentMembers_eq, indentMembers_eq, all_sortByKey]
  by_cases hall : m.all (fun kv => (indentValue d kv.2).isSome) = true
  · simp only [hall, if_true, Option.map_some']
    rw [sortByKey_map (fun v => (indentValue d v).getD "")]
  · simp [hall]

/-- The function `FormatJSON` emits the members of the entry in the order of their keys. -/
theorem FormatJSON_eq (m : GoMap) (pretty : Bool) :
    FormatJSON m pretty = objectOf pretty (sortByKey m) := by
  unfold FormatJSON objectOf Marshal MarshalIndent
  cases pretty with
  | true =>
    simp only [if_true, indentValue]
    rw [← indentMembers_sort, Option.map_map]
    rfl
  | false =>
    simp only [Bool.false_eq_true, if_false, encodeValue]
    rw [← encodeMembers_sort, Option.map_map]
    rfl

/-! ## Lemmas on the assembled entry -/

theorem baseEntry_nodupKeys (env : Env) (obj : loggerImpl) (level : Level) (msg : String) :
    NodupKeys (baseEntry env obj level msg) := by
  have h4 : NodupKeys ([("ts", Value.str env.now), ("lvl", Value.str (levelNames level)),
      ("msg", Value.str msg), ("layer", Value.str obj.layer)] : GoMap) := by
    simp only [NodupKeys, List.map_cons, List.map_nil]
    decide
  unfold baseEntry
  by_cases hc : obj.showCaller = true
  · simp only [hc, if_true]
    cases env.caller with
    | none => exact h4
    | some fr => exact GoMap.nodupKeys_set _ _ _ h4
  · simp only [hc]
    exact h4

theorem foldl_fields_nodupKeys (fs : List Field) : ∀ (e : GoMap), NodupKeys e →
    NodupKeys (fs.foldl (fun (e : GoMap) f => GoMap.set e f.Key f.Value) e) := by
  induction fs with
  | nil => intro e he; exact he
  | cons f rest ih =>
    intro e he
    simp only [List.foldl_cons]
    exact ih _ (GoMap.nodupKeys_set e f.Key f.Value he)

theorem record_nodupKeys (env : Env) (obj : loggerImpl) (level : Level) (msg : String)
    (fs : List Field) : NodupKeys (record env obj level msg fs) :=
  foldl_fields_nodupKeys fs _ (baseEntry_nodupKeys env obj level msg)

/-- After the merge a key holds the value of its last field, or else what it held before. -/
theorem foldl_fields_get (fs : List Field) (k : String) : ∀ (e : GoMap),
    (fs.foldl (fun (e : GoMap) f => GoMap.set e f.Key f.Value) e).get k =
      match lastValue fs k with
      | some v => some v
      | none => e.get k := by
  induction fs with
  | nil => intro e; simp [lastValue]
  | cons f rest ih =>
    intro e
    simp only [List.foldl_cons, ih, lastValue]
    cases hlast : lastValue rest k with
    | some v => simp
    | none =>
      simp only [GoMap.get_set]
      by_cases hk : f.Key = k <;> simp [hk]

theorem record_get_of_last (env : Env) (obj : loggerImpl) (level : Level) (msg : String)
    (fs : List Field) (k : String) (v : Value) (hlast : lastValue fs k = some v) :
    (record env obj level msg fs).get k = some v := by
  unfold record
  rw [foldl_fields_get, hlast]

theorem record_get_of_none (env : Env) (obj : loggerImpl) (level : Level) (msg : String)
    (fs : List Field) (k : String) (hlast : lastValue fs k = none) :
    (record env obj level msg fs).get k = (baseEntry env obj level msg).get k := by
  unfold record
  rw [foldl_fields_get, hlast]

/-- A key has a last value exactly when some field carries it. -/
theorem lastValue_isSome (fs : List Field) (k : String) :
    (lastValue fs k).isSome = true ↔ k ∈ fs.map Field.Key := by
  induction fs with
  | nil => simp [lastValue]
  | cons f rest ih =>
    simp only [lastValue, List.map_cons, List.mem_cons]
    cases hlast : lastValue rest k with
    | some v =>
      have : k ∈ rest.map Field.Key := ih.mp (by simp [hlast])
      simp [this]
    | none =>
      have hn : k ∉ rest.map Field.Key := by
        intro hmem
        have := ih.mpr hmem
        simp [hlast] at this
      by_cases hk : f.Key = k
      · simp [hk]
      · simp [hk, hn, Ne.symm hk]

/-! ## Lemmas on rendering -/

theorem toStringKeyAny_eq (env : Env) (henv : env.RangeVisitsAll) (m : GoMap)
    (hm : NodupKeys m) : loggerImpl.toStringKeyAny env m = env.rangeOrder m :=
  foldl_set_nil _ (hm.perm (henv m).symm)

/-- In JSON mode the rendering is the object of the entry with its members in key order. -/
theorem render_json (env : Env) (henv : env.RangeVisitsAll) (obj : loggerImpl) (level : Level)
    (entry : GoMap) (hm : NodupKeys entry) (hj : obj.jsonOutput = true) :
    render env obj level entry = (objectOf obj.prettyJSON (sortByKey entry)).getD "" := by
  unfold render
  simp only [hj, if_true]
  rw [foldl_set_nil _ (hm.perm (henv entry).symm), FormatJSON_eq,
    sortByKey_eq_of_perm (henv entry) (hm.perm (henv entry).symm)]

theorem String.join_cons_eq (a : String) (l : List String) :
    String.join (a :: l) = a ++ String.join l := by
  apply String.ext
  simp

theorem foldl_textPairs (l : List (String × Value)) : ∀ (sb : String),
    l.foldl (fun sb kv =>
        if isReserved kv.1 then sb else sb ++ (" " ++ kv.1 ++ ": " ++ formatV kv.2)) sb =
      sb ++ String.join ((l.filter (fun kv => !isReserved kv.1)).map textPair) := by
  induction l with
  | nil => intro sb; simp [String.join]
  | cons p rest ih =>
    intro sb
    simp only [List.foldl_cons, ih]
    by_cases hr : isReserved p.1 = true
    · simp [hr, List.filter_cons]
    · simp only [hr, List.filter_cons, Bool.not_eq_true] at *
      simp [hr, String.join_cons_eq, textPair, String.append_assoc]

/-- The function `FormatText` writes the head of the line and then one pair per entry of its
loop whose key is not reserved. -/
theorem FormatText_eq (env : Env) (m : GoMap) (level : String) (pretty : Bool) :
    FormatText env m level pretty =
      textHead env m level ++
        String.join (((env.rangeOrder m).filter (fun kv => !isReserved kv.1)).map textPair) := by
  unfold FormatText
  simp only [foldl_textPairs]
  rfl

theorem getString_congr {m m' : GoMap} (k : String) (hg : m.get k = m'.get k) :
    m.getString k = m'.getString k := by
  unfold GoMap.getString
  rw [hg]

theorem textHead_congr (env : Env) {m m' : GoMap} (level : String)
    (hg : ∀ k, m.get k = m'.get k) : textHead env m level = textHead env m' level := by
  unfold textHead
  rw [getString_congr "ts" (hg _), getString_congr "layer" (hg _), getString_congr "msg" (hg _),
    getString_congr "caller" (hg _)]

/-- In text mode the rendering is the head of the line followed by the trailing pairs. -/
theorem render_text (env : Env) (henv : env.RangeVisitsAll) (obj : loggerImpl) (level : Level)
    (entry : GoMap) (hm : NodupKeys entry) (hj : obj.jsonOutput = false) :
    render env obj level entry =
      textHead env entry (levelNames level) ++ String.join ((textPairs env entry).map textPair) := by
  unfold render textPairs
  simp only [hj, Bool.false_eq_true, if_false]
  rw [FormatText_eq, toStringKeyAny_eq env henv entry hm]
  congr 1
  apply textHead_congr
  intro k
  exact GoMap.get_perm (henv entry) (hm.perm (henv entry).symm) k

/-- The trailing pairs are the entries of the map whose key is not reserved, each once. -/
theorem textPairs_perm (env : Env) (henv : env.RangeVisitsAll) (entry : GoMap)
    (hm : NodupKeys entry) :
    (textPairs env entry).Perm (entry.filter (fun kv => !isReserved kv.1)) := by
  unfold textPairs
  rw [toStringKeyAny_eq env henv entry hm]
  exact ((henv _).trans (henv entry)).filter _

theorem lastValue_append_singleton (fs : List Field) (k : String) (v : Value) :
    lastValue (fs ++ [⟨k, v⟩]) k = some v := by
  induction fs with
  | nil => simp [lastValue]
  | cons f rest ih => simp [lastValue, ih]

theorem filter_nodupKeys {β : Type} (p : String × β → Bool) {m : List (String × β)}
    (hm : NodupKeys m) : NodupKeys (m.filter p) :=
  List.Nodup.sublist ((List.filter_sublist m).map Prod.fst) hm

/-- The trailing pair of a key that is not reserved carries the value the entry holds. -/
theorem textPairs_filter_key (env : Env) (henv : env.RangeVisitsAll) (entry : GoMap)
    (hm : NodupKeys entry) (k : String) (v : Value) (hg : entry.get k = some v)
    (hk : isReserved k = false) :
    (textPairs env entry).filter (fun kv => kv.1 = k) = [(k, v)] := by
  have hperm := textPairs_perm env henv entry hm
  have hnd : NodupKeys (textPairs env entry) := (filter_nodupKeys _ hm).perm hperm.symm
  apply GoMap.filter_key _ hnd
  rw [← GoMap.mem_iff_get _ hnd, hperm.mem_iff, List.mem_filter]
  exact ⟨(GoMap.mem_iff_get entry hm k v).mpr hg, by simp [hk]⟩

theorem exEnv_rangeVisitsAll : exEnv.RangeVisitsAll := fun m => List.Perm.refl m

/-! ## Lemmas on slices that share a memory -/

theorem Arrays.set_at_self {α : Type} (mem : Arrays α) (p : Nat) :
    mem.set p (Arrays.at mem p) = mem := by
  by_cases hp : p < mem.length
  · apply List.ext_getElem?
    intro i
    by_cases hi : p = i
    · subst hi
      simp [Arrays.at, List.getElem?_set_self hp, List.getElem?_eq_getElem hp]
    · simp [List.getElem?_set_ne hi]
  · exact List.set_eq_of_length_le (Nat.le_of_not_lt hp)

/-- What `append(s, xs...)` leaves in place: a slice `t` shows the same elements afterwards
when the call allocates, or appends nothing, or `t` lives in another array, or `t` shows no
cell behind the length of `s`. -/
theorem goAppend_read_frame {α : Type} (g : Nat → Nat → Nat) (z : α) (mem : Arrays α)
    (s t : Slice) (xs : List α) (ht : t.Valid mem)
    (hsep : s.len + xs.length ≤ s.cap → (t.ptr ≠ s.ptr ∨ t.len ≤ s.len ∨ xs = [])) :
    t.read (goAppend g z mem s xs).1 = t.read mem := by
  by_cases hc : s.len + xs.length ≤ s.cap
  · rcases hsep hc with h | h | h
    · exact goAppend_read_other g z mem s t xs ht (Or.inl h)
    · exact goAppend_read_other g z mem s t xs ht (Or.inr h)
    · subst h
      unfold goAppend
      have hc' : s.len ≤ s.cap := by simpa using hc
      simp only [List.append_nil, Nat.add_zero, List.length_nil,
        List.take_append_drop, Arrays.set_at_self, hc', if_true]
  · unfold goAppend
    simp only [hc, if_false]
    by_cases hp : t.ptr < mem.length
    · simp only [Slice.read, Arrays.at_append_left mem _ t.ptr hp]
    · have hcap : t.cap = 0 := by
        by_contra h0
        exact hp (ht.ptr_lt (Nat.pos_of_ne_zero h0))
      have hlen : t.len = 0 := by have := ht.1; omega
      simp [Slice.read, hlen]

/-- Every valid slice stays valid under `append` on a valid slice. -/
theorem goAppend_valid_frame {α : Type} (g : Nat → Nat → Nat) (z : α) (mem : Arrays α)
    (s t : Slice) (xs : List α) (hs : s.Valid mem) (ht : t.Valid mem) :
    t.Valid (goAppend g z mem s xs).1 := by
  refine ⟨ht.1, ?_⟩
  unfold goAppend
  by_cases hc : s.len + xs.length ≤ s.cap
  · simp only [hc, if_true]
    by_cases hpq : s.ptr = t.ptr
    · by_cases hp : s.ptr < mem.length
      · rw [← hpq, Arrays.at_set_self mem s.ptr _ hp]
        have h1 := ht.2
        rw [← hpq] at h1
        have h2 := hs.2
        simp [List.length_take, List.length_drop]
        omega
      · rw [List.set_eq_of_length_le (Nat.le_of_not_lt hp)]
        exact ht.2
    · rw [Arrays.at_set_ne mem s.ptr t.ptr _ hpq]
      exact ht.2
  · simp only [hc, if_false]
    by_cases hp : t.ptr < mem.length
    · rw [Arrays.at_append_left mem _ t.ptr hp]
      exact ht.2
    · have hcap : t.cap = 0 := by
        by_contra h0
        exact hp (ht.ptr_lt (Nat.pos_of_ne_zero h0))
      omega

/-- The result of `append(s, xs...)` stays disjoint from every valid slice `s` was disjoint
from. -/
theorem goAppend_disjoint {α : Type} (g : Nat → Nat → Nat) (z : α) (mem : Arrays α)
    (s t : Slice) (xs : List α) (ht : t.Valid mem) (hd : s.Disjoint t) :
    (goAppend g z mem s xs).2.Disjoint t := by
  unfold goAppend
  by_cases hc : s.len + xs.length ≤ s.cap
  · simp only [hc, if_true]
    exact hd
  · simp only [hc, if_false]
    by_cases h0 : t.cap = 0
    · exact Or.inr (Or.inl h0)
    · have := ht.ptr_lt (Nat.pos_of_ne_zero h0)
      exact Or.inr (Or.inr (by simp only; omega))

/-- The result of `append` on a fresh slice is fresh. -/
theorem goAppend_fresh {α : Type} (g : Nat → Nat → Nat) (z : α) (mem₀ mem : Arrays α)
    (s : Slice) (xs : List α) (hlen : mem₀.length ≤ mem.length) (hf : s.Fresh mem₀) :
    (goAppend g z mem s xs).2.Fresh mem₀ := by
  unfold goAppend
  by_cases hc : s.len + xs.length ≤ s.cap
  · simp only [hc, if_true]
    exact hf
  · simp only [hc, if_false]
    exact Or.inr hlen

theorem Slice.Fresh.disjoint {α : Type} {mem : Arrays α} {s t : Slice} (hf : s.Fresh mem)
    (ht : t.Valid mem) : s.Disjoint t := by
  rcases hf with h | h
  · exact Or.inl h
  · by_cases h0 : t.cap = 0
    · exact Or.inr (Or.inl h0)
    · have := ht.ptr_lt (Nat.pos_of_ne_zero h0)
      exact Or.inr (Or.inr (by omega))

theorem Slice.Disjoint.flip {s t : Slice} (hd : s.Disjoint t) : t.Disjoint s := by
  rcases hd with h | h | h
  · exact Or.inr (Or.inl h)
  · exact Or.inl h
  · exact Or.inr (Or.inr (Ne.symm h))

/-- Disjoint valid slices satisfy the frame condition of `append`. -/
theorem Slice.Disjoint.frame {α : Type} {mem : Arrays α} {s t : Slice} (xs : List α)
    (hd : s.Disjoint t) (ht : t.Valid mem) :
    s.len + xs.length ≤ s.cap → (t.ptr ≠ s.ptr ∨ t.len ≤ s.len ∨ xs = []) := by
  intro hc
  rcases hd with h | h | h
  · right; right
    apply List.eq_nil_of_length_eq_zero
    omega
  · right; left
    have := ht.1
    omega
  · left; exact Ne.symm h

theorem Slice.nil_valid {α : Type} (mem : Arrays α) : Slice.nil.Valid mem := by
  simp [Slice.Valid, Slice.nil]

theorem Slice.nil_fresh {α : Type} (mem : Arrays α) : Slice.nil.Fresh mem := Or.inl rfl

theorem Slice.nil_read {α : Type} (mem : Arrays α) : Slice.nil.read mem = [] := by
  simp [Slice.read, Slice.nil]

/-- Appending to a valid slice that is fresh for an earlier memory: the result is valid and
fresh, shows the old elements followed by the new ones, and every slice that was valid in the
earlier memory is untouched. -/
theorem goAppend_fresh_spec {α : Type} (g : Nat → Nat → Nat) (z : α) (mem₀ mem : Arrays α)
    (s : Slice) (xs : List α) (hlen : mem₀.length ≤ mem.length) (hs : s.Valid mem)
    (hf : s.Fresh mem₀) :
    (goAppend g z mem s xs).2.Valid (goAppend g z mem s xs).1
      ∧ (goAppend g z mem s xs).2.read (goAppend g z mem s xs).1 = s.read mem ++ xs
      ∧ (goAppend g z mem s xs).2.Fresh mem₀
      ∧ mem₀.length ≤ (goAppend g z mem s xs).1.length
      ∧ (∀ t : Slice, t.Valid mem₀ → t.Valid mem →
          t.Valid (goAppend g z mem s xs).1 ∧ t.read (goAppend g z mem s xs).1 = t.read mem) := by
  refine ⟨goAppend_valid g z mem s xs hs, goAppend_read g z mem s xs hs,
    goAppend_fresh g z mem₀ mem s xs hlen hf,
    le_trans hlen (goAppend_length_le g z mem s xs), ?_⟩
  intro t ht₀ ht
  exact ⟨goAppend_valid_frame g z mem s t xs hs ht,
    goAppend_read_frame g z mem s t xs ht ((hf.disjoint ht₀).frame xs ht)⟩

/-- The copy `append(append(nil, xs...), ys...)` made by a derivation. -/
theorem clone_spec {α : Type} (g : Nat → Nat → Nat) (z : α) (mem : Arrays α)
    (xs ys : List α) :
    (goAppend g z (goAppend g z mem Slice.nil xs).1 (goAppend g z mem Slice.nil xs).2 ys).2.Valid
        (goAppend g z (goAppend g z mem Slice.nil xs).1 (goAppend g z mem Slice.nil xs).2 ys).1
      ∧ (goAppend g z (goAppend g z mem Slice.nil xs).1 (goAppend g z mem Slice.nil xs).2 ys).2.read
          (goAppend g z (goAppend g z mem Slice.nil xs).1 (goAppend g z mem Slice.nil xs).2 ys).1
            = xs ++ ys
      ∧ (goAppend g z (goAppend g z mem Slice.nil xs).1 (goAppend g z mem Slice.nil xs).2 ys).2.Fresh mem
      ∧ (∀ t : Slice, t.Valid mem →
          t.Valid (goAppend g z (goAppend g z mem Slice.nil xs).1
              (goAppend g z mem Slice.nil xs).2 ys).1
            ∧ t.read (goAppend g z (goAppend g z mem Slice.nil xs).1
              (goAppend g z mem Slice.nil xs).2 ys).1 = t.read mem) := by
  obtain ⟨v1, r1, f1, l1, o1⟩ := goAppend_fresh_spec g z mem mem Slice.nil xs (le_refl _)
    (Slice.nil_valid mem) (Slice.nil_fresh mem)
  obtain ⟨v2, r2, f2, _, o2⟩ := goAppend_fresh_spec g z mem (goAppend g z mem Slice.nil xs).1
    (goAppend g z mem Slice.nil xs).2 ys l1 v1 f1
  refine ⟨v2, ?_, f2, ?_⟩
  · rw [r2, r1, Slice.nil_read]; rfl
  · intro t ht
    obtain ⟨tv1, tr1⟩ := o1 t ht ht
    obtain ⟨tv2, tr2⟩ := o2 t ht tv1
    exact ⟨tv2, tr2.trans tr1⟩

/-- The copy `append(nil, xs...)` made by a derivation. -/
theorem copy_spec {α : Type} (g : Nat → Nat → Nat) (z : α) (mem : Arrays α) (xs : List α) :
    (goAppend g z mem Slice.nil xs).2.Valid (goAppend g z mem Slice.nil xs).1
      ∧ (goAppend g z mem Slice.nil xs).2.read (goAppend g z mem Slice.nil xs).1 = xs
      ∧ (goAppend g z mem Slice.nil xs).2.Fresh mem
      ∧ (∀ t : Slice, t.Valid mem →
          t.Valid (goAppend g z mem Slice.nil xs).1
            ∧ t.read (goAppend g z mem Slice.nil xs).1 = t.read mem) := by
  obtain ⟨v1, r1, f1, _, o1⟩ := goAppend_fresh_spec g z mem mem Slice.nil xs (le_refl _)
    (Slice.nil_valid mem) (Slice.nil_fresh mem)
  refine ⟨v1, ?_, f1, fun t ht => o1 t ht ht⟩
  rw [r1, Slice.nil_read]; rfl

/-! ## Lemmas on derivations -/

/-- Allocation of a clone after the memories were extended in a way that leaves every valid
slice untouched: the old objects keep their place, fit the memory and show what they showed. -/
theorem alloc_frame (h : Heap) (fa : Arrays Field) (oa : Arrays Ptr) (clone : loggerImpl)
    (hfa : ∀ t : Slice, t.Valid h.fieldArrays → t.Valid fa ∧ t.read fa = t.read h.fieldArrays)
    (hoa : ∀ t : Slice, t.Valid h.outArrays → t.Valid oa ∧ t.read oa = t.read h.outArrays) :
    (Heap.alloc { h with fieldArrays := fa, outArrays := oa } clone).2 = h.loggers.length
      ∧ (∀ (q : Ptr) (oq : loggerImpl), h.loggers[q]? = some oq →
          (Heap.alloc { h with fieldArrays := fa, outArrays := oa } clone).1.loggers[q]? = some oq)
      ∧ (∀ oq, h.WF oq →
          (Heap.alloc { h with fieldArrays := fa, outArrays := oa } clone).1.WF oq
            ∧ (Heap.alloc { h with fieldArrays := fa, outArrays := oa } clone).1.snapshotOf oq
                = h.snapshotOf oq)
      ∧ (Heap.alloc { h with fieldArrays := fa, outArrays := oa } clone).1.loggers[h.loggers.length]?
          = some clone := by
  refine ⟨rfl, ?_, ?_, ?_⟩
  · intro q oq hq
    have hlt : q < h.loggers.length := (List.getElem?_eq_some_iff.mp hq).1
    simp only [Heap.alloc]
    rw [List.getElem?_append_left hlt]
    exact hq
  · intro oq hwf
    obtain ⟨fv, fr⟩ := hfa oq.fields hwf.1
    obtain ⟨ov, or'⟩ := hoa oq.out hwf.2
    refine ⟨⟨fv, ov⟩, ?_⟩
    simp only [Heap.snapshotOf, Heap.fieldsOf, Heap.sinksOf, Heap.alloc]
    rw [fr, or']
  · simp [Heap.alloc]

/-- What a derivation does: the child is a new object; every object of the old state keeps
its place, its validity and its configuration; the child fits the memory, its slices are fresh
for the old memory, and it shows the configuration `Derivation.child`. -/
theorem derive_spec (env : Env) (h : Heap) (p : Ptr) (objP : loggerImpl) (d : Derivation)
    (hP : h.loggers[p]? = some objP) :
    (d.apply env h p).2 = h.loggers.length
      ∧ (∀ (q : Ptr) (oq : loggerImpl), h.loggers[q]? = some oq → (d.apply env h p).1.loggers[q]? = some oq)
      ∧ (∀ oq, h.WF oq →
          (d.apply env h p).1.WF oq ∧ (d.apply env h p).1.snapshotOf oq = h.snapshotOf oq)
      ∧ ∃ c, (d.apply env h p).1.loggers[h.loggers.length]? = some c
          ∧ (d.apply env h p).1.WF c
          ∧ c.fields.Fresh h.fieldArrays ∧ c.out.Fresh h.outArrays
          ∧ (d.apply env h p).1.snapshotOf c = d.child h objP := by
  cases d with
  | WithFields fields =>
    obtain ⟨fv, fr, ff, fo⟩ := clone_spec env.growCap Field.zero h.fieldArrays (h.fieldsOf objP) fields
    obtain ⟨ov, or', of', oo⟩ := copy_spec env.growCap Stdout h.outArrays (h.sinksOf objP)
    simp only [Derivation.apply, loggerImpl.WithFields, hP]
    obtain ⟨a1, a2, a3, a4⟩ := alloc_frame h _ _
      { level := objP.level, layer := objP.layer,
        fields := (goAppend env.growCap Field.zero
          (goAppend env.growCap Field.zero h.fieldArrays Slice.nil (h.fieldsOf objP)).1
          (goAppend env.growCap Field.zero h.fieldArrays Slice.nil (h.fieldsOf objP)).2 fields).2,
        jsonOutput := objP.jsonOutput, prettyJSON := objP.prettyJSON,
        out := (goAppend env.growCap Stdout h.outArrays Slice.nil (h.sinksOf objP)).2,
        ctx := objP.ctx, showCaller := false } fo oo
    refine ⟨a1, a2, a3, _, a4, ⟨fv, ov⟩, ff, of', ?_⟩
    simp only [Heap.fieldsOf, Heap.sinksOf] at fr or'
    simp only [Heap.snapshotOf, Heap.fieldsOf, Heap.sinksOf, Heap.alloc, Derivation.child]
    rw [fr, or']
  | WithLayer layer =>
    obtain ⟨fv, fr, ff, fo⟩ := copy_spec env.growCap Field.zero h.fieldArrays (h.fieldsOf objP)
    obtain ⟨ov, or', of', oo⟩ := copy_spec env.growCap Stdout h.outArrays (h.sinksOf objP)
    simp only [Derivation.apply, loggerImpl.WithLayer, hP]
    obtain ⟨a1, a2, a3, a4⟩ := alloc_frame h _ _
      { level := objP.level, layer := layer,
        fields := (goAppend env.growCap Field.zero h.fieldArrays Slice.nil (h.fieldsOf objP)).2,
        jsonOutput := objP.jsonOutput, prettyJSON := objP.prettyJSON,
        out := (goAppend env.growCap Stdout h.outArrays Slice.nil (h.sinksOf objP)).2,
        ctx := objP.ctx, showCaller := false } fo oo
    refine ⟨a1, a2, a3, _, a4, ⟨fv, ov⟩, ff, of', ?_⟩
    simp only [Heap.fieldsOf, Heap.sinksOf] at fr or'
    simp only [Heap.snapshotOf, Heap.fieldsOf, Heap.sinksOf, Heap.alloc, Derivation.child]
    rw [fr, or']
  | WithContext ctx =>
    obtain ⟨fv, fr, ff, fo⟩ := copy_spec env.growCap Field.zero h.fieldArrays (h.fieldsOf objP)
    obtain ⟨ov, or', of', oo⟩ := copy_spec env.growCap Stdout h.outArrays (h.sinksOf objP)
    simp only [Derivation.apply, loggerImpl.WithContext, hP]
    obtain ⟨a1, a2, a3, a4⟩ := alloc_frame h _ _
      { level := objP.level, layer := objP.layer,
        fields := (goAppend env.growCap Field.zero h.fieldArrays Slice.nil (h.fieldsOf objP)).2,
        jsonOutput := objP.jsonOutput, prettyJSON := objP.prettyJSON,
        out := (goAppend env.growCap Stdout h.outArrays Slice.nil (h.sinksOf objP)).2,
        ctx := ctx, showCaller := false } fo oo
    refine ⟨a1, a2, a3, _, a4, ⟨fv, ov⟩, ff, of', ?_⟩
    simp only [Heap.fieldsOf, Heap.sinksOf] at fr or'
    simp only [Heap.snapshotOf, Heap.fieldsOf, Heap.sinksOf, Heap.alloc, Derivation.child]
    rw [fr, or']

/-! ## Lemmas on operations applied to one of two separate loggers -/

theorem Separate.swap {h : Heap} {p q : Ptr} {op oq : loggerImpl} (hs : Separate h p q op oq) :
    Separate h q p oq op :=
  ⟨Ne.symm hs.ne, hs.hq, hs.hp, hs.wfq, hs.wfp, hs.dfields.flip, hs.dout.flip⟩

theorem step_SetLevel (h : Heap) (p q : Ptr) (op oq : loggerImpl) (level : Level)
    (hs : Separate h p q op oq) :
    ∃ op', Separate (loggerImpl.SetLevel h p level) p q op' oq
      ∧ (loggerImpl.SetLevel h p level).snapshotOf oq = h.snapshotOf oq := by
  have hlt : p < h.loggers.length := (List.getElem?_eq_some_iff.mp hs.hp).1
  refine ⟨{ op with level := level }, ⟨hs.ne, ?_, ?_, ?_, ?_, hs.dfields, hs.dout⟩, ?_⟩
  · simp only [loggerImpl.SetLevel, hs.hp]
    exact List.getElem?_set_self hlt
  · simp only [loggerImpl.SetLevel, hs.hp]
    rw [List.getElem?_set_ne hs.ne]
    exact hs.hq
  · simp only [loggerImpl.SetLevel, hs.hp]
    exact hs.wfp
  · simp only [loggerImpl.SetLevel, hs.hp]
    exact hs.wfq
  · simp only [loggerImpl.SetLevel, hs.hp]
    rfl

theorem step_AddOutput (env : Env) (h : Heap) (p q : Ptr) (op oq : loggerImpl) (w : Ptr)
    (hs : Separate h p q op oq) :
    ∃ op', Separate (loggerImpl.AddOutput env h p w) p q op' oq
      ∧ (loggerImpl.AddOutput env h p w).snapshotOf oq = h.snapshotOf oq := by
  have hlt : p < h.loggers.length := (List.getElem?_eq_some_iff.mp hs.hp).1
  refine ⟨{ op with out := (goAppend env.growCap Stdout h.outArrays op.out [w]).2 },
    ⟨hs.ne, ?_, ?_, ?_, ?_, hs.dfields, ?_⟩, ?_⟩
  · simp only [loggerImpl.AddOutput, hs.hp]
    exact List.getElem?_set_self hlt
  · simp only [loggerImpl.AddOutput, hs.hp]
    rw [List.getElem?_set_ne hs.ne]
    exact hs.hq
  · simp only [loggerImpl.AddOutput, hs.hp]
    exact ⟨hs.wfp.1, goAppend_valid env.growCap Stdout h.outArrays op.out [w] hs.wfp.2⟩
  · simp only [loggerImpl.AddOutput, hs.hp]
    exact ⟨hs.wfq.1, goAppend_valid_frame env.growCap Stdout h.outArrays op.out oq.out [w]
      hs.wfp.2 hs.wfq.2⟩
  · exact goAppend_disjoint env.growCap Stdout h.outArrays op.out oq.out [w] hs.wfq.2 hs.dout
  · simp only [loggerImpl.AddOutput, hs.hp, Heap.snapshotOf, Heap.fieldsOf, Heap.sinksOf]
    rw [goAppend_read_frame env.growCap Stdout h.outArrays op.out oq.out [w] hs.wfq.2
      (hs.dout.frame [w] hs.wfq.2)]

theorem step_Derivation (env : Env) (h : Heap) (p q : Ptr) (op oq : loggerImpl) (d : Derivation)
    (hs : Separate h p q op oq) :
    Separate (d.apply env h p).1 p q op oq
      ∧ (d.apply env h p).1.snapshotOf oq = h.snapshotOf oq := by
  obtain ⟨_, hkeep, hwf, _⟩ := derive_spec env h p op d hs.hp
  exact ⟨⟨hs.ne, hkeep p op hs.hp, hkeep q oq hs.hq, (hwf op hs.wfp).1, (hwf oq hs.wfq).1,
    hs.dfields, hs.dout⟩, (hwf oq hs.wfq).2⟩

theorem step_Call (env : Env) (h : Heap) (p q : Ptr) (op oq : loggerImpl) (m : Method)
    (msg : String) (fields : List Field) (hs : Separate h p q op oq) :
    Separate (m.call env h p msg fields) p q op oq
      ∧ (m.call env h p msg fields).snapshotOf oq = h.snapshotOf oq := by
  by_cases hpass : op.level ≤ m.level
  · rw [call_pass m env h p op msg fields hs.hp hpass,
      log_eq env h p op m.level msg fields hs.hp hs.wfp.1]
    have hv := goAppend_valid_frame env.growCap Field.zero h.fieldArrays op.fields op.fields
      fields hs.wfp.1 hs.wfp.1
    have hvq := goAppend_valid_frame env.growCap Field.zero h.fieldArrays op.fields oq.fields
      fields hs.wfp.1 hs.wfq.1
    have hrq := goAppend_read_frame env.growCap Field.zero h.fieldArrays op.fields oq.fields
      fields hs.wfq.1 (hs.dfields.frame fields hs.wfq.1)
    refine ⟨⟨hs.ne, ?_, ?_, ?_, ?_, hs.dfields, hs.dout⟩, ?_⟩
    · rw [WriteAll_loggers]; exact hs.hp
    · rw [WriteAll_loggers]; exact hs.hq
    · simp only [Heap.WF, WriteAll_fieldArrays, WriteAll_outArrays]
      exact ⟨hv, hs.wfp.2⟩
    · simp only [Heap.WF, WriteAll_fieldArrays, WriteAll_outArrays]
      exact ⟨hvq, hs.wfq.2⟩
    · simp only [Heap.snapshotOf, Heap.fieldsOf, Heap.sinksOf, WriteAll_fieldArrays,
        WriteAll_outArrays]
      rw [hrq]
  · rw [call_filtered m env h p op msg fields hs.hp (not_le.mp hpass)]
    exact ⟨hs, rfl⟩

/-- An operation on one of two separate loggers keeps them separate and leaves the other one
with the configuration it had. -/
theorem step_Op (env : Env) (h : Heap) (p q : Ptr) (op oq : loggerImpl) (o : Op)
    (hs : Separate h p q op oq) :
    ∃ op', Separate (o.apply env h p) p q op' oq
      ∧ (o.apply env h p).snapshotOf oq = h.snapshotOf oq := by
  cases o with
  | SetLevel level => exact step_SetLevel h p q op oq level hs
  | AddOutput w => exact step_AddOutput env h p q op oq w hs
  | WithFields fields => exact ⟨op, step_Derivation env h p q op oq (.WithFields fields) hs⟩
  | WithLayer layer => exact ⟨op, step_Derivation env h p q op oq (.WithLayer layer) hs⟩
  | WithContext ctx => exact ⟨op, step_Derivation env h p q op oq (.WithContext ctx) hs⟩
  | Call m msg fields => exact ⟨op, step_Call env h p q op oq m msg fields hs⟩

theorem Separate.snapshot_q {h : Heap} {p q : Ptr} {op oq : loggerImpl}
    (hs : Separate h p q op oq) : h.snapshot q = some (h.snapshotOf oq) := by
  simp [Heap.snapshot, hs.hq]

theorem Separate.snapshot_p {h : Heap} {p q : Ptr} {op oq : loggerImpl}
    (hs : Separate h p q op oq) : h.snapshot p = some (h.snapshotOf op) := by
  simp [Heap.snapshot, hs.hp]

/-- An operation on one of two separate loggers leaves the configuration of the other. -/
theorem step_snapshot (env : Env) (h : Heap) (p q : Ptr) (op oq : loggerImpl) (o : Op)
    (hs : Separate h p q op oq) : (o.apply env h p).snapshot q = h.snapshot q := by
  obtain ⟨op', hs', heq⟩ := step_Op env h p q op oq o hs
  rw [hs'.snapshot_q, hs.snapshot_q, heq]

/-- Separation survives every run of operations on the two loggers. -/
theorem runOps_separate (env : Env) (P C : Ptr) (steps : List (Bool × Op)) :
    ∀ (h : Heap) (oP oC : loggerImpl), Separate h P C oP oC →
      ∃ oP' oC', Separate (runOps env P C h steps) P C oP' oC' := by
  induction steps with
  | nil => intro h oP oC hs; exact ⟨oP, oC, hs⟩
  | cons s rest ih =>
    intro h oP oC hs
    obtain ⟨b, o⟩ := s
    cases b with
    | true =>
      obtain ⟨oP', hs', _⟩ := step_Op env h P C oP oC o hs
      exact ih _ oP' oC hs'
    | false =>
      obtain ⟨oC', hs', _⟩ := step_Op env h C P oC oP o hs.swap
      exact ih _ oP oC' hs'.swap

/-- A derivation leaves parent and child separate. -/
theorem derive_separate (env : Env) (h : Heap) (P : Ptr) (objP : loggerImpl) (d : Derivation)
    (hP : h.loggers[P]? = some objP) (hwf : h.WF objP) :
    ∃ c, Separate (d.apply env h P).1 P (d.apply env h P).2 objP c
      ∧ (d.apply env h P).1.snapshotOf c = d.child h objP := by
  obtain ⟨hptr, hkeep, hwf', c, hc, hcwf, hff, hfo, hsnap⟩ := derive_spec env h P objP d hP
  have hlt : P < h.loggers.length := (List.getElem?_eq_some_iff.mp hP).1
  refine ⟨c, ⟨?_, hkeep P objP hP, ?_, (hwf' objP hwf).1, hcwf, ?_, ?_⟩, hsnap⟩
  · rw [hptr]; exact Nat.ne_of_lt hlt
  · rw [hptr]; exact hc
  · exact (hff.disjoint hwf.1).flip
  · exact (hfo.disjoint hwf.2).flip

/-! ## Every state the interface can reach is well formed -/

/-- Replacing one object and changing the memories in a way that keeps valid slices valid
keeps the state well formed, when the new object fits the new memories. -/
theorem allWF_set (h : Heap) (p : Ptr) (obj : loggerImpl) (fa : Arrays Field) (oa : Arrays Ptr)
    (hall : h.AllWF)
    (hfa : ∀ t : Slice, t.Valid h.fieldArrays → t.Valid fa)
    (hoa : ∀ t : Slice, t.Valid h.outArrays → t.Valid oa)
    (hobj : obj.fields.Valid fa ∧ obj.out.Valid oa) :
    Heap.AllWF { h with loggers := h.loggers.set p obj, fieldArrays := fa, outArrays := oa } := by
  intro q oq hq
  simp only [List.getElem?_set] at hq
  by_cases hpq : p = q
  · simp only [hpq, if_true] at hq
    by_cases hlt : q < h.loggers.length
    · simp only [hlt, if_true, Option.some.injEq] at hq
      subst hq
      exact hobj
    · simp [hlt] at hq
  · simp only [hpq, if_false] at hq
    exact ⟨hfa _ (hall q oq hq).1, hoa _ (hall q oq hq).2⟩

theorem SetLevel_allWF (h : Heap) (p : Ptr) (level : Level) (hall : h.AllWF) :
    (loggerImpl.SetLevel h p level).AllWF := by
  unfold loggerImpl.SetLevel
  cases hp : h.loggers[p]? with
  | none => exact hall
  | some obj =>
    exact allWF_set h p _ h.fieldArrays h.outArrays hall (fun _ ht => ht) (fun _ ht => ht)
      (hall p obj hp)

theorem AddOutput_allWF (env : Env) (h : Heap) (p w : Ptr) (hall : h.AllWF) :
    (loggerImpl.AddOutput env h p w).AllWF := by
  unfold loggerImpl.AddOutput
  cases hp : h.loggers[p]? with
  | none => exact hall
  | some obj =>
    exact allWF_set h p _ h.fieldArrays _ hall (fun _ ht => ht)
      (fun t ht => goAppend_valid_frame env.growCap Stdout h.outArrays obj.out t [w]
        (hall p obj hp).2 ht)
      ⟨(hall p obj hp).1, goAppend_valid env.growCap Stdout h.outArrays obj.out [w]
        (hall p obj hp).2⟩

theorem option_allWF (env : Env) (h : Heap) (p : Ptr) (o : LoggerOption) (hall : h.AllWF) :
    (o.apply env h p).AllWF := by
  unfold LoggerOption.apply
  cases hp : h.loggers[p]? with
  | none => exact hall
  | some obj =>
    cases o with
    | WithJSON enabled =>
      exact allWF_set h p _ h.fieldArrays h.outArrays hall (fun _ ht => ht) (fun _ ht => ht)
        (hall p obj hp)
    | WithPrettyJSON enabled =>
      exact allWF_set h p _ h.fieldArrays h.outArrays hall (fun _ ht => ht) (fun _ ht => ht)
        (hall p obj hp)
    | WithLevel level =>
      exact allWF_set h p _ h.fieldArrays h.outArrays hall (fun _ ht => ht) (fun _ ht => ht)
        (hall p obj hp)
    | WithLayer layer =>
      exact allWF_set h p _ h.fieldArrays h.outArrays hall (fun _ ht => ht) (fun _ ht => ht)
        (hall p obj hp)
    | WithField field =>
      exact allWF_set h p _ _ h.outArrays hall
        (fun t ht => goAppend_valid_frame env.growCap Field.zero h.fieldArrays obj.fields t
          [field] (hall p obj hp).1 ht)
        (fun _ ht => ht)
        ⟨goAppend_valid env.growCap Field.zero h.fieldArrays obj.fields [field]
          (hall p obj hp).1, (hall p obj hp).2⟩
    | WithCaller enable =>
      exact allWF_set h p _ h.fieldArrays h.outArrays hall (fun _ ht => ht) (fun _ ht => ht)
        (hall p obj hp)

theorem options_allWF (env : Env) (p : Ptr) (options : List LoggerOption) :
    ∀ h : Heap, h.AllWF → (options.foldl (fun h o => o.apply env h p) h).AllWF := by
  induction options with
  | nil => intro h hall; exact hall
  | cons o rest ih => intro h hall; exact ih _ (option_allWF env h p o hall)

/-- Allocation of an object that fits the memory, after the memory of sinks grew by one
array, keeps the state well formed. -/
theorem alloc_allWF (h : Heap) (arr : List Ptr) (obj : loggerImpl) (hall : h.AllWF)
    (hobj : obj.fields.Valid h.fieldArrays ∧ obj.out.Valid (h.outArrays ++ [arr])) :
    (Heap.alloc { h with outArrays := h.outArrays ++ [arr] } obj).1.AllWF := by
  intro q oq hq
  simp only [Heap.alloc] at hq
  by_cases hlt : q < h.loggers.length
  · rw [List.getElem?_append_left hlt] at hq
    refine ⟨(hall q oq hq).1, (hall q oq hq).2.1, ?_⟩
    have hv := (hall q oq hq).2
    by_cases hc : oq.out.cap = 0
    · simp only [Heap.alloc, hc]; exact Nat.zero_le _
    · have hptr := hv.ptr_lt (Nat.pos_of_ne_zero hc)
      simp only [Heap.alloc]
      rw [Arrays.at_append_left _ _ _ hptr]
      exact hv.2
  · rw [List.getElem?_append_right (Nat.le_of_not_lt hlt)] at hq
    by_cases hq0 : q - h.loggers.length = 0
    · simp only [hq0, List.getElem?_cons_zero, Option.some.injEq] at hq
      subst hq
      exact hobj
    · obtain ⟨n, hn⟩ := Nat.exists_eq_succ_of_ne_zero hq0
      simp [hn] at hq

/-- The constructor `NewLogger` keeps the state well formed. -/
theorem NewLogger_allWF (env : Env) (h : Heap) (options : List LoggerOption) (hall : h.AllWF) :
    (NewLogger env h options).1.AllWF := by
  unfold NewLogger
  apply options_allWF
  apply alloc_allWF h [Stdout] _ hall
  refine ⟨Slice.nil_valid _, ?_⟩
  simp [Slice.Valid, Arrays.at]

/-- A derivation keeps the state well formed. -/
theorem derive_allWF (env : Env) (h : Heap) (p : Ptr) (d : Derivation) (hall : h.AllWF) :
    (d.apply env h p).1.AllWF := by
  cases hp : h.loggers[p]? with
  | none => cases d <;>
      simpa [Derivation.apply, loggerImpl.WithFields, loggerImpl.WithLayer,
        loggerImpl.WithContext, hp] using hall
  | some obj =>
    obtain ⟨hptr, hkeep, hwf, c, hc, hcwf, _⟩ := derive_spec env h p obj d hp
    have hlen : (d.apply env h p).1.loggers.length = h.loggers.length + 1 := by
      cases d <;>
        simp [Derivation.apply, loggerImpl.WithFields, loggerImpl.WithLayer,
          loggerImpl.WithContext, hp, Heap.alloc]
    intro q oq hq
    have hq' : q < h.loggers.length + 1 := by
      rw [← hlen]; exact (List.getElem?_eq_some_iff.mp hq).1
    by_cases hlt : q < h.loggers.length
    · obtain ⟨oq', hoq'⟩ : ∃ o, h.loggers[q]? = some o :=
        ⟨h.loggers[q], List.getElem?_eq_getElem hlt⟩
      have := hkeep q oq' hoq'
      rw [hq] at this
      simp only [Option.some.injEq] at this
      subst this
      exact (hwf oq (hall q oq hoq')).1
    · have hqe : q = h.loggers.length :=
        Nat.le_antisymm (Nat.lt_succ_iff.mp hq') (Nat.le_of_not_lt hlt)
      subst hqe
      rw [hc] at hq
      simp only [Option.some.injEq] at hq
      subst hq
      exact hcwf

/-- A call of a level method keeps the state well formed. -/
theorem call_allWF (m : Method) (env : Env) (h : Heap) (p : Ptr) (msg : String)
    (fields : List Field) (hall : h.AllWF) : (m.call env h p msg fields).AllWF := by
  cases hp : h.loggers[p]? with
  | none =>
    cases m <;>
      simpa [Method.call, loggerImpl.Debug, loggerImpl.Info, loggerImpl.Warn, loggerImpl.Error,
        loggerImpl.Fatal, hp] using hall
  | some obj =>
    by_cases hpass : obj.level ≤ m.level
    · rw [call_pass m env h p obj msg fields hp hpass,
        log_eq env h p obj m.level msg fields hp (hall p obj hp).1]
      intro q oq hq
      rw [WriteAll_loggers] at hq
      simp only [Heap.WF, WriteAll_fieldArrays, WriteAll_outArrays]
      exact ⟨goAppend_valid_frame env.growCap Field.zero h.fieldArrays obj.fields oq.fields
        fields (hall p obj hp).1 (hall q oq hq).1, (hall q oq hq).2⟩
    · rw [call_filtered m env h p obj msg fields hp (not_le.mp hpass)]
      exact hall

/-- Every operation of the interface keeps the state well formed; with `NewLogger_allWF`,
every logger of a state built through the interface fits the memory. -/
theorem Op_allWF (env : Env) (h : Heap) (p : Ptr) (o : Op) (hall : h.AllWF) :
    (o.apply env h p).AllWF := by
  cases o with
  | SetLevel level => exact SetLevel_allWF h p level hall
  | AddOutput w => exact AddOutput_allWF env h p w hall
  | WithFields fields => exact derive_allWF env h p (.WithFields fields) hall
  | WithLayer layer => exact derive_allWF env h p (.WithLayer layer) hall
  | WithContext ctx => exact derive_allWF env h p (.WithContext ctx) hall
  | Call m msg fields => exact call_allWF m env h p msg fields hall

/-- C4: a derivation (WithFields, WithLayer or WithContext) creates a new object and leaves
the parent with the threshold, layer, bound fields, flags and sinks it had. After it, whatever
operations of the interface have been applied to parent and child in whatever order, one
more operation on the parent (SetLevel, AddOutput, a derivation or a logging call) leaves the
whole configuration of the child unchanged, and one more operation on the child leaves the
whole configuration of the parent unchanged. For the children `P.WithFields(a)` and
`P.WithFields(b)`, the first shows the bound fields of `P` followed by `a`, the second those
of `P` followed by `b`, and `P` shows its own bound fields only. -/
theorem C4_derivation_independence (env : Env) (h : Heap) (P : Ptr) (objP : loggerImpl)
    (d : Derivation) (hP : h.loggers[P]? = some objP) (hwf : h.WF objP) :
    (d.apply env h P).2 ≠ P
      ∧ (d.apply env h P).1.snapshot P = h.snapshot P
      ∧ (∀ (steps : List (Bool × Op)) (o : Op),
          (o.apply env (runOps env P (d.apply env h P).2 (d.apply env h P).1 steps) P).snapshot
                (d.apply env h P).2 =
              (runOps env P (d.apply env h P).2 (d.apply env h P).1 steps).snapshot
                (d.apply env h P).2
            ∧ (o.apply env (runOps env P (d.apply env h P).2 (d.apply env h P).1 steps)
                (d.apply env h P).2).snapshot P =
              (runOps env P (d.apply env h P).2 (d.apply env h P).1 steps).snapshot P)
      ∧ (∀ a b : Field,
          ((loggerImpl.WithFields env (loggerImpl.WithFields env h P [a]).1 P [b]).1.snapshot
              (loggerImpl.WithFields env h P [a]).2).map Snapshot.fields =
                some (h.fieldsOf objP ++ [a])
            ∧ ((loggerImpl.WithFields env (loggerImpl.WithFields env h P [a]).1 P [b]).1.snapshot
                (loggerImpl.WithFields env (loggerImpl.WithFields env h P [a]).1 P [b]).2).map
                  Snapshot.fields = some (h.fieldsOf objP ++ [b])
            ∧ ((loggerImpl.WithFields env (loggerImpl.WithFields env h P [a]).1 P [b]).1.snapshot
                P).map Snapshot.fields = some (h.fieldsOf objP)) := by
  obtain ⟨c, hsep, _⟩ := derive_separate env h P objP d hP hwf
  refine ⟨Ne.symm hsep.ne, ?_, ?_, ?_⟩
  · obtain ⟨_, _, hwf', _⟩ := derive_spec env h P objP d hP
    rw [hsep.snapshot_p, (hwf' objP hwf).2]
    simp [Heap.snapshot, hP]
  · intro steps o
    obtain ⟨oP', oC', hs'⟩ := runOps_separate env P (d.apply env h P).2 steps _ objP c hsep
    exact ⟨step_snapshot env _ P _ oP' oC' o hs', step_snapshot env _ _ P oC' oP' o hs'.swap⟩
  · intro a b
    obtain ⟨ca, hsa, hsnapa⟩ := derive_separate env h P objP (.WithFields [a]) hP hwf
    obtain ⟨_, _, hwfa, _⟩ := derive_spec env h P objP (.WithFields [a]) hP
    have hFa : (Derivation.apply env h P (.WithFields [a])).1.fieldsOf objP = h.fieldsOf objP :=
      congrArg Snapshot.fields (hwfa objP hwf).2
    obtain ⟨cb, hsb, hsnapb⟩ := derive_separate env (Derivation.apply env h P (.WithFields [a])).1 P
      objP (.WithFields [b]) hsa.hp hsa.wfp
    obtain ⟨_, hkeepb, hwfb, _⟩ := derive_spec env (Derivation.apply env h P (.WithFields [a])).1 P
      objP (.WithFields [b]) hsa.hp
    have e1 : (Derivation.apply env (Derivation.apply env h P (.WithFields [a])).1 P
        (.WithFields [b])).1.snapshot (Derivation.apply env h P (.WithFields [a])).2 =
          some (Derivation.child h objP (.WithFields [a])) := by
      simp only [Heap.snapshot, hkeepb _ ca hsa.hq, Option.map_some']
      rw [(hwfb ca hsa.wfq).2, hsnapa]
    have e2 := hsb.snapshot_q
    rw [hsnapb] at e2
    have e3 := hsb.snapshot_p
    rw [(hwfb objP hsa.wfp).2] at e3
    refine ⟨?_, ?_, ?_⟩
    · show Option.map Snapshot.fields ((Derivation.apply env (Derivation.apply env h P
        (.WithFields [a])).1 P (.WithFields [b])).1.snapshot
          (Derivation.apply env h P (.WithFields [a])).2) = _
      rw [e1]; rfl
    · show Option.map Snapshot.fields ((Derivation.apply env (Derivation.apply env h P
        (.WithFields [a])).1 P (.WithFields [b])).1.snapshot
          (Derivation.apply env (Derivation.apply env h P (.WithFields [a])).1 P
            (.WithFields [b])).2) = _
      rw [e2]
      simp only [Derivation.child, Option.map_some', hFa]
    · show Option.map Snapshot.fields ((Derivation.apply env (Derivation.apply env h P
        (.WithFields [a])).1 P (.WithFields [b])).1.snapshot P) = _
      rw [e3]
      simp only [Option.map_some', Heap.snapshotOf, hFa]

/-- Witness of C4: from the logger of the example state a child is derived with one field;
the child is a new object, and adding a sink to the parent afterwards leaves the child as it
was. -/
theorem C4_derivation_independence_witness :
    (exLogger []).loggers[0]? = some ⟨1, "", Slice.nil, false, false, ⟨1, 2, 2⟩, none, false⟩
      ∧ (exLogger []).WF ⟨1, "", Slice.nil, false, false, ⟨1, 2, 2⟩, none, false⟩
      ∧ ((Derivation.WithFields [⟨"a", Value.int 1⟩]).apply exEnv (exLogger []) 0).2 ≠ 0
      ∧ ((Op.AddOutput 0).apply exEnv
            (runOps exEnv 0 ((Derivation.WithFields [⟨"a", Value.int 1⟩]).apply exEnv (exLogger []) 0).2
              ((Derivation.WithFields [⟨"a", Value.int 1⟩]).apply exEnv (exLogger []) 0).1 []) 0).snapshot
            ((Derivation.WithFields [⟨"a", Value.int 1⟩]).apply exEnv (exLogger []) 0).2 =
          (runOps exEnv 0 ((Derivation.WithFields [⟨"a", Value.int 1⟩]).apply exEnv (exLogger []) 0).2
              ((Derivation.WithFields [⟨"a", Value.int 1⟩]).apply exEnv (exLogger []) 0).1 []).snapshot
            ((Derivation.WithFields [⟨"a", Value.int 1⟩]).apply exEnv (exLogger []) 0).2 :=
  have hc := C4_derivation_independence exEnv (exLogger []) 0
    ⟨1, "", Slice.nil, false, false, ⟨1, 2, 2⟩, none, false⟩
    (Derivation.WithFields [⟨"a", Value.int 1⟩]) (by decide) (by decide)
  ⟨by decide, by decide, hc.1, (hc.2.2.1 [] (Op.AddOutput 0)).1⟩

/-- C5, evaluated at a logger built with `WithCaller(true)`: the logger returned by
`WithLayer("repo")` has the layer `repo` and the threshold, JSON flags and sinks of its parent,
but its caller-capture flag is off while the parent has it on; the parent writes the call site
and the child does not. -/
theorem C5_WithLayer_drops_caller_flag :
    ((exLogger [.WithCaller true]).loggers[0]?).map loggerImpl.showCaller = some true
      ∧ ((loggerImpl.WithLayer exEnv (exLogger [.WithCaller true]) 0 "repo").1.loggers[1]?).map
          loggerImpl.showCaller = some false
      ∧ ((loggerImpl.WithLayer exEnv (exLogger [.WithCaller true]) 0 "repo").1.loggers[1]?).map
          loggerImpl.layer = some "repo"
      ∧ (loggerImpl.Info { exEnv with caller := some ⟨"/src/app/main.go", 42, some "main.main"⟩ }
            (loggerImpl.WithLayer exEnv (exLogger [.WithCaller true]) 0 "repo").1 0 "y" []).dataOf 1 =
          "2024-01-02T03:04:05Z [INFO] [UNKNOWN] y (main.go:42 main.main)\n"
      ∧ (loggerImpl.Info { exEnv with caller := some ⟨"/src/app/main.go", 42, some "main.main"⟩ }
            (loggerImpl.WithLayer exEnv (exLogger [.WithCaller true]) 0 "repo").1 1 "y" []).dataOf 1 =
          "2024-01-02T03:04:05Z [INFO] [REPO] y\n" := by
  decide

/-! ## The text layout -/

theorem perm_nil_of_filter {α : Type} {l m : List α} (hp : l.Perm m) (hm : m = []) : l = [] := by
  subst hm
  exact List.Perm.eq_nil hp

/-- C6: in text mode, with no terminal, caller capture off, no bound and no call-time field,
a passing call at level `L` with a non-empty message `m` makes one `Write` per sink of exactly
`<ts> [<NAME>] [<LAYER>] <m>` and a line terminator, where `ts` is the clock reading (never
empty for an RFC3339 text), `NAME` the name of the level and `LAYER` what `strings.ToUpper`
makes of the layer, whatever its letters, or `UNKNOWN` when the layer is empty. -/
theorem C6_text_layout (env : Env) (henv : env.RangeVisitsAll) (h : Heap) (l : Ptr)
    (obj : loggerImpl) (m : Method) (msg : String)
    (hl : h.loggers[l]? = some obj) (hwf : h.WF obj) (hpass : obj.level ≤ m.level)
    (htext : obj.jsonOutput = false) (hterm : env.isTerminal = false)
    (hcaller : obj.showCaller = false) (hbound : h.fieldsOf obj = [])
    (hmsg : msg ≠ "") (hnow : env.now ≠ "") :
    (m.call env h l msg []).writes =
        h.writes ++ (h.sinksOf obj).map (fun w =>
          (w, env.now ++ " [" ++ levelNames m.level ++ "] ["
            ++ (if obj.layer = "" then "UNKNOWN" else env.ToUpper obj.layer) ++ "] " ++ msg ++ "\n"))
      ∧ (∀ w wr, h.writers[w]? = some wr → wr.failing = false → (h.sinksOf obj).count w = 1 →
          (m.call env h l msg []).dataOf w =
            wr.data ++ (env.now ++ " [" ++ levelNames m.level ++ "] ["
              ++ (if obj.layer = "" then "UNKNOWN" else env.ToUpper obj.layer) ++ "] " ++ msg ++ "\n"))
      ∧ levelNames Method.Debug.level = "DEBUG" ∧ levelNames Method.Info.level = "INFO"
      ∧ levelNames Method.Warn.level = "WARN" ∧ levelNames Method.Error.level = "ERROR"
      ∧ levelNames Method.Fatal.level = "FATAL" := by
  have hnd := record_nodupKeys env obj m.level msg (h.fieldsOf obj ++ [])
  have hline : lineOf env obj m.level msg (h.fieldsOf obj ++ []) =
      env.now ++ " [" ++ levelNames m.level ++ "] ["
        ++ (if obj.layer = "" then "UNKNOWN" else env.ToUpper obj.layer) ++ "] " ++ msg ++ "\n" := by
    unfold lineOf
    rw [render_text env henv obj m.level _ hnd htext]
    have hrec : record env obj m.level msg (h.fieldsOf obj ++ []) =
        [("ts", Value.str env.now), ("lvl", Value.str (levelNames m.level)),
         ("msg", Value.str msg), ("layer", Value.str obj.layer)] := by
      simp [record, baseEntry, hbound, hcaller]
    have hpairs : textPairs env (record env obj m.level msg (h.fieldsOf obj ++ [])) = [] := by
      apply perm_nil_of_filter (textPairs_perm env henv _ hnd)
      rw [hrec]
      simp [List.filter_cons, isReserved]
    rw [hpairs, hrec]
    by_cases hlayer : obj.layer = ""
    · apply String.ext
      simp [textHead, GoMap.getString, GoMap.get, hterm, hnow, hmsg, hlayer, String.join]
    · apply String.ext
      simp [textHead, GoMap.getString, GoMap.get, hterm, hnow, hmsg, hlayer, String.join]
  refine ⟨?_, ?_, by decide, by decide, by decide, by decide, by decide⟩
  · rw [call_writes m env h l obj msg [] hl hwf.1 hpass, hline]
  · intro w wr hw hf hcount
    rw [call_dataOf m env h l obj msg [] hl hwf.1 hpass w wr hw, hline, hcount]
    simp [hf, repeatStr_succ, repeatStr_zero]

/-- Witness of C6: the logger of the test `TestLogger_WithLayer`. -/
theorem C6_text_layout_witness :
    exEnv.RangeVisitsAll
      ∧ (exLogger [.WithLayer "Repository"]).loggers[0]? =
          some ⟨1, "Repository", Slice.nil, false, false, ⟨1, 2, 2⟩, none, false⟩
      ∧ (exLogger [.WithLayer "Repository"]).WF
          ⟨1, "Repository", Slice.nil, false, false, ⟨1, 2, 2⟩, none, false⟩
      ∧ (1 : Level) ≤ Method.Info.level
      ∧ exEnv.isTerminal = false
      ∧ "Layered message" ≠ "" ∧ exEnv.now ≠ ""
      ∧ (Method.Info.call exEnv (exLogger [.WithLayer "Repository"]) 0 "Layered message" []).writes =
          [(0, "2024-01-02T03:04:05Z [INFO] [REPOSITORY] Layered message\n"),
           (1, "2024-01-02T03:04:05Z [INFO] [REPOSITORY] Layered message\n")] :=
  ⟨exEnv_rangeVisitsAll, by decide, by decide, by decide, rfl, by decide, by decide,
    (C6_text_layout exEnv exEnv_rangeVisitsAll (exLogger [.WithLayer "Repository"]) 0
      ⟨1, "Repository", Slice.nil, false, false, ⟨1, 2, 2⟩, none, false⟩ Method.Info
      "Layered message" (by decide) (by decide) (by decide) rfl rfl rfl rfl (by decide)
      (by decide)).1.trans (by decide)⟩

/-! ## JSON determinism -/

theorem lastValue_eq_some_iff (fs : List Field) (hnd : (fs.map Field.Key).Nodup) (k : String) :
    ∀ v : Value, lastValue fs k = some v ↔ (⟨k, v⟩ : Field) ∈ fs := by
  induction fs with
  | nil => intro v; simp [lastValue]
  | cons f rest ih =>
    intro v
    simp only [List.map_cons, List.nodup_cons] at hnd
    simp only [lastValue, List.mem_cons]
    cases hlast : lastValue rest k with
    | some v' =>
      have hmem : (⟨k, v'⟩ : Field) ∈ rest := (ih hnd.2 v').mp hlast
      have hkr : k ∈ rest.map Field.Key := List.mem_map.mpr ⟨⟨k, v'⟩, hmem, rfl⟩
      have hfk : f.Key ≠ k := fun hfk => hnd.1 (hfk ▸ hkr)
      constructor
      · intro hv
        simp only [Option.some.injEq] at hv
        subst hv
        exact Or.inr hmem
      · rintro (hv | hv)
        · exact absurd (by rw [← hv]) hfk
        · have := (ih hnd.2 v).mpr hv
          rw [hlast] at this
          exact this
    | none =>
      have hnot : ∀ v', (⟨k, v'⟩ : Field) ∉ rest := by
        intro v' hmem
        have := (ih hnd.2 v').mpr hmem
        rw [hlast] at this
        exact Option.noConfusion this
      by_cases hfk : f.Key = k
      · simp only [hfk, if_true, Option.some.injEq]
        constructor
        · intro hv
          left
          cases f
          simp only at hfk hv
          subst hfk; subst hv
          rfl
        · rintro (hv | hv)
          · rw [← hv]
          · exact absurd hv (hnot v)
      · simp only [hfk, if_false]
        constructor
        · intro hv; exact Option.noConfusion hv
        · rintro (hv | hv)
          · exact absurd (by rw [← hv]) hfk
          · exact absurd hv (hnot v)

theorem lastValue_perm {fs₁ fs₂ : List Field} (hp : fs₁.Perm fs₂)
    (hnd : (fs₁.map Field.Key).Nodup) (k : String) : lastValue fs₁ k = lastValue fs₂ k := by
  have hnd₂ : (fs₂.map Field.Key).Nodup := ((hp.map Field.Key).nodup_iff).mp hnd
  apply Option.ext
  intro v
  rw [Option.mem_def, Option.mem_def, lastValue_eq_some_iff fs₁ hnd k v,
    lastValue_eq_some_iff fs₂ hnd₂ k v]
  exact hp.mem_iff

/-- Two sequences of fields with the same fields and distinct keys give entries that sort to
the same member list. -/
theorem record_sort_perm (env : Env) (obj₁ obj₂ : loggerImpl) (level : Level) (msg : String)
    {fs₁ fs₂ : List Field} (hp : fs₁.Perm fs₂) (hnd : (fs₁.map Field.Key).Nodup)
    (hlayer : obj₁.layer = obj₂.layer) (hcaller : obj₁.showCaller = obj₂.showCaller) :
    sortByKey (record env obj₁ level msg fs₁) = sortByKey (record env obj₂ level msg fs₂) := by
  have hbase : baseEntry env obj₁ level msg = baseEntry env obj₂ level msg := by
    unfold baseEntry
    rw [hlayer, hcaller]
  apply sortByKey_eq_of_perm _ (record_nodupKeys env obj₁ level msg fs₁)
  apply GoMap.perm_of_get_eq (record_nodupKeys env obj₁ level msg fs₁)
    (record_nodupKeys env obj₂ level msg fs₂)
  intro k
  unfold record
  rw [foldl_fields_get, foldl_fields_get, lastValue_perm hp hnd k, hbase]

/-- C7: in JSON mode, for a fixed clock reading, call site, level, message, layer and flags,
two calls whose bound and call-time fields are permutations of one another, with pairwise
distinct keys, write identical bytes; the bytes are the object whose members are the entries
of the merged record in strictly ascending (lexicographic) order of their keys, followed by a
line terminator. -/
theorem C7_json_determinism (env : Env) (henv : env.RangeVisitsAll) (h : Heap) (l₁ l₂ : Ptr)
    (obj₁ obj₂ : loggerImpl) (m : Method) (msg : String) (call₁ call₂ : List Field)
    (hl₁ : h.loggers[l₁]? = some obj₁) (hl₂ : h.loggers[l₂]? = some obj₂)
    (hwf₁ : h.WF obj₁) (hwf₂ : h.WF obj₂)
    (hpass₁ : obj₁.level ≤ m.level) (hpass₂ : obj₂.level ≤ m.level)
    (hj₁ : obj₁.jsonOutput = true) (hj₂ : obj₂.jsonOutput = true)
    (hpretty : obj₁.prettyJSON = obj₂.prettyJSON) (hlayer : obj₁.layer = obj₂.layer)
    (hcaller : obj₁.showCaller = obj₂.showCaller)
    (hperm : (h.fieldsOf obj₁ ++ call₁).Perm (h.fieldsOf obj₂ ++ call₂))
    (hnd : ((h.fieldsOf obj₁ ++ call₁).map Field.Key).Nodup) :
    lineOf env obj₁ m.level msg (h.fieldsOf obj₁ ++ call₁) =
        lineOf env obj₂ m.level msg (h.fieldsOf obj₂ ++ call₂)
      ∧ (m.call env h l₁ msg call₁).writes = h.writes ++ (h.sinksOf obj₁).map
          (fun w => (w, lineOf env obj₁ m.level msg (h.fieldsOf obj₁ ++ call₁)))
      ∧ (m.call env h l₂ msg call₂).writes = h.writes ++ (h.sinksOf obj₂).map
          (fun w => (w, lineOf env obj₁ m.level msg (h.fieldsOf obj₁ ++ call₁)))
      ∧ lineOf env obj₁ m.level msg (h.fieldsOf obj₁ ++ call₁) =
          (objectOf obj₁.prettyJSON
            (sortByKey (record env obj₁ m.level msg (h.fieldsOf obj₁ ++ call₁)))).getD "" ++ "\n"
      ∧ (sortByKey (record env obj₁ m.level msg (h.fieldsOf obj₁ ++ call₁))).Pairwise keyLT
      ∧ (sortByKey (record env obj₁ m.level msg (h.fieldsOf obj₁ ++ call₁))).Perm
          (record env obj₁ m.level msg (h.fieldsOf obj₁ ++ call₁)) := by
  have hnd₁ := record_nodupKeys env obj₁ m.level msg (h.fieldsOf obj₁ ++ call₁)
  have hnd₂ := record_nodupKeys env obj₂ m.level msg (h.fieldsOf obj₂ ++ call₂)
  have hline₁ : lineOf env obj₁ m.level msg (h.fieldsOf obj₁ ++ call₁) =
      (objectOf obj₁.prettyJSON
        (sortByKey (record env obj₁ m.level msg (h.fieldsOf obj₁ ++ call₁)))).getD "" ++ "\n" := by
    unfold lineOf
    rw [render_json env henv obj₁ m.level _ hnd₁ hj₁]
  have heq : lineOf env obj₁ m.level msg (h.fieldsOf obj₁ ++ call₁) =
      lineOf env obj₂ m.level msg (h.fieldsOf obj₂ ++ call₂) := by
    rw [hline₁]
    unfold lineOf
    rw [render_json env henv obj₂ m.level _ hnd₂ hj₂,
      record_sort_perm env obj₁ obj₂ m.level msg hperm hnd hlayer hcaller, hpretty]
  refine ⟨heq, call_writes m env h l₁ obj₁ msg call₁ hl₁ hwf₁.1 hpass₁, ?_, hline₁,
    sortByKey_strict hnd₁, sortByKey_perm _⟩
  rw [heq]
  exact call_writes m env h l₂ obj₂ msg call₂ hl₂ hwf₂.1 hpass₂

/-- Witness of C7: one JSON logger, the same two fields passed in either order. -/
theorem C7_json_determinism_witness :
    exEnv.RangeVisitsAll
      ∧ (exLogger [.WithJSON true]).loggers[0]? =
          some ⟨1, "", Slice.nil, true, false, ⟨1, 2, 2⟩, none, false⟩
      ∧ (exLogger [.WithJSON true]).WF ⟨1, "", Slice.nil, true, false, ⟨1, 2, 2⟩, none, false⟩
      ∧ (1 : Level) ≤ Method.Info.level
      ∧ ["zeta", "alpha"].Nodup
      ∧ lineOf exEnv ⟨1, "", Slice.nil, true, false, ⟨1, 2, 2⟩, none, false⟩ Method.Info.level "x"
            ((exLogger [.WithJSON true]).fieldsOf
                ⟨1, "", Slice.nil, true, false, ⟨1, 2, 2⟩, none, false⟩ ++
              [⟨"zeta", Value.int 2⟩, ⟨"alpha", Value.str "a"⟩]) =
          lineOf exEnv ⟨1, "", Slice.nil, true, false, ⟨1, 2, 2⟩, none, false⟩ Method.Info.level "x"
            ((exLogger [.WithJSON true]).fieldsOf
                ⟨1, "", Slice.nil, true, false, ⟨1, 2, 2⟩, none, false⟩ ++
              [⟨"alpha", Value.str "a"⟩, ⟨"zeta", Value.int 2⟩])
      ∧ (Method.Info.call exEnv (exLogger [.WithJSON true]) 0 "x"
            [⟨"zeta", Value.int 2⟩, ⟨"alpha", Value.str "a"⟩]).dataOf 1 =
          "\x7b\"alpha\":\"a\",\"layer\":\"\",\"lvl\":\"INFO\",\"msg\":\"x\",\"ts\":\"2024-01-02T03:04:05Z\",\"zeta\":2\x7d\n"
      ∧ (Method.Info.call exEnv (exLogger [.WithJSON true]) 0 "x"
            [⟨"alpha", Value.str "a"⟩, ⟨"zeta", Value.int 2⟩]).dataOf 1 =
          "\x7b\"alpha\":\"a\",\"layer\":\"\",\"lvl\":\"INFO\",\"msg\":\"x\",\"ts\":\"2024-01-02T03:04:05Z\",\"zeta\":2\x7d\n" :=
  ⟨exEnv_rangeVisitsAll, by decide, by decide, by decide, by decide,
    (C7_json_determinism exEnv exEnv_rangeVisitsAll (exLogger [.WithJSON true]) 0 0
      ⟨1, "", Slice.nil, true, false, ⟨1, 2, 2⟩, none, false⟩
      ⟨1, "", Slice.nil, true, false, ⟨1, 2, 2⟩, none, false⟩ Method.Info "x"
      [⟨"zeta", Value.int 2⟩, ⟨"alpha", Value.str "a"⟩]
      [⟨"alpha", Value.str "a"⟩, ⟨"zeta", Value.int 2⟩]
      (by decide) (by decide) (by decide) (by decide) (by decide) (by decide) rfl rfl rfl rfl rfl
      (List.Perm.swap _ _ _) (by decide)).1,
    by decide, by decide⟩

/-! ## Evaluations at the inputs where the code departs from the specification -/

/-- C8, evaluated at a JSON logger and a call that carries one field with a channel value:
`json.Marshal` fails on the channel, and the call writes an empty line; neither the message
nor the other field reaches the sink. -/
theorem C8_unserializable_field_drops_record :
    Marshal (Value.chan 5) = none
      ∧ formatV (Value.chan 5) = "0x5"
      ∧ (exLogger [.WithJSON true]).dataOf 1 = ""
      ∧ (loggerImpl.Info exEnv (exLogger [.WithJSON true]) 0 "x"
            [⟨"user", Value.str "u1"⟩, ⟨"ch", Value.chan 5⟩]).dataOf 1 = "\n"
      ∧ (loggerImpl.Info exEnv (exLogger [.WithJSON true]) 0 "x"
            [⟨"user", Value.str "u1"⟩]).dataOf 1 =
          "\x7b\"layer\":\"\",\"lvl\":\"INFO\",\"msg\":\"x\",\"ts\":\"2024-01-02T03:04:05Z\",\"user\":\"u1\"\x7d\n" := by
  decide

/-- C9, evaluated at a call site in `/home/u/app/main.go`, line 42, function
`github.com/acme/app/svc.Run`: `log` stores `main.go:42 github.com/acme/app/svc.Run` under the
key `caller`, and `FormatText` applies `filepath.Base` to that text, so the line shows
`(svc.Run)`; for a symbol name without `/` the caller is shown in full. -/
theorem C9_caller_cut_at_last_slash :
    loggerImpl.callerText ⟨"/home/u/app/main.go", 42, some "github.com/acme/app/svc.Run"⟩ =
        "main.go:42 github.com/acme/app/svc.Run"
      ∧ (loggerImpl.Info
            { exEnv with
              caller := some ⟨"/home/u/app/main.go", 42, some "github.com/acme/app/svc.Run"⟩ }
            (exLogger [.WithCaller true]) 0 "x" []).dataOf 1 =
          "2024-01-02T03:04:05Z [INFO] [UNKNOWN] x (svc.Run)\n"
      ∧ (loggerImpl.Info
            { exEnv with caller := some ⟨"/home/u/app/main.go", 42, some "main.main"⟩ }
            (exLogger [.WithCaller true]) 0 "x" []).dataOf 1 =
          "2024-01-02T03:04:05Z [INFO] [UNKNOWN] x (main.go:42 main.main)\n"
      ∧ (loggerImpl.Info
            { exEnv with caller := some ⟨"/home/u/app/main.go", 42, none⟩ }
            (exLogger [.WithCaller true]) 0 "x" []).dataOf 1 =
          "2024-01-02T03:04:05Z [INFO] [UNKNOWN] x (main.go:42)\n" := by
  decide

/-! ## The trailing pairs of a text line -/

/-- The entry of `log` holds only reserved keys before the fields are merged. -/
theorem baseEntry_get_none (env : Env) (obj : loggerImpl) (level : Level) (msg : String)
    (k : String) (hk : isReserved k = false) : (baseEntry env obj level msg).get k = none := by
  simp only [isReserved, Bool.or_eq_false_iff, decide_eq_false_iff_not] at hk
  obtain ⟨⟨⟨⟨h1, h2⟩, h3⟩, h4⟩, h5⟩ := hk
  unfold baseEntry
  by_cases hc : obj.showCaller = true
  · simp only [hc, if_true]
    cases env.caller with
    | none => simp [GoMap.get, Ne.symm h1, Ne.symm h2, Ne.symm h3, Ne.symm h4]
    | some fr =>
      rw [GoMap.get_set]
      simp [GoMap.get, Ne.symm h1, Ne.symm h2, Ne.symm h3, Ne.symm h4, Ne.symm h5]
  · simp [hc, GoMap.get, Ne.symm h1, Ne.symm h2, Ne.symm h3, Ne.symm h4]

/-- For a key that is not reserved the entry holds what the last field with that key holds. -/
theorem record_get_nonreserved (env : Env) (obj : loggerImpl) (level : Level) (msg : String)
    (fs : List Field) (k : String) (hk : isReserved k = false) :
    (record env obj level msg fs).get k = lastValue fs k := by
  unfold record
  rw [foldl_fields_get, baseEntry_get_none env obj level msg k hk]
  cases lastValue fs k <;> rfl

/-- The entries with a trailing pair: those of the last values of the keys not reserved. -/
theorem mem_textPairs (env : Env) (henv : env.RangeVisitsAll) (obj : loggerImpl) (level : Level)
    (msg : String) (fs : List Field) (k : String) (v : Value) :
    (k, v) ∈ textPairs env (record env obj level msg fs) ↔
      lastValue fs k = some v ∧ isReserved k = false := by
  have hnd := record_nodupKeys env obj level msg fs
  rw [(textPairs_perm env henv _ hnd).mem_iff, List.mem_filter, GoMap.mem_iff_get _ hnd]
  simp only [Bool.not_eq_true']
  constructor
  · rintro ⟨hg, hk⟩
    rw [record_get_nonreserved env obj level msg fs k hk] at hg
    exact ⟨hg, hk⟩
  · rintro ⟨hg, hk⟩
    rw [record_get_nonreserved env obj level msg fs k hk]
    exact ⟨hg, hk⟩

/-- C10: in text mode a passing call writes the head of the line (timestamp, level, layer,
message, caller) followed by the trailing pairs and a line terminator. The keys of the pairs
are pairwise distinct, they are exactly the keys of the bound and call-time fields that are
not reserved, each pair reads ` k: v` with `v` the `%v` form of the value of the last field
with key `k` (integers in decimal, strings verbatim), and no pair has a reserved key. -/
theorem C10_text_trailing_pairs (env : Env) (henv : env.RangeVisitsAll) (h : Heap) (l : Ptr)
    (obj : loggerImpl) (m : Method) (msg : String) (fields : List Field)
    (hl : h.loggers[l]? = some obj) (hwf : h.WF obj) (hpass : obj.level ≤ m.level)
    (htext : obj.jsonOutput = false) :
    (m.call env h l msg fields).writes =
        h.writes ++ (h.sinksOf obj).map (fun w =>
          (w, textHead env (record env obj m.level msg (h.fieldsOf obj ++ fields))
                (levelNames m.level)
              ++ String.join ((textPairs env
                  (record env obj m.level msg (h.fieldsOf obj ++ fields))).map
                    (fun kv => " " ++ kv.1 ++ ": " ++ formatV kv.2))
              ++ "\n"))
      ∧ ((textPairs env (record env obj m.level msg (h.fieldsOf obj ++ fields))).map
          Prod.fst).Nodup
      ∧ (∀ k, k ∈ (textPairs env (record env obj m.level msg (h.fieldsOf obj ++ fields))).map
            Prod.fst ↔
          (k ∈ (h.fieldsOf obj ++ fields).map Field.Key ∧ isReserved k = false))
      ∧ (∀ k v, (k, v) ∈ textPairs env (record env obj m.level msg (h.fieldsOf obj ++ fields)) →
          lastValue (h.fieldsOf obj ++ fields) k = some v)
      ∧ (∀ k, k ∈ ["ts", "lvl", "msg", "layer", "caller"] →
          k ∉ (textPairs env (record env obj m.level msg (h.fieldsOf obj ++ fields))).map Prod.fst)
      ∧ (∀ n : Int, formatV (Value.int n) = toString n)
      ∧ (∀ s : String, formatV (Value.str s) = s) := by
  have hnd := record_nodupKeys env obj m.level msg (h.fieldsOf obj ++ fields)
  have hperm := textPairs_perm env henv _ hnd
  have hkeys : ∀ k, k ∈ (textPairs env (record env obj m.level msg (h.fieldsOf obj ++ fields))).map
      Prod.fst ↔ (k ∈ (h.fieldsOf obj ++ fields).map Field.Key ∧ isReserved k = false) := by
    intro k
    rw [← lastValue_isSome]
    constructor
    · intro hk
      rcases List.mem_map.mp hk with ⟨⟨k', v⟩, hmem, rfl⟩
      have := (mem_textPairs env henv obj m.level msg _ k' v).mp hmem
      exact ⟨by simp [this.1], this.2⟩
    · rintro ⟨hsome, hk⟩
      rcases Option.isSome_iff_exists.mp hsome with ⟨v, hv⟩
      exact List.mem_map.mpr
        ⟨(k, v), (mem_textPairs env henv obj m.level msg _ k v).mpr ⟨hv, hk⟩, rfl⟩
  refine ⟨?_, (filter_nodupKeys _ hnd).perm hperm.symm, hkeys, ?_, ?_, fun _ => rfl, fun _ => rfl⟩
  · rw [call_writes m env h l obj msg fields hl hwf.1 hpass]
    unfold lineOf
    rw [render_text env henv obj m.level _ hnd htext]
    rfl
  · intro k v hmem
    exact ((mem_textPairs env henv obj m.level msg _ k v).mp hmem).1
  · intro k hk hmem
    have hres := ((hkeys k).mp hmem).2
    simp only [List.mem_cons, List.mem_singleton, List.not_mem_nil, or_false] at hk
    rcases hk with rfl | rfl | rfl | rfl | rfl <;> simp [isReserved] at hres

/-- Witness of C10: the call of the test `TestLogger_WithFields`. -/
theorem C10_text_trailing_pairs_witness :
    exEnv.RangeVisitsAll
      ∧ (exLogger []).loggers[0]? = some ⟨1, "", Slice.nil, false, false, ⟨1, 2, 2⟩, none, false⟩
      ∧ (exLogger []).WF ⟨1, "", Slice.nil, false, false, ⟨1, 2, 2⟩, none, false⟩
      ∧ (1 : Level) ≤ Method.Info.level
      ∧ (Method.Info.call exEnv (exLogger []) 0 "Message with fields"
            [⟨"user_id", Value.int 123⟩, ⟨"request_id", Value.str "abc123"⟩]).writes =
          [(0, "2024-01-02T03:04:05Z [INFO] [UNKNOWN] Message with fields user_id: 123 request_id: abc123\n"),
           (1, "2024-01-02T03:04:05Z [INFO] [UNKNOWN] Message with fields user_id: 123 request_id: abc123\n")] :=
  ⟨exEnv_rangeVisitsAll, by decide, by decide, by decide,
    (C10_text_trailing_pairs exEnv exEnv_rangeVisitsAll (exLogger []) 0
      ⟨1, "", Slice.nil, false, false, ⟨1, 2, 2⟩, none, false⟩ Method.Info "Message with fields"
      [⟨"user_id", Value.int 123⟩, ⟨"request_id", Value.str "abc123"⟩]
      (by decide) (by decide) (by decide) rfl).1.trans (by decide)⟩

/-! ## Derivation by `WithFields` -/

/-- C14: `l.WithFields(more...)` returns a new logger whose bound fields are those of `l`
followed by `more` in the order given, nothing removed or merged (the length is the sum of the
lengths), and whose threshold, layer and sinks are those of `l`. -/
theorem C14_WithFields_appends (env : Env) (h : Heap) (l : Ptr) (obj : loggerImpl)
    (more : List Field) (hl : h.loggers[l]? = some obj) :
    (loggerImpl.WithFields env h l more).2 ≠ l
      ∧ ((loggerImpl.WithFields env h l more).1.snapshot
            (loggerImpl.WithFields env h l more).2).map Snapshot.fields =
          some (h.fieldsOf obj ++ more)
      ∧ ((loggerImpl.WithFields env h l more).1.snapshot
            (loggerImpl.WithFields env h l more).2).map (fun s => s.fields.length) =
          some ((h.fieldsOf obj).length + more.length)
      ∧ ((loggerImpl.WithFields env h l more).1.snapshot
            (loggerImpl.WithFields env h l more).2).map Snapshot.level = some obj.level
      ∧ ((loggerImpl.WithFields env h l more).1.snapshot
            (loggerImpl.WithFields env h l more).2).map Snapshot.layer = some obj.layer
      ∧ ((loggerImpl.WithFields env h l more).1.snapshot
            (loggerImpl.WithFields env h l more).2).map Snapshot.sinks = some (h.sinksOf obj) := by
  obtain ⟨hptr, _, _, c, hc, _, _, _, hsnap⟩ := derive_spec env h l obj (.WithFields more) hl
  have hlt : l < h.loggers.length := (List.getElem?_eq_some_iff.mp hl).1
  have hs : (Derivation.apply env h l (.WithFields more)).1.snapshot
      (Derivation.apply env h l (.WithFields more)).2 =
        some (Derivation.child h obj (.WithFields more)) := by
    rw [hptr]
    simp only [Heap.snapshot, hc, Option.map_some', hsnap]
  have hs' : (loggerImpl.WithFields env h l more).1.snapshot
      (loggerImpl.WithFields env h l more).2 =
        some (Derivation.child h obj (.WithFields more)) := hs
  have hptr' : (loggerImpl.WithFields env h l more).2 = h.loggers.length := hptr
  refine ⟨?_, ?_, ?_, ?_, ?_, ?_⟩
  · rw [hptr']; exact Ne.symm (Nat.ne_of_lt hlt)
  all_goals rw [hs']
  all_goals simp [Derivation.child]

/-- Witness of C14: two fields with the same key are bound one after the other; both stay. -/
theorem C14_WithFields_appends_witness :
    (exLogger [.WithField ⟨"k", Value.int 1⟩]).loggers[0]? =
        some ⟨1, "", ⟨0, 1, 1⟩, false, false, ⟨1, 2, 2⟩, none, false⟩
      ∧ ((loggerImpl.WithFields exEnv (exLogger [.WithField ⟨"k", Value.int 1⟩]) 0
            [⟨"k", Value.int 2⟩, ⟨"j", Value.int 3⟩]).1.snapshot
          (loggerImpl.WithFields exEnv (exLogger [.WithField ⟨"k", Value.int 1⟩]) 0
            [⟨"k", Value.int 2⟩, ⟨"j", Value.int 3⟩]).2).map (fun s => s.fields.length) =
        some (((exLogger [.WithField ⟨"k", Value.int 1⟩]).fieldsOf
            ⟨1, "", ⟨0, 1, 1⟩, false, false, ⟨1, 2, 2⟩, none, false⟩).length +
          [(⟨"k", Value.int 2⟩ : Field), ⟨"j", Value.int 3⟩].length)
      ∧ (((loggerImpl.WithFields exEnv (exLogger [.WithField ⟨"k", Value.int 1⟩]) 0
            [⟨"k", Value.int 2⟩, ⟨"j", Value.int 3⟩]).1.snapshot 1).map
          (fun s => s.fields.map Field.Key)) = some ["k", "k", "j"] :=
  ⟨by decide,
    (C14_WithFields_appends exEnv (exLogger [.WithField ⟨"k", Value.int 1⟩]) 0
      ⟨1, "", ⟨0, 1, 1⟩, false, false, ⟨1, 2, 2⟩, none, false⟩
      [⟨"k", Value.int 2⟩, ⟨"j", Value.int 3⟩] (by decide)).2.2.1,
    by decide⟩

/-! ## Sinks in registration order -/

/-- An option of the constructor leaves the sinks of the logger as they are. -/
theorem option_sinks (env : Env) (h : Heap) (p : Ptr) (obj : loggerImpl) (o : LoggerOption)
    (hp : h.loggers[p]? = some obj) :
    ∃ obj', (o.apply env h p).loggers[p]? = some obj'
      ∧ (o.apply env h p).sinksOf obj' = h.sinksOf obj := by
  have hlt : p < h.loggers.length := (List.getElem?_eq_some_iff.mp hp).1
  cases o <;>
    exact ⟨_, by simp only [LoggerOption.apply, hp]; exact List.getElem?_set_self hlt,
      by simp only [LoggerOption.apply, hp]; rfl⟩

theorem options_sinks (env : Env) (p : Ptr) (options : List LoggerOption) :
    ∀ (h : Heap) (obj : loggerImpl), h.loggers[p]? = some obj →
      ∃ obj', (options.foldl (fun h o => o.apply env h p) h).loggers[p]? = some obj'
        ∧ (options.foldl (fun h o => o.apply env h p) h).sinksOf obj' = h.sinksOf obj := by
  induction options with
  | nil => intro h obj hp; exact ⟨obj, hp, rfl⟩
  | cons o rest ih =>
    intro h obj hp
    obtain ⟨obj1, h1, s1⟩ := option_sinks env h p obj o hp
    obtain ⟨obj2, h2, s2⟩ := ih _ obj1 h1
    exact ⟨obj2, h2, s2.trans s1⟩

/-- A logger made by `NewLogger` has standard output as its only sink. -/
theorem NewLogger_sinks (env : Env) (h : Heap) (options : List LoggerOption) :
    ((NewLogger env h options).1.snapshot (NewLogger env h options).2).map Snapshot.sinks =
      some [Stdout] := by
  have e : NewLogger env h options =
      (options.foldl (fun h' o => o.apply env h' (NewLogger env h []).2) (NewLogger env h []).1,
        (NewLogger env h []).2) := rfl
  have hp : (NewLogger env h []).1.loggers[(NewLogger env h []).2]? =
      some ⟨InfoLevel, "", Slice.nil, false, false, ⟨h.outArrays.length, 1, 1⟩, none, false⟩ := by
    simp [NewLogger, Heap.alloc]
  have hs : (NewLogger env h []).1.sinksOf
      ⟨InfoLevel, "", Slice.nil, false, false, ⟨h.outArrays.length, 1, 1⟩, none, false⟩ =
        [Stdout] := by
    simp [NewLogger, Heap.alloc, Heap.sinksOf, Slice.read, Arrays.at]
  obtain ⟨obj', h', s'⟩ := options_sinks env (NewLogger env h []).2 options _ _ hp
  rw [e]
  simp only [Heap.snapshot, h', Option.map_some', Heap.snapshotOf, s', hs]

/-- The method `AddOutput` appends the sink to the sinks of the logger. -/
theorem AddOutput_sinks (env : Env) (h : Heap) (l : Ptr) (obj : loggerImpl) (w : Ptr)
    (hl : h.loggers[l]? = some obj) (hv : obj.out.Valid h.outArrays) :
    ((loggerImpl.AddOutput env h l w).snapshot l).map Snapshot.sinks =
      some (h.sinksOf obj ++ [w]) := by
  have hlt : l < h.loggers.length := (List.getElem?_eq_some_iff.mp hl).1
  simp only [loggerImpl.AddOutput, hl, Heap.snapshot, List.getElem?_set_self hlt,
    Option.map_some', Heap.snapshotOf, Heap.sinksOf]
  rw [goAppend_read env.growCap Stdout h.outArrays obj.out [w] hv]

/-- C15: `NewLogger` registers standard output, and `AddOutput(w)` turns the sinks of a logger
into the same sinks followed by `w`. A passing call makes one `Write` of the same bytes on
every sink, in registration order, whichever of them fail: a failing sink keeps what it held,
every other one receives the bytes (once per registration), and the call returns no error. -/
theorem C15_every_sink_attempted_in_order (env : Env) (h : Heap) (l : Ptr) (obj : loggerImpl)
    (m : Method) (msg : String) (fields : List Field)
    (hl : h.loggers[l]? = some obj) (hwf : h.WF obj) (hpass : obj.level ≤ m.level) :
    (∀ (h₀ : Heap) (options : List LoggerOption),
        ((NewLogger env h₀ options).1.snapshot (NewLogger env h₀ options).2).map Snapshot.sinks =
          some [Stdout])
      ∧ (∀ w : Ptr, ((loggerImpl.AddOutput env h l w).snapshot l).map Snapshot.sinks =
          some (h.sinksOf obj ++ [w]))
      ∧ (m.call env h l msg fields).writes =
          h.writes ++ (h.sinksOf obj).map
            (fun w => (w, lineOf env obj m.level msg (h.fieldsOf obj ++ fields)))
      ∧ (∀ w wr, h.writers[w]? = some wr →
          (m.call env h l msg fields).dataOf w =
            if wr.failing then wr.data
            else wr.data ++ repeatStr ((h.sinksOf obj).count w)
              (lineOf env obj m.level msg (h.fieldsOf obj ++ fields))) :=
  ⟨fun h₀ options => NewLogger_sinks env h₀ options,
    fun w => AddOutput_sinks env h l obj w hl hwf.2,
    call_writes m env h l obj msg fields hl hwf.1 hpass,
    fun w wr hw => call_dataOf m env h l obj msg fields hl hwf.1 hpass w wr hw⟩

/-- Witness of C15: the second of three sinks fails; all three writes are made in order, the
failing sink holds nothing and the sink registered after it holds the line. -/
theorem C15_every_sink_attempted_in_order_witness :
    exLoggerFailing.loggers[0]? = some ⟨1, "", Slice.nil, false, false, ⟨2, 3, 4⟩, none, false⟩
      ∧ exLoggerFailing.WF ⟨1, "", Slice.nil, false, false, ⟨2, 3, 4⟩, none, false⟩
      ∧ (1 : Level) ≤ Method.Warn.level
      ∧ exLoggerFailing.sinksOf ⟨1, "", Slice.nil, false, false, ⟨2, 3, 4⟩, none, false⟩ = [0, 1, 2]
      ∧ (Method.Warn.call exEnv exLoggerFailing 0 "w" []).writes =
          [(0, "2024-01-02T03:04:05Z [WARN] [UNKNOWN] w\n"),
           (1, "2024-01-02T03:04:05Z [WARN] [UNKNOWN] w\n"),
           (2, "2024-01-02T03:04:05Z [WARN] [UNKNOWN] w\n")]
      ∧ (Method.Warn.call exEnv exLoggerFailing 0 "w" []).dataOf 1 = ""
      ∧ (Method.Warn.call exEnv exLoggerFailing 0 "w" []).dataOf 2 =
          "2024-01-02T03:04:05Z [WARN] [UNKNOWN] w\n" :=
  ⟨by decide, by decide, by decide, by decide,
    (C15_every_sink_attempted_in_order exEnv exLoggerFailing 0
      ⟨1, "", Slice.nil, false, false, ⟨2, 3, 4⟩, none, false⟩ Method.Warn "w" []
      (by decide) (by decide) (by decide)).2.2.1.trans (by decide),
    by decide, by decide⟩

/-! ## The structured dump -/

mutual
/-- A value has an indented encoding exactly when it has a compact one. -/
theorem indentValue_isSome : ∀ (v : Value) (d : Nat),
    (indentValue d v).isSome = (encodeValue v).isSome
  | .null, d => by simp [indentValue, encodeValue]
  | .bool b, d => by simp [indentValue, encodeValue]
  | .int n, d => by simp [indentValue, encodeValue]
  | .str s, d => by simp [indentValue, encodeValue]
  | .list xs, d => by
    simp only [indentValue, encodeValue, Option.isSome_map']
    exact indentList_isSome xs (d + 1)
  | .map kvs, d => by
    simp only [indentValue, encodeValue, Option.isSome_map']
    exact indentMembers_isSome kvs (d + 1)
  | .chan _, d => by simp [indentValue, encodeValue]
/-- The elements of an array have indented encodings exactly when they have compact ones. -/
theorem indentList_isSome : ∀ (xs : List Value) (d : Nat),
    (indentList d xs).isSome = (encodeList xs).isSome
  | [], d => by simp [indentList, encodeList]
  | v :: vs, d => by
    have h1 := indentValue_isSome v d
    have h2 := indentList_isSome vs d
    simp only [indentList, encodeList]
    cases hv : indentValue d v <;> cases hv' : encodeValue v <;>
      cases hvs : indentList d vs <;> cases hvs' : encodeList vs <;>
      simp_all
/-- The members of an object have indented encodings exactly when they have compact ones. -/
theorem indentMembers_isSome : ∀ (kvs : List (String × Value)) (d : Nat),
    (indentMembers d kvs).isSome = (encodeMembers kvs).isSome
  | [], d => by simp [indentMembers, encodeMembers]
  | (k, v) :: rest, d => by
    have h1 := indentValue_isSome v d
    have h2 := indentMembers_isSome rest d
    simp only [indentMembers, encodeMembers]
    cases hv : indentValue d v <;> cases hv' : encodeValue v <;>
      cases hvs : indentMembers d rest <;> cases hvs' : encodeMembers rest <;>
      simp_all
end

/-- C16: for every logger, whatever its threshold, and every value `v` that `encoding/json`
can serialize, `FormatStructAsJSON(v)` makes one `Write` per registered sink of exactly the
two-space-indented encoding of `v` followed by one line terminator; nothing of the logger
(timestamp, level, message, layer, caller) enters the bytes. -/
theorem C16_structured_dump (h : Heap) (l : Ptr) (obj : loggerImpl) (v : Value)
    (hl : h.loggers[l]? = some obj) (hser : (Marshal v).isSome = true) :
    ∃ b, MarshalIndent v = some b
      ∧ (loggerImpl.FormatStructAsJSON h l v).writes =
          h.writes ++ (h.sinksOf obj).map (fun w => (w, b ++ "\n"))
      ∧ (∀ w wr, h.writers[w]? = some wr →
          (loggerImpl.FormatStructAsJSON h l v).dataOf w =
            if wr.failing then wr.data
            else wr.data ++ repeatStr ((h.sinksOf obj).count w) (b ++ "\n")) := by
  have hsome : (MarshalIndent v).isSome = true := by
    unfold MarshalIndent
    rw [indentValue_isSome]
    exact hser
  obtain ⟨b, hb⟩ := Option.isSome_iff_exists.mp hsome
  refine ⟨b, hb, ?_, ?_⟩
  · simp only [loggerImpl.FormatStructAsJSON, hb, hl]
    exact WriteAll_writes _ _ _
  · intro w wr hw
    simp only [loggerImpl.FormatStructAsJSON, hb, hl]
    exact WriteAll_dataOf _ _ _ w wr hw

/-- Witness of C16: the threshold 7 filters out all five levels; the dump is written all the
same, once on each of the two sinks. -/
theorem C16_structured_dump_witness :
    (exLogger [.WithLevel 7]).loggers[0]? =
        some ⟨7, "", Slice.nil, false, false, ⟨1, 2, 2⟩, none, false⟩
      ∧ (Marshal (Value.map [("b", Value.list [Value.int 1, Value.null]), ("a", Value.str "x")])).isSome
          = true
      ∧ (loggerImpl.FormatStructAsJSON (exLogger [.WithLevel 7]) 0
            (Value.map [("b", Value.list [Value.int 1, Value.null]), ("a", Value.str "x")])).writes =
          [(0, "\x7b\n  \"a\": \"x\",\n  \"b\": [\n    1,\n    null\n  ]\n\x7d\n"),
           (1, "\x7b\n  \"a\": \"x\",\n  \"b\": [\n    1,\n    null\n  ]\n\x7d\n")] := by
  refine ⟨by decide, by decide, ?_⟩
  obtain ⟨b, hb, hw, _⟩ := C16_structured_dump (exLogger [.WithLevel 7]) 0
    ⟨7, "", Slice.nil, false, false, ⟨1, 2, 2⟩, none, false⟩
    (Value.map [("b", Value.list [Value.int 1, Value.null]), ("a", Value.str "x")])
    (by decide) (by decide)
  have hlit : MarshalIndent
      (Value.map [("b", Value.list [Value.int 1, Value.null]), ("a", Value.str "x")]) =
        some "\x7b\n  \"a\": \"x\",\n  \"b\": [\n    1,\n    null\n  ]\n\x7d" := by decide
  rw [hlit, Option.some.injEq] at hb
  subst hb
  exact hw.trans (by decide)

/-! ## The compact JSON line -/

theorem intercalate_go_data (sep : String) : ∀ (l : List String) (acc : String),
    (String.intercalate.go acc sep l).data =
      acc.data ++ (l.map (fun a => sep.data ++ a.data)).flatten := by
  intro l
  induction l with
  | nil => intro acc; simp [String.intercalate.go]
  | cons a as ih =>
    intro acc
    simp only [String.intercalate.go, ih, String.data_append, List.map_cons, List.flatten_cons,
      List.append_assoc]

/-- Every text joined by `intercalate` occurs in the result. -/
theorem occurs_intercalate (sep : String) {l : List String} {a : String} (ha : a ∈ l) :
    Occurs a (sep.intercalate l) := by
  unfold Occurs
  cases l with
  | nil => simp at ha
  | cons a0 as =>
    simp only [String.intercalate, intercalate_go_data]
    rcases List.mem_cons.mp ha with rfl | hmem
    · exact (List.prefix_append _ _).isInfix
    · have h1 : (sep.data ++ a.data) ∈ as.map (fun a => sep.data ++ a.data) :=
        List.mem_map.mpr ⟨a, hmem, rfl⟩
      have h2 : a.data <:+: sep.data ++ a.data := (List.suffix_append _ _).isInfix
      have h3 := List.infix_of_mem_flatten h1
      exact (h2.trans h3).trans (List.suffix_append _ _).isInfix

theorem occurs_trans {a b c : String} (hab : Occurs a b) (hbc : Occurs b c) : Occurs a c :=
  List.IsInfix.trans hab hbc

theorem occurs_append_left (a b : String) : Occurs a (a ++ b) := by
  unfold Occurs
  rw [String.data_append]
  exact (List.prefix_append _ _).isInfix

theorem occurs_append_right (a b : String) : Occurs b (a ++ b) := by
  unfold Occurs
  rw [String.data_append]
  exact (List.suffix_append _ _).isInfix

/-- The text of every member occurs in the compact object. -/
theorem occurs_emitObject {ms : List (String × String)} {p : String × String} (hp : p ∈ ms) :
    Occurs (quote p.1 ++ ":" ++ p.2) (emitObject ms) := by
  unfold emitObject
  have h1 : (quote p.1 ++ ":" ++ p.2) ∈ ms.map (fun p => quote p.1 ++ ":" ++ p.2) :=
    List.mem_map.mpr ⟨p, hp, rfl⟩
  exact occurs_trans (occurs_trans (occurs_intercalate "," h1) (occurs_append_right _ _))
    (occurs_append_left _ _)

theorem join_singletons (cs : List Char) :
    String.join (cs.map String.singleton) = ⟨cs⟩ := by
  apply String.ext
  induction cs with
  | nil => simp [String.join]
  | cons c rest ih =>
    simp only [String.data_join, List.map_cons, List.map_map, List.flatten_cons] at ih ⊢
    rw [ih]
    rfl

/-- A text that needs no escaping is quoted by putting it between double quotes. -/
theorem quote_of_needsNoEscape (s : String) (hs : NeedsNoEscape s) :
    quote s = "\"" ++ s ++ "\"" := by
  unfold quote
  have hmap : s.data.map escapeChar = s.data.map String.singleton :=
    List.map_congr_left hs
  rw [hmap, join_singletons]

theorem lastValue_mem (fs : List Field) (k : String) (v : Value)
    (hlast : lastValue fs k = some v) : ∃ f ∈ fs, f.Key = k ∧ f.Value = v := by
  induction fs with
  | nil => simp [lastValue] at hlast
  | cons f rest ih =>
    simp only [lastValue] at hlast
    cases hr : lastValue rest k with
    | some v' =>
      rw [hr] at hlast
      simp only [Option.some.injEq] at hlast
      subst hlast
      obtain ⟨g, hg, hk, hv⟩ := ih hr
      exact ⟨g, List.mem_cons_of_mem _ hg, hk, hv⟩
    | none =>
      rw [hr] at hlast
      by_cases hk : f.Key = k
      · simp only [hk, if_true, Option.some.injEq] at hlast
        exact ⟨f, List.mem_cons_self _ _, hk, hlast⟩
      · simp [hk] at hlast

/-- What the entry holds before the merge: the four reserved keys, and `caller` when it is
captured, each with a string. -/
theorem baseEntry_get (env : Env) (obj : loggerImpl) (level : Level) (msg : String) :
    (baseEntry env obj level msg).get "ts" = some (Value.str env.now)
      ∧ (baseEntry env obj level msg).get "lvl" = some (Value.str (levelNames level))
      ∧ (baseEntry env obj level msg).get "msg" = some (Value.str msg)
      ∧ (baseEntry env obj level msg).get "layer" = some (Value.str obj.layer)
      ∧ (∀ k v, (baseEntry env obj level msg).get k = some v → ∃ s, v = Value.str s) := by
  have h4 : ∀ k v, GoMap.get ([("ts", Value.str env.now), ("lvl", Value.str (levelNames level)),
      ("msg", Value.str msg), ("layer", Value.str obj.layer)] : GoMap) k = some v →
        ∃ s, v = Value.str s := by
    intro k v hg
    simp only [GoMap.get] at hg
    by_cases h1 : "ts" = k
    · rw [if_pos h1] at hg; exact ⟨_, (Option.some.inj hg).symm⟩
    rw [if_neg h1] at hg
    by_cases h2 : "lvl" = k
    · rw [if_pos h2] at hg; exact ⟨_, (Option.some.inj hg).symm⟩
    rw [if_neg h2] at hg
    by_cases h3 : "msg" = k
    · rw [if_pos h3] at hg; exact ⟨_, (Option.some.inj hg).symm⟩
    rw [if_neg h3] at hg
    by_cases h5 : "layer" = k
    · rw [if_pos h5] at hg; exact ⟨_, (Option.some.inj hg).symm⟩
    rw [if_neg h5] at hg
    exact Option.noConfusion hg
  unfold baseEntry
  by_cases hc : obj.showCaller = true
  · simp only [hc, if_true]
    cases env.caller with
    | none => exact ⟨by simp [GoMap.get], by simp [GoMap.get], by simp [GoMap.get],
        by simp [GoMap.get], h4⟩
    | some fr =>
      refine ⟨by rw [GoMap.get_set]; simp [GoMap.get], by rw [GoMap.get_set]; simp [GoMap.get],
        by rw [GoMap.get_set]; simp [GoMap.get], by rw [GoMap.get_set]; simp [GoMap.get], ?_⟩
      intro k v hg
      rw [GoMap.get_set] at hg
      by_cases hk : "caller" = k
      · rw [if_pos hk] at hg; exact ⟨_, (Option.some.inj hg).symm⟩
      · rw [if_neg hk] at hg; exact h4 k v hg
  · simp only [hc]
    exact ⟨by simp [GoMap.get], by simp [GoMap.get], by simp [GoMap.get], by simp [GoMap.get], h4⟩

theorem GoMap.mem_keys_of_get {m : GoMap} {k : String} {v : Value} (hg : m.get k = some v) :
    k ∈ m.map Prod.fst := by
  induction m with
  | nil => simp [GoMap.get] at hg
  | cons p rest ih =>
    obtain ⟨k0, v0⟩ := p
    by_cases h0 : k0 = k
    · simp [h0]
    · simp only [GoMap.get, h0, if_false] at hg
      simp [ih hg]

/-- Every value of the merged entry is a string of the logger or the value of a field. -/
theorem record_value (env : Env) (obj : loggerImpl) (level : Level) (msg : String)
    (fs : List Field) (k : String) (v : Value)
    (hg : (record env obj level msg fs).get k = some v) :
    (∃ s, v = Value.str s) ∨ ∃ f ∈ fs, f.Value = v := by
  unfold record at hg
  rw [foldl_fields_get] at hg
  cases hlast : lastValue fs k with
  | some v' =>
    rw [hlast] at hg
    simp only [Option.some.injEq] at hg
    subst hg
    obtain ⟨f, hf, _, hv⟩ := lastValue_mem fs k _ hlast
    exact Or.inr ⟨f, hf, hv⟩
  | none =>
    rw [hlast] at hg
    exact Or.inl ((baseEntry_get env obj level msg).2.2.2.2 k v hg)

/-- A reserved key no field carries keeps the value the logger supplied. -/
theorem record_get_base (env : Env) (obj : loggerImpl) (level : Level) (msg : String)
    (fs : List Field) (k : String) (hk : k ∉ fs.map Field.Key) :
    (record env obj level msg fs).get k = (baseEntry env obj level msg).get k := by
  apply record_get_of_none
  cases hlast : lastValue fs k with
  | none => rfl
  | some v =>
    have := (lastValue_isSome fs k).mp (by simp [hlast])
    exact absurd this hk

/-- In compact JSON mode, when every value of the entry can be serialized, the rendering is
the object whose members are the entries in key order, each with its encoding. -/
theorem render_compact_object (env : Env) (henv : env.RangeVisitsAll) (obj : loggerImpl)
    (level : Level) (entry : GoMap) (hm : NodupKeys entry)
    (hj : obj.jsonOutput = true) (hp : obj.prettyJSON = false)
    (hser : ∀ kv ∈ entry, (encodeValue kv.2).isSome = true) :
    render env obj level entry =
      emitObject ((sortByKey entry).map (fun kv => (kv.1, (encodeValue kv.2).getD ""))) := by
  rw [render_json env henv obj level entry hm hj, hp]
  unfold objectOf
  simp only [Bool.false_eq_true, if_false]
  rw [encodeMembers_eq]
  have hall : (sortByKey entry).all (fun kv => (encodeValue kv.2).isSome) = true := by
    rw [List.all_eq_true]
    intro kv hkv
    exact hser kv (mem_sortByKey.mp hkv)
  simp [hall]

set_option maxRecDepth 20000 in
/-- Counterexample to C11 as stated: the call passes a field with key `msg`; the object shows
the value of the field under `msg`, and the message `x` of the call nowhere. -/
theorem C11_counterexample :
    (loggerImpl.Info exEnv (exLogger [.WithJSON true]) 0 "x" [⟨"msg", Value.str "other"⟩]).dataOf 1 =
        "\x7b\"layer\":\"\",\"lvl\":\"INFO\",\"msg\":\"other\",\"ts\":\"2024-01-02T03:04:05Z\"\x7d\n"
      ∧ ¬ Occurs "\"msg\":\"x\""
          "\x7b\"layer\":\"\",\"lvl\":\"INFO\",\"msg\":\"other\",\"ts\":\"2024-01-02T03:04:05Z\"\x7d\n" :=
  ⟨by decide, by decide⟩

/-- C11 (amended): in compact JSON mode, for a passing call at level `L` with message `m`
whose bound and call-time fields all have serializable values and carry neither the key `lvl`
nor the key `msg`, the line written to each sink is one JSON object, followed by the line
terminator, whose members are the entries of the full record in key order, the reserved keys
`ts`, `lvl`, `msg` and `layer` among them; its member `lvl` is the name of `L` and its member
`msg` is `m`. The line contains `"lvl":"<NAME>"`, and `"msg":"<m>"` when `m` needs no
escaping. -/
theorem C11_compact_json_object (env : Env) (henv : env.RangeVisitsAll) (h : Heap) (l : Ptr)
    (obj : loggerImpl) (m : Method) (msg : String) (fields : List Field)
    (hl : h.loggers[l]? = some obj) (hwf : h.WF obj) (hpass : obj.level ≤ m.level)
    (hj : obj.jsonOutput = true) (hp : obj.prettyJSON = false)
    (hser : ∀ f ∈ h.fieldsOf obj ++ fields, (Marshal f.Value).isSome = true)
    (hklvl : "lvl" ∉ (h.fieldsOf obj ++ fields).map Field.Key)
    (hkmsg : "msg" ∉ (h.fieldsOf obj ++ fields).map Field.Key) :
    (m.call env h l msg fields).writes =
        h.writes ++ (h.sinksOf obj).map (fun w =>
          (w, emitObject ((sortByKey (record env obj m.level msg (h.fieldsOf obj ++ fields))).map
                (fun kv => (kv.1, (encodeValue kv.2).getD ""))) ++ "\n"))
      ∧ (∀ kv ∈ sortByKey (record env obj m.level msg (h.fieldsOf obj ++ fields)),
          (encodeValue kv.2).isSome = true)
      ∧ (∀ k ∈ ["ts", "lvl", "msg", "layer"],
          k ∈ (sortByKey (record env obj m.level msg (h.fieldsOf obj ++ fields))).map Prod.fst)
      ∧ (sortByKey (record env obj m.level msg (h.fieldsOf obj ++ fields))).filter
            (fun kv => kv.1 = "lvl") = [("lvl", Value.str (levelNames m.level))]
      ∧ (sortByKey (record env obj m.level msg (h.fieldsOf obj ++ fields))).filter
            (fun kv => kv.1 = "msg") = [("msg", Value.str msg)]
      ∧ Occurs ("\"lvl\":\"" ++ levelNames m.level ++ "\"")
          (emitObject ((sortByKey (record env obj m.level msg (h.fieldsOf obj ++ fields))).map
              (fun kv => (kv.1, (encodeValue kv.2).getD ""))) ++ "\n")
      ∧ (NeedsNoEscape msg →
          Occurs ("\"msg\":\"" ++ msg ++ "\"")
            (emitObject ((sortByKey (record env obj m.level msg (h.fieldsOf obj ++ fields))).map
                (fun kv => (kv.1, (encodeValue kv.2).getD ""))) ++ "\n")) := by
  have hnd := record_nodupKeys env obj m.level msg (h.fieldsOf obj ++ fields)
  have hvals : ∀ kv ∈ record env obj m.level msg (h.fieldsOf obj ++ fields),
      (encodeValue kv.2).isSome = true := by
    rintro ⟨k, v⟩ hkv
    have hg := (GoMap.mem_iff_get _ hnd k v).mp hkv
    rcases record_value env obj m.level msg _ k v hg with ⟨s, rfl⟩ | ⟨f, hf, rfl⟩
    · simp [encodeValue]
    · exact hser f hf
  have hbase := baseEntry_get env obj m.level msg
  have hglvl : (record env obj m.level msg (h.fieldsOf obj ++ fields)).get "lvl" =
      some (Value.str (levelNames m.level)) :=
    (record_get_base env obj m.level msg _ "lvl" hklvl).trans hbase.2.1
  have hgmsg : (record env obj m.level msg (h.fieldsOf obj ++ fields)).get "msg" =
      some (Value.str msg) :=
    (record_get_base env obj m.level msg _ "msg" hkmsg).trans hbase.2.2.1
  have hkeys : ∀ k, ((record env obj m.level msg (h.fieldsOf obj ++ fields)).get k).isSome = true →
      k ∈ (sortByKey (record env obj m.level msg (h.fieldsOf obj ++ fields))).map Prod.fst := by
    intro k hk
    obtain ⟨v, hv⟩ := Option.isSome_iff_exists.mp hk
    exact ((sortByKey_perm _).map Prod.fst).mem_iff.mpr (GoMap.mem_keys_of_get hv)
  have hsome : ∀ k, ((baseEntry env obj m.level msg).get k).isSome = true →
      ((record env obj m.level msg (h.fieldsOf obj ++ fields)).get k).isSome = true := by
    intro k hk
    unfold record
    rw [foldl_fields_get]
    cases lastValue (h.fieldsOf obj ++ fields) k with
    | some v => rfl
    | none => exact hk
  have hflvl := GoMap.filter_key _ (sortByKey_nodupKeys hnd) "lvl" _
    ((sortByKey_get hnd "lvl").trans hglvl)
  have hfmsg := GoMap.filter_key _ (sortByKey_nodupKeys hnd) "msg" _
    ((sortByKey_get hnd "msg").trans hgmsg)
  have hmemlvl : ("lvl", Value.str (levelNames m.level)) ∈
      sortByKey (record env obj m.level msg (h.fieldsOf obj ++ fields)) :=
    List.mem_of_mem_filter (hflvl ▸ List.mem_singleton_self _)
  have hmemmsg : ("msg", Value.str msg) ∈
      sortByKey (record env obj m.level msg (h.fieldsOf obj ++ fields)) :=
    List.mem_of_mem_filter (hfmsg ▸ List.mem_singleton_self _)
  refine ⟨?_, fun kv hkv => hvals kv (mem_sortByKey.mp hkv), ?_, hflvl, hfmsg, ?_, ?_⟩
  · rw [call_writes m env h l obj msg fields hl hwf.1 hpass]
    unfold lineOf
    rw [render_compact_object env henv obj m.level _ hnd hj hp hvals]
  · intro k hk
    simp only [List.mem_cons, List.mem_singleton, List.not_mem_nil, or_false] at hk
    rcases hk with rfl | rfl | rfl | rfl
    · exact hkeys _ (hsome _ (by simp [hbase.1]))
    · exact hkeys _ (hsome _ (by simp [hbase.2.1]))
    · exact hkeys _ (hsome _ (by simp [hbase.2.2.1]))
    · exact hkeys _ (hsome _ (by simp [hbase.2.2.2.1]))
  · have hocc := @occurs_emitObject
      ((sortByKey (record env obj m.level msg (h.fieldsOf obj ++ fields))).map
        (fun kv => (kv.1, (encodeValue kv.2).getD ""))) _
      (List.mem_map.mpr ⟨_, hmemlvl, rfl⟩)
    simp only [encodeValue, Option.getD_some] at hocc
    have htext : quote "lvl" ++ ":" ++ quote (levelNames m.level) =
        "\"lvl\":\"" ++ levelNames m.level ++ "\"" := by
      cases m <;> decide
    rw [htext] at hocc
    exact occurs_trans hocc (occurs_append_left _ _)
  · intro hesc
    have hocc := @occurs_emitObject
      ((sortByKey (record env obj m.level msg (h.fieldsOf obj ++ fields))).map
        (fun kv => (kv.1, (encodeValue kv.2).getD ""))) _
      (List.mem_map.mpr ⟨_, hmemmsg, rfl⟩)
    simp only [encodeValue, Option.getD_some] at hocc
    have htext : quote "msg" ++ ":" ++ quote msg = "\"msg\":\"" ++ msg ++ "\"" := by
      rw [quote_of_needsNoEscape msg hesc]
      have hq : quote "msg" ++ ":" = "\"msg\":" := by decide
      rw [hq]
      apply String.ext
      simp [String.data_append]
    rw [htext] at hocc
    exact occurs_trans hocc (occurs_append_left _ _)

set_option maxRecDepth 20000 in
/-- Witness of C11: the call of the test `TestLogger_JSONOutput`, with one field added. -/
theorem C11_compact_json_object_witness :
    exEnv.RangeVisitsAll
      ∧ (exLogger [.WithJSON true]).loggers[0]? =
          some ⟨1, "", Slice.nil, true, false, ⟨1, 2, 2⟩, none, false⟩
      ∧ (exLogger [.WithJSON true]).WF ⟨1, "", Slice.nil, true, false, ⟨1, 2, 2⟩, none, false⟩
      ∧ (1 : Level) ≤ Method.Info.level
      ∧ (Marshal (Value.int 7)).isSome = true
      ∧ "lvl" ∉ ["n"] ∧ "msg" ∉ ["n"]
      ∧ NeedsNoEscape "JSON formatted message"
      ∧ (Method.Info.call exEnv (exLogger [.WithJSON true]) 0 "JSON formatted message"
            [⟨"n", Value.int 7⟩]).writes =
          [(0, "\x7b\"layer\":\"\",\"lvl\":\"INFO\",\"msg\":\"JSON formatted message\",\"n\":7,\"ts\":\"2024-01-02T03:04:05Z\"\x7d\n"),
           (1, "\x7b\"layer\":\"\",\"lvl\":\"INFO\",\"msg\":\"JSON formatted message\",\"n\":7,\"ts\":\"2024-01-02T03:04:05Z\"\x7d\n")] :=
  ⟨exEnv_rangeVisitsAll, by decide, by decide, by decide, by decide, by decide, by decide,
    by decide,
    (C11_compact_json_object exEnv exEnv_rangeVisitsAll (exLogger [.WithJSON true]) 0
      ⟨1, "", Slice.nil, true, false, ⟨1, 2, 2⟩, none, false⟩ Method.Info
      "JSON formatted message" [⟨"n", Value.int 7⟩]
      (by decide) (by decide) (by decide) rfl rfl
      (fun f hf => by
        have : f = ⟨"n", Value.int 7⟩ := List.mem_singleton.mp hf
        subst this
        decide)
      (by decide) (by decide)).1.trans (by decide)⟩

/-! ## The key `layer` -/

/-- When every field value can be serialized, so can every value of the merged entry. -/
theorem record_serializable (env : Env) (obj : loggerImpl) (level : Level) (msg : String)
    (fs : List Field) (hser : ∀ f ∈ fs, (Marshal f.Value).isSome = true) :
    ∀ kv ∈ record env obj level msg fs, (encodeValue kv.2).isSome = true := by
  rintro ⟨k, v⟩ hkv
  have hg := (GoMap.mem_iff_get _ (record_nodupKeys env obj level msg fs) k v).mp hkv
  rcases record_value env obj level msg _ k v hg with ⟨s, rfl⟩ | ⟨f, hf, rfl⟩
  · simp [encodeValue]
  · exact hser f hf

/-- An option other than `WithLayer` leaves the layer of the logger as it is. -/
theorem option_layer (env : Env) (h : Heap) (p : Ptr) (obj : loggerImpl) (o : LoggerOption)
    (hp : h.loggers[p]? = some obj) (ho : o.setsLayer = false) :
    ∃ obj', (o.apply env h p).loggers[p]? = some obj' ∧ obj'.layer = obj.layer := by
  have hlt : p < h.loggers.length := (List.getElem?_eq_some_iff.mp hp).1
  cases o with
  | WithLayer layer => simp [LoggerOption.setsLayer] at ho
  | WithJSON e =>
    refine ⟨{ obj with jsonOutput := e }, ?_, rfl⟩
    simp only [LoggerOption.apply, hp]; exact List.getElem?_set_self hlt
  | WithPrettyJSON e =>
    refine ⟨{ obj with prettyJSON := e }, ?_, rfl⟩
    simp only [LoggerOption.apply, hp]; exact List.getElem?_set_self hlt
  | WithLevel lv =>
    refine ⟨{ obj with level := lv }, ?_, rfl⟩
    simp only [LoggerOption.apply, hp]; exact List.getElem?_set_self hlt
  | WithField f =>
    refine ⟨{ obj with fields := (goAppend env.growCap Field.zero h.fieldArrays obj.fields [f]).2 },
      ?_, rfl⟩
    simp only [LoggerOption.apply, hp]; exact List.getElem?_set_self hlt
  | WithCaller e =>
    refine ⟨{ obj with showCaller := e }, ?_, rfl⟩
    simp only [LoggerOption.apply, hp]; exact List.getElem?_set_self hlt

theorem options_layer (env : Env) (p : Ptr) (options : List LoggerOption) :
    ∀ (h : Heap) (obj : loggerImpl), h.loggers[p]? = some obj →
      (∀ o ∈ options, o.setsLayer = false) →
      ∃ obj', (options.foldl (fun h o => o.apply env h p) h).loggers[p]? = some obj'
        ∧ obj'.layer = obj.layer := by
  induction options with
  | nil => intro h obj hp _; exact ⟨obj, hp, rfl⟩
  | cons o rest ih =>
    intro h obj hp hall
    obtain ⟨obj1, h1, s1⟩ := option_layer env h p obj o hp (hall o (List.mem_cons_self _ _))
    obtain ⟨obj2, h2, s2⟩ := ih _ obj1 h1 (fun o' ho' => hall o' (List.mem_cons_of_mem _ ho'))
    exact ⟨obj2, h2, s2.trans s1⟩

/-- A logger made by `NewLogger` without the option `WithLayer` has the empty layer. -/
theorem NewLogger_layer (env : Env) (h : Heap) (options : List LoggerOption)
    (hall : ∀ o ∈ options, o.setsLayer = false) :
    ((NewLogger env h options).1.snapshot (NewLogger env h options).2).map Snapshot.layer =
      some "" := by
  have e : NewLogger env h options =
      (options.foldl (fun h' o => o.apply env h' (NewLogger env h []).2) (NewLogger env h []).1,
        (NewLogger env h []).2) := rfl
  have hp : (NewLogger env h []).1.loggers[(NewLogger env h []).2]? =
      some ⟨InfoLevel, "", Slice.nil, false, false, ⟨h.outArrays.length, 1, 1⟩, none, false⟩ := by
    simp [NewLogger, Heap.alloc]
  obtain ⟨obj', h', s'⟩ := options_layer env (NewLogger env h []).2 options _ _ hp hall
  rw [e]
  simp only [Heap.snapshot, h', Option.map_some', Heap.snapshotOf, s']

/-! ## The parts of a text line -/

/-- The head of a text line, part by part. -/
theorem textHead_parts (env : Env) (entry : GoMap) (level : String) :
    textHead env entry level =
      textTs env entry ++ " " ++ textLevel env level ++ textLayer env entry ++ textMsg entry
        ++ textCaller entry := by
  unfold textHead textTs textLevel textLayer textMsg textCaller
  by_cases h1 : env.isTerminal = true <;>
  by_cases h2 : ((entry.getString "layer").2 && decide ((entry.getString "layer").1 ≠ "")) = true <;>
  by_cases h3 : ((entry.getString "msg").2 && decide ((entry.getString "msg").1 ≠ "")) = true <;>
  by_cases h4 : ((entry.getString "caller").2 && decide ((entry.getString "caller").1 ≠ "")) = true <;>
  simp only [h1, h2, h3, h4, if_true, if_false, String.append_empty, Bool.false_eq_true]

theorem getString_of_get {m : GoMap} {k v : String} (hg : m.get k = some (Value.str v)) :
    m.getString k = (v, true) := by
  unfold GoMap.getString
  rw [hg]

/-! ## Further evaluations where the code departs from the specification -/

/-- C12, evaluated at a text logger and a call with the field `data` holding the map
`a: 1`: the trailing pair shows the `%v` form `map[a:1]`, with pretty-print off and on, while
`FormatField`, which no function calls, gives the embedded JSON the claim describes. -/
theorem C12_composite_value_not_json :
    (loggerImpl.Info exEnv (exLogger []) 0 "m"
          [⟨"data", Value.map [("a", Value.int 1)]⟩]).dataOf 1 =
        "2024-01-02T03:04:05Z [INFO] [UNKNOWN] m data: map[a:1]\n"
      ∧ (loggerImpl.Info exEnv (exLogger [.WithPrettyJSON true]) 0 "m"
          [⟨"data", Value.map [("a", Value.int 1)]⟩]).dataOf 1 =
        "2024-01-02T03:04:05Z [INFO] [UNKNOWN] m data: map[a:1]\n"
      ∧ (loggerImpl.Info exEnv (exLogger []) 0 "m"
          [⟨"ids", Value.list [Value.int 1, Value.str "b"]⟩]).dataOf 1 =
        "2024-01-02T03:04:05Z [INFO] [UNKNOWN] m ids: [1 b]\n"
      ∧ FormatField (Value.map [("a", Value.int 1)]) false = "\x7b\"a\":1\x7d"
      ∧ FormatField (Value.map [("a", Value.int 1)]) true = "\x7b\n  \"a\": 1\n\x7d"
      ∧ FormatField (Value.list [Value.int 1, Value.str "b"]) false = "[1,\"b\"]" := by
  decide

/-- C19, evaluated at a call of `Info` with message `x`: on a terminal the level tag is
written as the colour code, a space, `[INFO]` and the reset code, after the space that follows
the timestamp; without its colour codes the line has two spaces before `[INFO]` and differs
from the line written when the output is no terminal. -/
theorem C19_colour_adds_a_space :
    (loggerImpl.Info { exEnv with isTerminal := true } (exLogger []) 0 "x" []).dataOf 1 =
        "2024-01-02T03:04:05Z \x1b[32m [INFO]\x1b[0m [UNKNOWN] x\n"
      ∧ (loggerImpl.Info exEnv (exLogger []) 0 "x" []).dataOf 1 =
        "2024-01-02T03:04:05Z [INFO] [UNKNOWN] x\n"
      ∧ stripANSI "2024-01-02T03:04:05Z \x1b[32m [INFO]\x1b[0m [UNKNOWN] x\n" =
        "2024-01-02T03:04:05Z  [INFO] [UNKNOWN] x\n"
      ∧ stripANSI "2024-01-02T03:04:05Z \x1b[32m [INFO]\x1b[0m [UNKNOWN] x\n" ≠
        "2024-01-02T03:04:05Z [INFO] [UNKNOWN] x\n"
      ∧ stripANSI "2024-01-02T03:04:05Z \x1b[32m[INFO]\x1b[0m [UNKNOWN] x\n" =
        "2024-01-02T03:04:05Z [INFO] [UNKNOWN] x\n"
      ∧ applyColor "DEBUG" "t" = "\x1b[36mt\x1b[0m" ∧ applyColor "INFO" "t" = "\x1b[32mt\x1b[0m"
      ∧ applyColor "WARN" "t" = "\x1b[33mt\x1b[0m" ∧ applyColor "ERROR" "t" = "\x1b[31mt\x1b[0m"
      ∧ applyColor "FATAL" "t" = "\x1b[41m\x1b[37mt\x1b[0m" := by
  decide

/-- C20, evaluated at a logger built with `WithCaller(true)`: the logger returned by
`WithContext(ctx)` has the threshold of its parent, but its caller-capture flag is off; for the
same clock reading and call site the parent writes the caller and the child does not. -/
theorem C20_WithContext_drops_caller_flag :
    ((loggerImpl.WithContext exEnv (exLogger [.WithCaller true]) 0 (some 9)).1.loggers[1]?).map
        loggerImpl.level = ((exLogger [.WithCaller true]).loggers[0]?).map loggerImpl.level
      ∧ ((loggerImpl.WithContext exEnv (exLogger [.WithCaller true]) 0 (some 9)).1.loggers[1]?).map
          loggerImpl.ctx = some (some 9)
      ∧ ((exLogger [.WithCaller true]).loggers[0]?).map loggerImpl.showCaller = some true
      ∧ ((loggerImpl.WithContext exEnv (exLogger [.WithCaller true]) 0 (some 9)).1.loggers[1]?).map
          loggerImpl.showCaller = some false
      ∧ (loggerImpl.Info { exEnv with caller := some ⟨"/src/app/main.go", 42, some "main.main"⟩ }
            (loggerImpl.WithContext exEnv (exLogger [.WithCaller true]) 0 (some 9)).1 0 "x" []).dataOf 1 =
          "2024-01-02T03:04:05Z [INFO] [UNKNOWN] x (main.go:42 main.main)\n"
      ∧ (loggerImpl.Info { exEnv with caller := some ⟨"/src/app/main.go", 42, some "main.main"⟩ }
            (loggerImpl.WithContext exEnv (exLogger [.WithCaller true]) 0 (some 9)).1 1 "x" []).dataOf 1 =
          "2024-01-02T03:04:05Z [INFO] [UNKNOWN] x\n" := by
  decide

/-! ## Line terminators in text mode -/

theorem memberValue_isSome (pretty : Bool) (v : Value) :
    (memberValue pretty v).isSome = (encodeValue v).isSome := by
  unfold memberValue
  cases pretty with
  | true => simp only [if_true]; exact indentValue_isSome v 1
  | false => simp

theorem memberValue_str (pretty : Bool) (s : String) :
    memberValue pretty (Value.str s) = some (quote s) := by
  unfold memberValue
  cases pretty <;> simp [indentValue, encodeValue]

/-- In JSON mode, when every value of the entry can be serialized, the rendering is the
object whose members are the entries in key order, each with its encoding. -/
theorem render_object (env : Env) (henv : env.RangeVisitsAll) (obj : loggerImpl)
    (level : Level) (entry : GoMap) (hm : NodupKeys entry) (hj : obj.jsonOutput = true)
    (hser : ∀ kv ∈ entry, (encodeValue kv.2).isSome = true) :
    render env obj level entry =
      objectText obj.prettyJSON
        ((sortByKey entry).map (fun kv => (kv.1, (memberValue obj.prettyJSON kv.2).getD ""))) := by
  rw [render_json env henv obj level entry hm hj]
  unfold objectOf objectText memberValue
  cases obj.prettyJSON with
  | true =>
    simp only [if_true]
    rw [indentMembers_eq]
    have hall : (sortByKey entry).all (fun kv => (indentValue 1 kv.2).isSome) = true := by
      rw [List.all_eq_true]
      intro kv hkv
      rw [indentValue_isSome]
      exact hser kv (mem_sortByKey.mp hkv)
    simp [hall]
  | false =>
    simp only [Bool.false_eq_true, if_false]
    rw [encodeMembers_eq]
    have hall : (sortByKey entry).all (fun kv => (encodeValue kv.2).isSome) = true := by
      rw [List.all_eq_true]
      intro kv hkv
      exact hser kv (mem_sortByKey.mp hkv)
    simp [hall]

/-- The text of every member occurs in the indented object. -/
theorem occurs_emitObjectIndent {ms : List (String × String)} {p : String × String}
    (hp : p ∈ ms) (d : Nat) : Occurs (quote p.1 ++ ": " ++ p.2) (emitObjectIndent d ms) := by
  cases ms with
  | nil => simp at hp
  | cons a as =>
    have h1 : (quote p.1 ++ ": " ++ p.2) ∈ (a :: as).map (fun p => quote p.1 ++ ": " ++ p.2) :=
      List.mem_map.mpr ⟨p, hp, rfl⟩
    unfold emitObjectIndent
    exact occurs_trans (occurs_trans (occurs_trans
      (occurs_intercalate ("," ++ newlineIndent (d + 1)) h1) (occurs_append_right _ _))
      (occurs_append_left _ _)) (occurs_append_left _ _)

theorem occurs_objectText (pretty : Bool) {ms : List (String × String)} {p : String × String}
    (hp : p ∈ ms) : Occurs (memberText pretty p.1 p.2) (objectText pretty ms) := by
  unfold memberText objectText
  cases pretty with
  | true => simp only [if_true]; exact occurs_emitObjectIndent hp 0
  | false => simp only [Bool.false_eq_true, if_false]; exact occurs_emitObject hp

/-- Every text joined by `String.join` occurs in the result. -/
theorem occurs_join {l : List String} {a : String} (ha : a ∈ l) : Occurs a (String.join l) := by
  unfold Occurs
  rw [String.data_join]
  exact List.infix_of_mem_flatten (List.mem_map.mpr ⟨a, ha, rfl⟩)

/-- What JSON mode writes for an entry whose values can all be serialized: every member has an
encoding, the line is the object of the members in key order, and the member of a key the
entry holds stands in it once, with the value the entry holds. -/
theorem json_member (env : Env) (henv : env.RangeVisitsAll) (obj : loggerImpl)
    (level : Level) (entry : GoMap) (hm : NodupKeys entry) (hj : obj.jsonOutput = true)
    (hser : ∀ kv ∈ entry, (encodeValue kv.2).isSome = true)
    (k : String) (v : Value) (hg : entry.get k = some v) :
    (∀ kv ∈ sortByKey entry, (memberValue obj.prettyJSON kv.2).isSome = true)
      ∧ render env obj level entry =
          objectText obj.prettyJSON
            ((sortByKey entry).map (fun kv => (kv.1, (memberValue obj.prettyJSON kv.2).getD "")))
      ∧ (sortByKey entry).filter (fun kv => kv.1 = k) = [(k, v)]
      ∧ Occurs (memberText obj.prettyJSON k ((memberValue obj.prettyJSON v).getD ""))
          (render env obj level entry ++ "\n") := by
  have hf := GoMap.filter_key _ (sortByKey_nodupKeys hm) k v ((sortByKey_get hm k).trans hg)
  have hmem : (k, v) ∈ sortByKey entry := List.mem_of_mem_filter (hf ▸ List.mem_singleton_self _)
  refine ⟨?_, render_object env henv obj level entry hm hj hser, hf, ?_⟩
  · intro kv hkv
    rw [memberValue_isSome]
    exact hser kv (mem_sortByKey.mp hkv)
  · rw [render_object env henv obj level entry hm hj hser]
    have hocc := @occurs_objectText obj.prettyJSON
      ((sortByKey entry).map (fun kv => (kv.1, (memberValue obj.prettyJSON kv.2).getD ""))) _
      (List.mem_map.mpr ⟨_, hmem, rfl⟩)
    exact occurs_trans hocc (occurs_append_left _ _)

/-! ## One line per record -/

set_option maxRecDepth 20000 in
/-- Counterexample to C3 as stated: in text mode the field `lvl: v1` is bound and the call
passes `lvl: v2`; the last field with key `lvl` holds `v2`, yet the line shows the level of the
call and neither `v1` nor `v2` (in JSON mode the member `lvl` is `v2`). In JSON mode, when a
further field holds a channel, the line shows no value at all for the key `env`. -/
theorem C3_counterexample :
    lastValue [⟨"lvl", Value.str "v1"⟩, ⟨"lvl", Value.str "v2"⟩] "lvl" = some (Value.str "v2")
      ∧ (loggerImpl.Info exEnv (exLogger [.WithField ⟨"lvl", Value.str "v1"⟩]) 0 "z"
            [⟨"lvl", Value.str "v2"⟩]).dataOf 1 = "2024-01-02T03:04:05Z [INFO] [UNKNOWN] z\n"
      ∧ ¬ "v2".data <:+: "2024-01-02T03:04:05Z [INFO] [UNKNOWN] z\n".data
      ∧ (loggerImpl.Info exEnv (exLogger [.WithJSON true, .WithField ⟨"lvl", Value.str "v1"⟩]) 0 "z"
            [⟨"lvl", Value.str "v2"⟩]).dataOf 1 =
          "\x7b\"layer\":\"\",\"lvl\":\"v2\",\"msg\":\"z\",\"ts\":\"2024-01-02T03:04:05Z\"\x7d\n"
      ∧ (loggerImpl.Info exEnv (exLogger [.WithJSON true, .WithField ⟨"env", Value.str "prod"⟩]) 0
            "z" [⟨"env", Value.str "staging"⟩, ⟨"ch", Value.chan 5⟩]).dataOf 1 = "\n" :=
  ⟨rfl, by decide, by decide, by decide, by decide⟩

/-- C3 (amended): on a passing call the entry that is rendered holds, for every key `k`
carried by a bound or call-time field, exactly one value: that of the last field with key `k`
in the bound fields followed by the call-time fields. In JSON mode, when the value of every
field can be serialized, the line is the object of the entries in key order, it has exactly
one member `k`, with that value, and the text of this member stands in the line. In text mode
the line is the head computed from that entry followed by the trailing pairs; a key that is
not reserved has exactly one trailing pair, with that value, and its text stands in the line.
In particular a call-time field `k: v2` placed last wins over whatever was bound for `k`. -/
theorem C3_last_field_wins (env : Env) (henv : env.RangeVisitsAll) (h : Heap) (l : Ptr)
    (obj : loggerImpl) (m : Method) (msg : String) (fields : List Field) (k : String) (v : Value)
    (hl : h.loggers[l]? = some obj) (hwf : h.WF obj) (hpass : obj.level ≤ m.level)
    (hlast : lastValue (h.fieldsOf obj ++ fields) k = some v) :
    (m.call env h l msg fields).writes =
        h.writes ++ (h.sinksOf obj).map (fun w =>
          (w, render env obj m.level (record env obj m.level msg (h.fieldsOf obj ++ fields)) ++ "\n"))
      ∧ (record env obj m.level msg (h.fieldsOf obj ++ fields)).filter (fun kv => kv.1 = k) = [(k, v)]
      ∧ (obj.jsonOutput = true →
          (∀ f ∈ h.fieldsOf obj ++ fields, (Marshal f.Value).isSome = true) →
          (∀ kv ∈ sortByKey (record env obj m.level msg (h.fieldsOf obj ++ fields)),
              (memberValue obj.prettyJSON kv.2).isSome = true)
            ∧ render env obj m.level (record env obj m.level msg (h.fieldsOf obj ++ fields)) =
                objectText obj.prettyJSON
                  ((sortByKey (record env obj m.level msg (h.fieldsOf obj ++ fields))).map
                    (fun kv => (kv.1, (memberValue obj.prettyJSON kv.2).getD "")))
            ∧ (sortByKey (record env obj m.level msg (h.fieldsOf obj ++ fields))).filter
                (fun kv => kv.1 = k) = [(k, v)]
            ∧ Occurs (memberText obj.prettyJSON k ((memberValue obj.prettyJSON v).getD ""))
                (render env obj m.level (record env obj m.level msg (h.fieldsOf obj ++ fields))
                  ++ "\n"))
      ∧ (obj.jsonOutput = false →
          render env obj m.level (record env obj m.level msg (h.fieldsOf obj ++ fields)) =
              textHead env (record env obj m.level msg (h.fieldsOf obj ++ fields))
                  (levelNames m.level) ++
                String.join ((textPairs env
                  (record env obj m.level msg (h.fieldsOf obj ++ fields))).map textPair)
            ∧ (isReserved k = false →
                (textPairs env (record env obj m.level msg (h.fieldsOf obj ++ fields))).filter
                    (fun kv => kv.1 = k) = [(k, v)]
                  ∧ Occurs (" " ++ k ++ ": " ++ formatV v)
                      (render env obj m.level
                        (record env obj m.level msg (h.fieldsOf obj ++ fields)) ++ "\n")))
      ∧ (∀ (bound : List Field) (v2 : Value), lastValue (bound ++ [⟨k, v2⟩]) k = some v2) := by
  have hnd := record_nodupKeys env obj m.level msg (h.fieldsOf obj ++ fields)
  have hget := record_get_of_last env obj m.level msg (h.fieldsOf obj ++ fields) k v hlast
  refine ⟨call_writes m env h l obj msg fields hl hwf.1 hpass,
    GoMap.filter_key _ hnd k v hget, ?_, ?_, fun bound v2 => lastValue_append_singleton bound k v2⟩
  · intro hj hser
    exact json_member env henv obj m.level _ hnd hj
      (record_serializable env obj m.level msg _ hser) k v hget
  · intro hj
    refine ⟨render_text env henv obj m.level _ hnd hj, ?_⟩
    intro hk
    have hf := textPairs_filter_key env henv _ hnd k v hget hk
    refine ⟨hf, ?_⟩
    rw [render_text env henv obj m.level _ hnd hj]
    have hmem : (k, v) ∈ textPairs env (record env obj m.level msg (h.fieldsOf obj ++ fields)) :=
      List.mem_of_mem_filter (hf ▸ List.mem_singleton_self _)
    have hocc : Occurs (textPair (k, v)) (String.join ((textPairs env
        (record env obj m.level msg (h.fieldsOf obj ++ fields))).map textPair)) :=
      occurs_join (List.mem_map.mpr ⟨_, hmem, rfl⟩)
    exact occurs_trans (occurs_trans hocc (occurs_append_right _ _)) (occurs_append_left _ _)

set_option maxRecDepth 20000 in
/-- Witness of C3: the field `env: prod` is bound, the call passes `env: staging`; the line
written shows `staging` and not `prod`, in text mode and in JSON mode. -/
theorem C3_last_field_wins_witness :
    exEnv.RangeVisitsAll
      ∧ (exLogger [.WithField ⟨"env", Value.str "prod"⟩]).loggers[0]? =
          some ⟨1, "", ⟨0, 1, 1⟩, false, false, ⟨1, 2, 2⟩, none, false⟩
      ∧ (exLogger [.WithField ⟨"env", Value.str "prod"⟩]).WF
          ⟨1, "", ⟨0, 1, 1⟩, false, false, ⟨1, 2, 2⟩, none, false⟩
      ∧ (1 : Level) ≤ Method.Info.level
      ∧ lastValue ((exLogger [.WithField ⟨"env", Value.str "prod"⟩]).fieldsOf
            ⟨1, "", ⟨0, 1, 1⟩, false, false, ⟨1, 2, 2⟩, none, false⟩ ++
              [⟨"env", Value.str "staging"⟩]) "env" = some (Value.str "staging")
      ∧ isReserved "env" = false
      ∧ (Method.Info.call exEnv (exLogger [.WithField ⟨"env", Value.str "prod"⟩]) 0 "z"
            [⟨"env", Value.str "staging"⟩]).writes =
          [(0, "2024-01-02T03:04:05Z [INFO] [UNKNOWN] z env: staging\n"),
           (1, "2024-01-02T03:04:05Z [INFO] [UNKNOWN] z env: staging\n")]
      ∧ Occurs " env: staging" "2024-01-02T03:04:05Z [INFO] [UNKNOWN] z env: staging\n"
      ∧ ¬ Occurs "prod" "2024-01-02T03:04:05Z [INFO] [UNKNOWN] z env: staging\n"
      ∧ (exLogger [.WithJSON true, .WithField ⟨"env", Value.str "prod"⟩]).loggers[0]? =
          some ⟨1, "", ⟨0, 1, 1⟩, true, false, ⟨1, 2, 2⟩, none, false⟩
      ∧ (exLogger [.WithJSON true, .WithField ⟨"env", Value.str "prod"⟩]).WF
          ⟨1, "", ⟨0, 1, 1⟩, true, false, ⟨1, 2, 2⟩, none, false⟩
      ∧ (Marshal (Value.str "prod")).isSome = true
      ∧ (Marshal (Value.str "staging")).isSome = true
      ∧ (Method.Info.call exEnv (exLogger [.WithJSON true, .WithField ⟨"env", Value.str "prod"⟩]) 0
            "z" [⟨"env", Value.str "staging"⟩]).writes =
          [(0, "\x7b\"env\":\"staging\",\"layer\":\"\",\"lvl\":\"INFO\",\"msg\":\"z\",\"ts\":\"2024-01-02T03:04:05Z\"\x7d\n"),
           (1, "\x7b\"env\":\"staging\",\"layer\":\"\",\"lvl\":\"INFO\",\"msg\":\"z\",\"ts\":\"2024-01-02T03:04:05Z\"\x7d\n")]
      ∧ Occurs "\"env\":\"staging\""
          "\x7b\"env\":\"staging\",\"layer\":\"\",\"lvl\":\"INFO\",\"msg\":\"z\",\"ts\":\"2024-01-02T03:04:05Z\"\x7d\n"
      ∧ ¬ Occurs "prod"
          "\x7b\"env\":\"staging\",\"layer\":\"\",\"lvl\":\"INFO\",\"msg\":\"z\",\"ts\":\"2024-01-02T03:04:05Z\"\x7d\n" :=
  have ht := C3_last_field_wins exEnv exEnv_rangeVisitsAll
    (exLogger [.WithField ⟨"env", Value.str "prod"⟩]) 0
    ⟨1, "", ⟨0, 1, 1⟩, false, false, ⟨1, 2, 2⟩, none, false⟩ Method.Info "z"
    [⟨"env", Value.str "staging"⟩] "env" (Value.str "staging")
    (by decide) (by decide) (by decide) rfl
  have hj := C3_last_field_wins exEnv exEnv_rangeVisitsAll
    (exLogger [.WithJSON true, .WithField ⟨"env", Value.str "prod"⟩]) 0
    ⟨1, "", ⟨0, 1, 1⟩, true, false, ⟨1, 2, 2⟩, none, false⟩ Method.Info "z"
    [⟨"env", Value.str "staging"⟩] "env" (Value.str "staging")
    (by decide) (by decide) (by decide) rfl
  ⟨exEnv_rangeVisitsAll, by decide, by decide, by decide, rfl, by decide,
    ht.1, ((ht.2.2.2.1 rfl).2 (by decide)).2, by decide,
    by decide, by decide, by decide, by decide,
    hj.1, (hj.2.2.1 rfl (by decide)).2.2.2, by decide⟩

/-! ## The member `layer` of a logger without layer -/

set_option maxRecDepth 20000 in
/-- Counterexample to C13 as stated: a JSON logger on which no layer was set; the object
written by a passing call has the member `layer`, with the empty string. -/
theorem C13_counterexample :
    ((exLogger [.WithJSON true]).loggers[0]?).map loggerImpl.layer = some ""
      ∧ (loggerImpl.Info exEnv (exLogger [.WithJSON true]) 0 "x" []).dataOf 1 =
          "\x7b\"layer\":\"\",\"lvl\":\"INFO\",\"msg\":\"x\",\"ts\":\"2024-01-02T03:04:05Z\"\x7d\n"
      ∧ Occurs "\"layer\":"
          "\x7b\"layer\":\"\",\"lvl\":\"INFO\",\"msg\":\"x\",\"ts\":\"2024-01-02T03:04:05Z\"\x7d\n" :=
  ⟨by decide, by decide, by decide⟩

/-- C13 (amended): a logger made by `NewLogger` without the option `WithLayer` has the empty
layer; for every logger with the empty layer and every passing call none of whose fields
carries the key `layer`, the record assembled has the key `layer` exactly once, with the empty
string as its value. In JSON mode, when the value of every field can be serialized, the line
is the object of the entries in key order, it has the member `layer` exactly once, and the
line contains `"layer":""` (`"layer": ""` with pretty-print). In text mode the layer tag of
the line is `[UNKNOWN]`. -/
theorem C13_layer_member_present (env : Env) (henv : env.RangeVisitsAll) (h : Heap) (l : Ptr)
    (obj : loggerImpl) (m : Method) (msg : String) (fields : List Field)
    (hl : h.loggers[l]? = some obj) (hwf : h.WF obj) (hpass : obj.level ≤ m.level)
    (hlayer : obj.layer = "")
    (hk : "layer" ∉ (h.fieldsOf obj ++ fields).map Field.Key) :
    (∀ (h₀ : Heap) (options : List LoggerOption), (∀ o ∈ options, o.setsLayer = false) →
        ((NewLogger env h₀ options).1.snapshot (NewLogger env h₀ options).2).map Snapshot.layer =
          some "")
      ∧ (m.call env h l msg fields).writes =
          h.writes ++ (h.sinksOf obj).map (fun w =>
            (w, render env obj m.level (record env obj m.level msg (h.fieldsOf obj ++ fields))
              ++ "\n"))
      ∧ (record env obj m.level msg (h.fieldsOf obj ++ fields)).filter (fun kv => kv.1 = "layer") =
          [("layer", Value.str "")]
      ∧ (obj.jsonOutput = true →
          (∀ f ∈ h.fieldsOf obj ++ fields, (Marshal f.Value).isSome = true) →
          (∀ kv ∈ sortByKey (record env obj m.level msg (h.fieldsOf obj ++ fields)),
              (memberValue obj.prettyJSON kv.2).isSome = true)
            ∧ render env obj m.level (record env obj m.level msg (h.fieldsOf obj ++ fields)) =
                objectText obj.prettyJSON
                  ((sortByKey (record env obj m.level msg (h.fieldsOf obj ++ fields))).map
                    (fun kv => (kv.1, (memberValue obj.prettyJSON kv.2).getD "")))
            ∧ (sortByKey (record env obj m.level msg (h.fieldsOf obj ++ fields))).filter
                (fun kv => kv.1 = "layer") = [("layer", Value.str "")]
            ∧ Occurs (if obj.prettyJSON then "\"layer\": \"\"" else "\"layer\":\"\"")
                (render env obj m.level (record env obj m.level msg (h.fieldsOf obj ++ fields))
                  ++ "\n"))
      ∧ (obj.jsonOutput = false →
          render env obj m.level (record env obj m.level msg (h.fieldsOf obj ++ fields)) =
              textTs env (record env obj m.level msg (h.fieldsOf obj ++ fields)) ++ " "
                ++ textLevel env (levelNames m.level)
                ++ " [UNKNOWN]"
                ++ textMsg (record env obj m.level msg (h.fieldsOf obj ++ fields))
                ++ textCaller (record env obj m.level msg (h.fieldsOf obj ++ fields))
                ++ String.join ((textPairs env
                    (record env obj m.level msg (h.fieldsOf obj ++ fields))).map textPair)
            ∧ Occurs " [UNKNOWN]"
                (render env obj m.level (record env obj m.level msg (h.fieldsOf obj ++ fields))
                  ++ "\n")) := by
  have hnd := record_nodupKeys env obj m.level msg (h.fieldsOf obj ++ fields)
  have hg : (record env obj m.level msg (h.fieldsOf obj ++ fields)).get "layer" =
      some (Value.str "") := by
    rw [record_get_base env obj m.level msg _ "layer" hk,
      (baseEntry_get env obj m.level msg).2.2.2.1, hlayer]
  refine ⟨fun h₀ options hall => NewLogger_layer env h₀ options hall,
    call_writes m env h l obj msg fields hl hwf.1 hpass,
    GoMap.filter_key _ hnd "layer" _ hg, ?_, ?_⟩
  · intro hj hser
    have hm := json_member env henv obj m.level _ hnd hj
      (record_serializable env obj m.level msg _ hser) "layer" _ hg
    refine ⟨hm.1, hm.2.1, hm.2.2.1, ?_⟩
    have hocc := hm.2.2.2
    rw [memberValue_str, Option.getD_some] at hocc
    have htext : memberText obj.prettyJSON "layer" (quote "") =
        if obj.prettyJSON then "\"layer\": \"\"" else "\"layer\":\"\"" := by
      cases obj.prettyJSON <;> decide
    rw [htext] at hocc
    exact hocc
  · intro hj
    have hly : textLayer env (record env obj m.level msg (h.fieldsOf obj ++ fields)) =
        " [UNKNOWN]" := by
      unfold textLayer
      rw [getString_of_get hg]
      simp
    have hr : render env obj m.level (record env obj m.level msg (h.fieldsOf obj ++ fields)) =
        textTs env (record env obj m.level msg (h.fieldsOf obj ++ fields)) ++ " "
          ++ textLevel env (levelNames m.level)
          ++ " [UNKNOWN]"
          ++ textMsg (record env obj m.level msg (h.fieldsOf obj ++ fields))
          ++ textCaller (record env obj m.level msg (h.fieldsOf obj ++ fields))
          ++ String.join ((textPairs env
              (record env obj m.level msg (h.fieldsOf obj ++ fields))).map textPair) := by
      rw [render_text env henv obj m.level _ hnd hj, textHead_parts, hly]
    refine ⟨hr, ?_⟩
    rw [hr]
    exact occurs_trans (occurs_trans (occurs_trans (occurs_trans (occurs_append_right _ _)
      (occurs_append_left _ _)) (occurs_append_left _ _)) (occurs_append_left _ _))
      (occurs_append_left _ _)

set_option maxRecDepth 20000 in
/-- Witness of C13: the loggers of the example state on which no layer was set, in compact
JSON mode, in JSON mode with pretty-print, and in text mode. -/
theorem C13_layer_member_present_witness :
    exEnv.RangeVisitsAll
      ∧ (exLogger [.WithJSON true]).loggers[0]? =
          some ⟨1, "", Slice.nil, true, false, ⟨1, 2, 2⟩, none, false⟩
      ∧ (exLogger [.WithJSON true]).WF ⟨1, "", Slice.nil, true, false, ⟨1, 2, 2⟩, none, false⟩
      ∧ (1 : Level) ≤ Method.Info.level
      ∧ "layer" ∉ ["n"]
      ∧ (Marshal (Value.int 7)).isSome = true
      ∧ (Method.Info.call exEnv (exLogger [.WithJSON true]) 0 "x" [⟨"n", Value.int 7⟩]).writes =
          [(0, "\x7b\"layer\":\"\",\"lvl\":\"INFO\",\"msg\":\"x\",\"n\":7,\"ts\":\"2024-01-02T03:04:05Z\"\x7d\n"),
           (1, "\x7b\"layer\":\"\",\"lvl\":\"INFO\",\"msg\":\"x\",\"n\":7,\"ts\":\"2024-01-02T03:04:05Z\"\x7d\n")]
      ∧ Occurs "\"layer\":\"\""
          "\x7b\"layer\":\"\",\"lvl\":\"INFO\",\"msg\":\"x\",\"n\":7,\"ts\":\"2024-01-02T03:04:05Z\"\x7d\n"
      ∧ (exLogger [.WithJSON true, .WithPrettyJSON true]).loggers[0]? =
          some ⟨1, "", Slice.nil, true, true, ⟨1, 2, 2⟩, none, false⟩
      ∧ (exLogger [.WithJSON true, .WithPrettyJSON true]).WF
          ⟨1, "", Slice.nil, true, true, ⟨1, 2, 2⟩, none, false⟩
      ∧ (Method.Info.call exEnv (exLogger [.WithJSON true, .WithPrettyJSON true]) 0 "x"
            [⟨"n", Value.int 7⟩]).writes =
          [(0, "\x7b\n  \"layer\": \"\",\n  \"lvl\": \"INFO\",\n  \"msg\": \"x\",\n  \"n\": 7,\n  \"ts\": \"2024-01-02T03:04:05Z\"\n\x7d\n"),
           (1, "\x7b\n  \"layer\": \"\",\n  \"lvl\": \"INFO\",\n  \"msg\": \"x\",\n  \"n\": 7,\n  \"ts\": \"2024-01-02T03:04:05Z\"\n\x7d\n")]
      ∧ Occurs "\"layer\": \"\""
          "\x7b\n  \"layer\": \"\",\n  \"lvl\": \"INFO\",\n  \"msg\": \"x\",\n  \"n\": 7,\n  \"ts\": \"2024-01-02T03:04:05Z\"\n\x7d\n"
      ∧ (exLogger []).loggers[0]? = some ⟨1, "", Slice.nil, false, false, ⟨1, 2, 2⟩, none, false⟩
      ∧ (exLogger []).WF ⟨1, "", Slice.nil, false, false, ⟨1, 2, 2⟩, none, false⟩
      ∧ (Method.Info.call exEnv (exLogger []) 0 "x" [⟨"n", Value.int 7⟩]).writes =
          [(0, "2024-01-02T03:04:05Z [INFO] [UNKNOWN] x n: 7\n"),
           (1, "2024-01-02T03:04:05Z [INFO] [UNKNOWN] x n: 7\n")]
      ∧ Occurs " [UNKNOWN]" "2024-01-02T03:04:05Z [INFO] [UNKNOWN] x n: 7\n" :=
  have hc := C13_layer_member_present exEnv exEnv_rangeVisitsAll (exLogger [.WithJSON true]) 0
    ⟨1, "", Slice.nil, true, false, ⟨1, 2, 2⟩, none, false⟩ Method.Info "x"
    [⟨"n", Value.int 7⟩] (by decide) (by decide) (by decide) rfl (by decide)
  have hp := C13_layer_member_present exEnv exEnv_rangeVisitsAll
    (exLogger [.WithJSON true, .WithPrettyJSON true]) 0
    ⟨1, "", Slice.nil, true, true, ⟨1, 2, 2⟩, none, false⟩ Method.Info "x"
    [⟨"n", Value.int 7⟩] (by decide) (by decide) (by decide) rfl (by decide)
  have ht := C13_layer_member_present exEnv exEnv_rangeVisitsAll (exLogger []) 0
    ⟨1, "", Slice.nil, false, false, ⟨1, 2, 2⟩, none, false⟩ Method.Info "x"
    [⟨"n", Value.int 7⟩] (by decide) (by decide) (by decide) rfl (by decide)
  ⟨exEnv_rangeVisitsAll, by decide, by decide, by decide, by decide, by decide,
    hc.2.1, (hc.2.2.2.1 rfl (by decide)).2.2.2,
    by decide, by decide, hp.2.1, (hp.2.2.2.1 rfl (by decide)).2.2.2,
    by decide, by decide, ht.2.1, (ht.2.2.2.2 rfl).2⟩

/-! ## Fields with a reserved key: what the line shows -/

set_option maxRecDepth 20000 in
/-- Counterexample to C18 as stated: in text mode a call passes the field `lvl: TRACE`; the
line shows the level tag of the call, `[INFO]`, and `TRACE` nowhere. A field `layer: repo` is
shown in upper case, `[REPO]`. In JSON mode the member `lvl` is `TRACE`; when a further field
holds a channel, the line shows nothing of the field `msg: other`. -/
theorem C18_counterexample :
    (loggerImpl.Info exEnv (exLogger []) 0 "z" [⟨"lvl", Value.str "TRACE"⟩]).dataOf 1 =
        "2024-01-02T03:04:05Z [INFO] [UNKNOWN] z\n"
      ∧ ¬ Occurs "TRACE" "2024-01-02T03:04:05Z [INFO] [UNKNOWN] z\n"
      ∧ (loggerImpl.Info exEnv (exLogger []) 0 "z" [⟨"layer", Value.str "repo"⟩]).dataOf 1 =
          "2024-01-02T03:04:05Z [INFO] [REPO] z\n"
      ∧ (loggerImpl.Info exEnv (exLogger [.WithJSON true]) 0 "z" [⟨"lvl", Value.str "TRACE"⟩]).dataOf 1 =
          "\x7b\"layer\":\"\",\"lvl\":\"TRACE\",\"msg\":\"z\",\"ts\":\"2024-01-02T03:04:05Z\"\x7d\n"
      ∧ (loggerImpl.Info exEnv (exLogger [.WithJSON true]) 0 "z"
            [⟨"msg", Value.str "other"⟩, ⟨"ch", Value.chan 5⟩]).dataOf 1 = "\n" :=
  ⟨by decide, by decide, by decide, by decide, by decide⟩

/-- C18 (amended): when the last bound or call-time field with a reserved key `r` among `ts`,
`lvl`, `msg` and `layer` holds the string `v`, the record of a passing call holds `v` for `r`
in place of the value the logger supplied. In JSON mode, when the value of every field can be
serialized, the line is the object of the entries in key order, it has exactly one member `r`,
with the value `v`, and the text of this member, the quoted key, a colon and the quoted `v`,
stands in the line. Text rendering is the timestamp, the level tag, the layer tag, the
message, the caller and the trailing pairs: the timestamp is `v` for `r = ts` (the clock when
`v` is empty), the message is `v` for `r = msg`, the layer tag is what `strings.ToUpper` makes
of `v` for `r = layer` (`UNKNOWN` when `v` is empty), and the level tag is that of the level
of the call whatever the record holds for `lvl`. -/
theorem C18_reserved_key_override (env : Env) (henv : env.RangeVisitsAll) (h : Heap) (l : Ptr)
    (obj : loggerImpl) (m : Method) (msg : String) (fields : List Field) (r v : String)
    (hl : h.loggers[l]? = some obj) (hwf : h.WF obj) (hpass : obj.level ≤ m.level)
    (hr : r ∈ ["ts", "lvl", "msg", "layer"])
    (hlast : lastValue (h.fieldsOf obj ++ fields) r = some (Value.str v)) :
    (m.call env h l msg fields).writes =
        h.writes ++ (h.sinksOf obj).map (fun w =>
          (w, render env obj m.level (record env obj m.level msg (h.fieldsOf obj ++ fields))
            ++ "\n"))
      ∧ (record env obj m.level msg (h.fieldsOf obj ++ fields)).filter (fun kv => kv.1 = r) =
          [(r, Value.str v)]
      ∧ (obj.jsonOutput = true →
          (∀ f ∈ h.fieldsOf obj ++ fields, (Marshal f.Value).isSome = true) →
          (∀ kv ∈ sortByKey (record env obj m.level msg (h.fieldsOf obj ++ fields)),
              (memberValue obj.prettyJSON kv.2).isSome = true)
            ∧ render env obj m.level (record env obj m.level msg (h.fieldsOf obj ++ fields)) =
                objectText obj.prettyJSON
                  ((sortByKey (record env obj m.level msg (h.fieldsOf obj ++ fields))).map
                    (fun kv => (kv.1, (memberValue obj.prettyJSON kv.2).getD "")))
            ∧ (sortByKey (record env obj m.level msg (h.fieldsOf obj ++ fields))).filter
                (fun kv => kv.1 = r) = [(r, Value.str v)]
            ∧ Occurs (memberText obj.prettyJSON r (quote v))
                (render env obj m.level (record env obj m.level msg (h.fieldsOf obj ++ fields))
                  ++ "\n"))
      ∧ (obj.jsonOutput = false →
          render env obj m.level (record env obj m.level msg (h.fieldsOf obj ++ fields)) =
              textTs env (record env obj m.level msg (h.fieldsOf obj ++ fields)) ++ " "
                ++ textLevel env (levelNames m.level)
                ++ textLayer env (record env obj m.level msg (h.fieldsOf obj ++ fields))
                ++ textMsg (record env obj m.level msg (h.fieldsOf obj ++ fields))
                ++ textCaller (record env obj m.level msg (h.fieldsOf obj ++ fields))
                ++ String.join ((textPairs env
                    (record env obj m.level msg (h.fieldsOf obj ++ fields))).map textPair)
            ∧ (r = "ts" →
                textTs env (record env obj m.level msg (h.fieldsOf obj ++ fields)) =
                  if v = "" then env.now2 else v)
            ∧ (r = "msg" →
                textMsg (record env obj m.level msg (h.fieldsOf obj ++ fields)) =
                  if v = "" then "" else " " ++ v)
            ∧ (r = "layer" →
                textLayer env (record env obj m.level msg (h.fieldsOf obj ++ fields)) =
                  if v = "" then " [UNKNOWN]" else " [" ++ env.ToUpper v ++ "]")
            ∧ (env.isTerminal = false → textLevel env (levelNames m.level) =
                "[" ++ levelNames m.level ++ "]")) := by
  have hnd := record_nodupKeys env obj m.level msg (h.fieldsOf obj ++ fields)
  have hget := record_get_of_last env obj m.level msg (h.fieldsOf obj ++ fields) r _ hlast
  refine ⟨call_writes m env h l obj msg fields hl hwf.1 hpass,
    GoMap.filter_key _ hnd r _ hget, ?_, ?_⟩
  · intro hj hser
    have hm := json_member env henv obj m.level _ hnd hj
      (record_serializable env obj m.level msg _ hser) r _ hget
    refine ⟨hm.1, hm.2.1, hm.2.2.1, ?_⟩
    have hocc := hm.2.2.2
    rw [memberValue_str, Option.getD_some] at hocc
    exact hocc
  · intro hj
    refine ⟨?_, ?_, ?_, ?_, ?_⟩
    · rw [render_text env henv obj m.level _ hnd hj, textHead_parts]
    · intro hrt
      subst hrt
      unfold textTs
      rw [getString_of_get hget]
    · intro hrt
      subst hrt
      unfold textMsg
      rw [getString_of_get hget]
      by_cases hv : v = "" <;> simp [hv]
    · intro hrt
      subst hrt
      unfold textLayer
      rw [getString_of_get hget]
      by_cases hv : v = "" <;> simp [hv]
    · intro hterm
      unfold textLevel
      simp [hterm]

set_option maxRecDepth 20000 in
/-- Witness of C18: the call passes the field `msg: other`; the text line shows `other` as
its message, and the JSON line has the member `"msg":"other"`. -/
theorem C18_reserved_key_override_witness :
    exEnv.RangeVisitsAll
      ∧ (exLogger []).loggers[0]? = some ⟨1, "", Slice.nil, false, false, ⟨1, 2, 2⟩, none, false⟩
      ∧ (exLogger []).WF ⟨1, "", Slice.nil, false, false, ⟨1, 2, 2⟩, none, false⟩
      ∧ (1 : Level) ≤ Method.Info.level
      ∧ "msg" ∈ ["ts", "lvl", "msg", "layer"]
      ∧ lastValue ((exLogger []).fieldsOf ⟨1, "", Slice.nil, false, false, ⟨1, 2, 2⟩, none, false⟩
            ++ [⟨"msg", Value.str "other"⟩]) "msg" = some (Value.str "other")
      ∧ (record exEnv ⟨1, "", Slice.nil, false, false, ⟨1, 2, 2⟩, none, false⟩ Method.Info.level "z"
            ((exLogger []).fieldsOf ⟨1, "", Slice.nil, false, false, ⟨1, 2, 2⟩, none, false⟩
              ++ [⟨"msg", Value.str "other"⟩])).filter (fun kv => kv.1 = "msg") =
          [("msg", Value.str "other")]
      ∧ (Method.Info.call exEnv (exLogger []) 0 "z" [⟨"msg", Value.str "other"⟩]).dataOf 1 =
          "2024-01-02T03:04:05Z [INFO] [UNKNOWN] other\n"
      ∧ (exLogger [.WithJSON true]).loggers[0]? =
          some ⟨1, "", Slice.nil, true, false, ⟨1, 2, 2⟩, none, false⟩
      ∧ (exLogger [.WithJSON true]).WF ⟨1, "", Slice.nil, true, false, ⟨1, 2, 2⟩, none, false⟩
      ∧ (Marshal (Value.str "other")).isSome = true
      ∧ (Method.Info.call exEnv (exLogger [.WithJSON true]) 0 "z"
            [⟨"msg", Value.str "other"⟩]).writes =
          [(0, "\x7b\"layer\":\"\",\"lvl\":\"INFO\",\"msg\":\"other\",\"ts\":\"2024-01-02T03:04:05Z\"\x7d\n"),
           (1, "\x7b\"layer\":\"\",\"lvl\":\"INFO\",\"msg\":\"other\",\"ts\":\"2024-01-02T03:04:05Z\"\x7d\n")]
      ∧ Occurs "\"msg\":\"other\""
          "\x7b\"layer\":\"\",\"lvl\":\"INFO\",\"msg\":\"other\",\"ts\":\"2024-01-02T03:04:05Z\"\x7d\n" :=
  have hj := C18_reserved_key_override exEnv exEnv_rangeVisitsAll (exLogger [.WithJSON true]) 0
    ⟨1, "", Slice.nil, true, false, ⟨1, 2, 2⟩, none, false⟩ Method.Info "z"
    [⟨"msg", Value.str "other"⟩] "msg" "other"
    (by decide) (by decide) (by decide) (by decide) rfl
  ⟨exEnv_rangeVisitsAll, by decide, by decide, by decide, by decide, rfl,
    (C18_reserved_key_override exEnv exEnv_rangeVisitsAll (exLogger []) 0
      ⟨1, "", Slice.nil, false, false, ⟨1, 2, 2⟩, none, false⟩ Method.Info "z"
      [⟨"msg", Value.str "other"⟩] "msg" "other"
      (by decide) (by decide) (by decide) (by decide) rfl).2.1,
    by decide, by decide, by decide, by decide,
    hj.1, (hj.2.2.1 rfl (by decide)).2.2.2⟩

end Logcore
